import Mathlib

/-! # Cluster suite: lock-ID table, proc dump and debug buffer, message framing, mkfs geometry, ccs client

Shallow embeddings of five parts of the repository, each in its own namespace:

* Dlm: the lock-ID table of the DLM kernel module (dlm-kernel/src/lkb.c);
* DlmProc: the resource-directory dump iterator and the debug ring buffer
  (dlm-kernel/src/proc.c);
* Magma: the message framing of the Magma library (magma/lib/message.c);
* Mkfs: the journal and resource-group layout of mkfs
  (gfs/gfs_mkfs/fs_geometry.c);
* Ccs: the bind/connect loop of the configuration client (ccs/lib/libccs.c).

All definitions come first, the theorems follow.

Lock-ID table: pointers to LKBs are natural-number addresses into an LKB memory; a bucket's
intrusive list is the list of the addresses linked on it, head first.  Every call
is modelled as one atomic sequential step, so the reader/writer lock guarding
the table carries no state here.  Machine integers are naturals or integers
reduced modulo their width.  Outcomes of functions that are not part of the
files modelled (allocators, random bytes, reads and writes on descriptors) are
arguments of the functions that call them.
-/

set_option autoImplicit false

namespace Dlm

/-! ## Data model -/

/-- The four 64-bit slots that lkb_range points to: granted and requested range. -/
structure gd_range where
  gr_range_start : Nat
  gr_range_end : Nat
  rq_range_start : Nat
  rq_range_end : Nat
deriving DecidableEq, Repr

/-- The fields of gd_lkb_t that lkb.c reads or writes.  lkb_parent and lkb_lvbptr
are pointers (none is NULL); lkb_range owns its four slots; lkb_childcnt is an
atomic_t. -/
structure gd_lkb where
  lkb_id : Nat
  lkb_status : Nat
  lkb_flags : Nat
  lkb_parent : Option Nat
  lkb_childcnt : Int
  lkb_lvbptr : Option Nat
  lkb_range : Option gd_range
deriving DecidableEq, Repr

/-- One bucket of the lock-ID table: the LKBs linked on its list (head first) and
its counter.  The struct is declared in dlm_internal.h, which is not in src; the
counter is 16 bits wide, as the comment above create_lkb says. -/
structure gd_lockidtbl_entry where
  list : List Nat
  counter : Nat
deriving DecidableEq, Repr

/-- The lockspace fields used by lkb.c, together with the memory its pointers
refer to.  ls_lockidtbl is none when the pointer does not refer to a live array
(NULL, or freed); lkb_mem maps the address of every live LKB to its contents;
lvb_mem marks the live value-block buffers. -/
structure gd_ls where
  ls_lockidtbl_size : Nat
  ls_lockidtbl : Option (List gd_lockidtbl_entry)
  lkb_mem : Nat → Option gd_lkb
  lvb_mem : Nat → Bool

/-- The errno value ENOMEM of the kernel headers. -/
def ENOMEM : Int := 12

/-- Contents of a bucket slot that was never written. -/
def raw_entry : gd_lockidtbl_entry := ⟨[], 0⟩

/-- Read ls->ls_lockidtbl[i].  A read outside the live array is undefined in C
and yields raw_entry here. -/
def gd_ls.entry (ls : gd_ls) (i : Nat) : gd_lockidtbl_entry :=
  ((ls.ls_lockidtbl.getD [])[i]?).getD raw_entry

/-- Write ls->ls_lockidtbl[i] = e.  A write outside the live array is dropped. -/
def gd_ls.set_entry (ls : gd_ls) (i : Nat) (e : gd_lockidtbl_entry) : gd_ls :=
  { ls with ls_lockidtbl := ls.ls_lockidtbl.map (fun t => t.set i e) }

/-- Read lkb->lkb_id through a pointer; none for a pointer to no live LKB. -/
def gd_ls.id_of (ls : gd_ls) (lkb : Nat) : Option Nat :=
  (ls.lkb_mem lkb).map (fun L => L.lkb_id)

/-- Store the contents of an LKB at an address of the LKB memory. -/
def gd_ls.store_lkb (ls : gd_ls) (lkb : Nat) (L : gd_lkb) : gd_ls :=
  { ls with lkb_mem := Function.update ls.lkb_mem lkb (some L) }

/-! ## Operations -/

/-- Internal find lock by ID: mask the low 16 bits as bucket index, reject an
index beyond the table, scan the bucket list for the first LKB with that id. -/
def __find_lock_by_id (ls : gd_ls) (lkid : Nat) : Option Nat :=
  let entry := lkid &&& 0xFFFF
  if entry ≥ ls.ls_lockidtbl_size then none
  else (ls.entry entry).list.find? (fun lkb => ls.id_of lkb == some lkid)

/-- The lookup find_lock_by_id: the internal lookup between read_lock and
read_unlock.  It returns the lockspace it leaves behind and the LKB found. -/
def find_lock_by_id (ls : gd_ls) (lkid : Nat) : gd_ls × Option Nat :=
  let lkb := __find_lock_by_id ls lkid
  (ls, lkb)

/-- The value of the C expression a & b on two 32-bit ints, as a bit pattern. -/
def int_and (a b : Int) : Nat :=
  (a % 2 ^ 32).toNat &&& (b % 2 ^ 32).toNat

/-- The condition of the assertion in init_lockidtbl: !(entries & (entries - 1)). -/
def entries_check (entries : Int) : Bool :=
  int_and entries (entries - 1) == 0

/-- The initialisation loop of init_lockidtbl over the freshly allocated array. -/
def init_buckets (entries : Int) (t : List gd_lockidtbl_entry) : List gd_lockidtbl_entry :=
  (List.range entries.toNat).foldl (fun acc i => acc.set i ⟨[], 1⟩) t

/-- Modelled from the spec: the macro GDLM_ASSERT is defined in dlm_internal.h,
which is not in src.  A failed assertion is an internal defect and the call
that made it does not go on (none). -/
def GDLM_ASSERT (cond : Bool) : Option Unit :=
  if cond then some () else none

/-- The function init_lockidtbl.  kmalloc_ok tells whether the bucket array could be
allocated.  The result is none when the assertion fails, else the return value
and the lockspace. -/
def init_lockidtbl (ls : gd_ls) (entries : Int) (kmalloc_ok : Bool) : Option (Int × gd_ls) :=
  match GDLM_ASSERT (entries_check entries) with
  | none => none
  | some _ =>
    let ls1 := { ls with ls_lockidtbl_size := (entries % 2 ^ 32).toNat }
    if !kmalloc_ok then
      some (-ENOMEM, { ls1 with ls_lockidtbl := none })
    else
      let t := List.replicate entries.toNat raw_entry
      some (0, { ls1 with ls_lockidtbl := some (init_buckets entries t) })

/-- The function free_lockidtbl: -1 and nothing freed if some bucket of the table
still has an LKB on its list, else the array is freed and 0 returned. -/
def free_lockidtbl (ls : gd_ls) : Int × gd_ls :=
  if (List.range ls.ls_lockidtbl_size).any (fun i => !(ls.entry i).list.isEmpty) then
    (-1, ls)
  else
    (0, { ls with ls_lockidtbl := none })

/-- The bucket selected by one random draw: the 16 random bits masked with
ls_lockidtbl_size - 1 (computed in 32 bits) and stored back into 16 bits. -/
def draw_bucket (ls : gd_ls) (rnd : Nat) : Nat :=
  ((rnd % 2 ^ 16) &&& ((ls.ls_lockidtbl_size + 2 ^ 32 - 1) % 2 ^ 32)) % 2 ^ 16

/-- The lock id composed by one draw: bucket | (counter << 16), as 32 bits. -/
def draw_lkid (ls : gd_ls) (rnd : Nat) : Nat :=
  (draw_bucket ls rnd ||| ((ls.entry (draw_bucket ls rnd)).counter <<< 16)) % 2 ^ 32

/-- The lockspace after the body of the do-while loop of create_lkb has run once:
the drawn bucket's counter is post-incremented in 16 bits. -/
def create_lkb_draw (ls : gd_ls) (rnd : Nat) : gd_ls :=
  let bucket := draw_bucket ls rnd
  let e := ls.entry bucket
  ls.set_entry bucket { e with counter := (e.counter + 1) % 2 ^ 16 }

/-- The do-while loop of create_lkb, driven by the successive values that
get_random_bytes delivers.  It ends at the first draw whose id is not found in
the table and yields the lockspace, bucket and id of that draw; none when the
given draws are used up before the loop ends. -/
def create_lkb_loop (ls : gd_ls) : List Nat → Option (gd_ls × Nat × Nat)
  | [] => none
  | rnd :: rest =>
    let bucket := draw_bucket ls rnd
    let lkid := draw_lkid ls rnd
    let ls1 := create_lkb_draw ls rnd
    if (__find_lock_by_id ls1 lkid).isSome then create_lkb_loop ls1 rest
    else some (ls1, bucket, lkid)

/-- The call list_add(&lkb->lkb_idtbl_list, &ls->ls_lockidtbl[bucket].list): link
the LKB at the head of the bucket list. -/
def list_add (ls : gd_ls) (lkb bucket : Nat) : gd_ls :=
  let e := ls.entry bucket
  ls.set_entry bucket { e with list := lkb :: e.list }

/-- The call list_del(&lkb->lkb_idtbl_list): unlink the LKB from the list it is on. -/
def list_del (ls : gd_ls) (lkb : Nat) : gd_ls :=
  { ls with ls_lockidtbl :=
      ls.ls_lockidtbl.map (fun t => t.map (fun e => { e with list := e.list.erase lkb })) }

/-- The function create_lkb.  alloc is what allocate_lkb returns: none for NULL, or
the address of the new LKB with its initial contents; draws are the values
get_random_bytes delivers.  The result is none when the draws are used up before
the loop ends, else the lockspace and the returned pointer. -/
def create_lkb (ls : gd_ls) (alloc : Option (Nat × gd_lkb)) (draws : List Nat) :
    Option (gd_ls × Option Nat) :=
  match alloc with
  | none => some (ls, none)
  | some (lkb, raw) =>
    let ls0 := ls.store_lkb lkb raw
    match create_lkb_loop ls0 draws with
    | none => none
    | some (ls1, bucket, lkid) =>
      let ls2 := ls1.store_lkb lkb { raw with lkb_id := lkid }
      some (list_add ls2 lkb bucket, some lkb)

/-- The value an atomic_t holds after atomic_dec: one less, in 32-bit two's
complement. -/
def atomic_dec (v : Int) : Int :=
  (v - 1 + 2 ^ 31) % 2 ^ 32 - 2 ^ 31

/-- The call atomic_dec(&parent->lkb_childcnt) on the LKB a parent pointer refers
to.  A pointer to no live LKB leaves the memory as it is. -/
def dec_childcnt (ls : gd_ls) (parent : Nat) : gd_ls :=
  match ls.lkb_mem parent with
  | none => ls
  | some P => ls.store_lkb parent { P with lkb_childcnt := atomic_dec P.lkb_childcnt }

/-- The call free_lvb(lvb): the value-block buffer is no longer live. -/
def free_lvb (ls : gd_ls) (lvb : Nat) : gd_ls :=
  { ls with lvb_mem := Function.update ls.lvb_mem lvb false }

/-- The call free_lkb(lkb): the LKB (with the range slots it owns, released just
before by free_range) is no longer live. -/
def free_lkb (ls : gd_ls) (lkb : Nat) : gd_ls :=
  { ls with lkb_mem := Function.update ls.lkb_mem lkb none }

/-- The function release_lkb.  mstcpy is the flag bit GDLM_LKFLG_MSTCPY.  A pointer
to no live LKB (outside the contract of the C function) leaves the lockspace
as it is. -/
def release_lkb (mstcpy : Nat) (ls : gd_ls) (lkb : Nat) : gd_ls :=
  match ls.lkb_mem lkb with
  | none => ls
  | some L =>
    if L.lkb_status ≠ 0 then ls
    else
      let ls1 : gd_ls :=
        match L.lkb_parent with
        | none => ls
        | some parent => dec_childcnt ls parent
      let ls2 := list_del ls1 lkb
      let ls3 : gd_ls :=
        match L.lkb_lvbptr with
        | none => ls2
        | some lvb => if L.lkb_flags &&& mstcpy ≠ 0 then free_lvb ls2 lvb else ls2
      free_lkb ls3 lkb

/-! ## Invariants and reachable tables -/

/-- The table is a live array of exactly ls_lockidtbl_size buckets. -/
def table_ok (ls : gd_ls) : Prop :=
  ∃ t, ls.ls_lockidtbl = some t ∧ t.length = ls.ls_lockidtbl_size

/-- The LKB at this address is linked on some bucket list of the table. -/
def in_table (ls : gd_ls) (lkb : Nat) : Prop :=
  ∃ i, i < ls.ls_lockidtbl_size ∧ lkb ∈ (ls.entry i).list

/-- The LKID invariant: every LKB on bucket list i is live and the low 16 bits of
its id are i, no LKB is linked twice on a list, and two LKBs of the table with
the same id are the same LKB. -/
structure lkid_inv (ls : gd_ls) : Prop where
  table : table_ok ls
  bucket : ∀ i, i < ls.ls_lockidtbl_size → ∀ lkb ∈ (ls.entry i).list,
    ∃ L, ls.lkb_mem lkb = some L ∧ L.lkb_id &&& 0xFFFF = i
  nodup : ∀ i, i < ls.ls_lockidtbl_size → (ls.entry i).list.Nodup
  unique : ∀ a b, in_table ls a → in_table ls b → ls.id_of a = ls.id_of b → a = b

/-- The lockspaces reached from a successful init_lockidtbl(ls, entries) by
create_lkb and release_lkb calls that returned.  allocate_lkb hands out only
addresses that hold no live LKB.  The last index lists the ids of the LKBs
created so far, latest first. -/
inductive reachable (mstcpy : Nat) (entries : Int) : gd_ls → List Nat → Prop
  | init (ls0 ls : gd_ls) :
      init_lockidtbl ls0 entries true = some (0, ls) → reachable mstcpy entries ls []
  | create (ls ls1 : gd_ls) (hist : List Nat) (lkb lkid : Nat) (raw : gd_lkb)
      (draws : List Nat) :
      reachable mstcpy entries ls hist → ls.lkb_mem lkb = none →
      create_lkb ls (some (lkb, raw)) draws = some (ls1, some lkb) →
      ls1.id_of lkb = some lkid →
      reachable mstcpy entries ls1 (lkid :: hist)
  | release (ls : gd_ls) (hist : List Nat) (lkb : Nat) :
      reachable mstcpy entries ls hist →
      reachable mstcpy entries (release_lkb mstcpy ls lkb) hist

/-- The function lkb_set_range, on the LKB it is given.  alloc is what
allocate_range returns when it is called: none for NULL, or the initial contents
of the four slots.  The slots GR_RANGE_START, GR_RANGE_END, RQ_RANGE_START and
RQ_RANGE_END are the four fields of gd_range.  The result is the return value and
the LKB after the call. -/
def lkb_set_range (lkb : gd_lkb) (start endv : Nat) (alloc : Option gd_range) : Int × gd_lkb :=
  match lkb.lkb_range with
  | none =>
    match alloc with
    | none => (-ENOMEM, { lkb with lkb_range := none })
    | some raw =>
      let r1 := { raw with gr_range_start := 0, gr_range_end := 0xffffffffffffffff }
      let r2 := { r1 with rq_range_start := start, rq_range_end := endv }
      (0, { lkb with lkb_range := some r2 })
  | some r =>
    let r2 := { r with rq_range_start := start, rq_range_end := endv }
    (0, { lkb with lkb_range := some r2 })

end Dlm

/-! # Resource-directory dump iterator (dlm-kernel/src/proc.c)

The resource hash table is an array of circular list heads.  A bucket is the
chain of resources linked on its head, in chain order.  A pointer into the ring
of a bucket with n resources is a position 0..n: position k < n is the hash-chain
node of the k-th resource and position n is the list head itself, so that the
successor of position k is (k + 1) mod (n + 1) and the head's successor is
position 0. -/

namespace DlmProc

/-- The lockspace fields used by next_rsb.  ls_reshashtbl gives what the memory at
each index of the array holds, read as a list head; the array proper has
ls_hashsize elements. -/
structure gd_ls where
  ls_hashsize : Nat
  ls_reshashtbl : Nat → List Nat

/-- The dump cursor struct ls_dumpinfo (its ls pointer is passed alongside). -/
structure ls_dumpinfo where
  entry : Nat
  next : Option Nat
  rsb : Option Nat
deriving DecidableEq, Repr

/-- The loop of next_rsb looking for the next non-empty hash bucket:
while (list_empty(&tbl[entry]) && entry < ls_hashsize) entry++.
The first argument bounds the number of times the condition is evaluated. -/
def skip_empty (ls : gd_ls) : Nat → Nat → Nat
  | 0, entry => entry
  | fuel + 1, entry =>
    if (ls.ls_reshashtbl entry).isEmpty && decide (entry < ls.ls_hashsize) then
      skip_empty ls fuel (entry + 1)
    else entry

/-- The branch of next_rsb taken when di->next is NULL.  The result is the cursor
after the call and whether the call returned the cursor (true) or NULL. -/
def next_rsb_top (ls : gd_ls) (di : ls_dumpinfo) : ls_dumpinfo × Bool :=
  let entry := skip_empty ls (ls.ls_hashsize + 1 - di.entry) di.entry
  let di1 := { di with entry := entry }
  if entry ≥ ls.ls_hashsize then (di1, false)
  else
    let di2 := { di1 with next := some 0 }
    ({ di2 with rsb := (ls.ls_reshashtbl entry)[0]? }, true)

/-- The function next_rsb.  When the successor of the current node is the list
head the cursor moves to the next bucket and the call starts over with
di->next = NULL. -/
def next_rsb (ls : gd_ls) (di : ls_dumpinfo) : ls_dumpinfo × Bool :=
  match di.next with
  | none => next_rsb_top ls di
  | some k =>
    let n := (ls.ls_reshashtbl di.entry).length
    let k1 := (k + 1) % (n + 1)
    let di1 := { di with next := some k1 }
    if (k1 + 1) % (n + 1) = 0 then
      next_rsb_top ls { di1 with next := none, entry := di1.entry + 1 }
    else
      ({ di1 with rsb := (ls.ls_reshashtbl di1.entry)[k1]? }, true)

/-- The results of the first calls of next_rsb on a cursor, up to and including
the first NULL: some r for a call that returned the cursor with di->rsb = r,
none for the call that returned NULL.  The first argument bounds the number of
calls. -/
def rsb_walk (ls : gd_ls) : Nat → ls_dumpinfo → List (Option Nat)
  | 0, _ => []
  | calls + 1, di =>
    match next_rsb ls di with
    | (_, false) => [none]
    | (di1, true) => di1.rsb :: rsb_walk ls calls di1

/-- The cursor as s_start sets it up: entry = 0 and no current position. -/
def start_cursor : ls_dumpinfo := { entry := 0, next := none, rsb := none }

/-- The resources chained in the table, bucket after bucket in increasing index
and in chain order inside a bucket. -/
def all_rsbs (ls : gd_ls) : List Nat :=
  ((List.range ls.ls_hashsize).map ls.ls_reshashtbl).flatten

/-- The resources chained in the buckets from index e on, in the same order. -/
def rsbs_from (ls : gd_ls) (e : Nat) : List Nat :=
  ((List.range' e (ls.ls_hashsize - e)).map ls.ls_reshashtbl).flatten

end DlmProc

/-! # Message framing (magma/lib/message.c)

Buffers are lists of bytes.  The platform is taken to be LP64: int is 32 bits,
ssize_t and unsigned long are 64 bits, sizeof (struct msg_struct) is 8. -/

namespace Magma

/-- The parts of the environment that message.c uses and that are declared
elsewhere: the constants MSG_MAX_SIZE, MSG_READ and MSG_WRITE, the checksum
clu_crc32 over a byte buffer, and the flags clist_get_flags reports for a
descriptor. -/
structure msg_env where
  MSG_MAX_SIZE : Int
  MSG_READ : Nat
  MSG_WRITE : Nat
  clu_crc32 : List Nat → Int
  clist_get_flags : Int → Nat

def EPERM : Int := 1
def EBADF : Int := 9
def ENOMEM : Int := 12
def EINVAL : Int := 22

/-- The value of sizeof (struct msg_struct): two packed 32-bit fields. -/
def sizeof_msg_struct : Nat := 8

/-- The bytes of a 32-bit value in little-endian order. -/
def le32 (v : Nat) : List Nat :=
  [v % 256, v / 256 % 256, v / 65536 % 256, v / 16777216 % 256]

/-- The header struct msg_struct. -/
structure msg_struct where
  ms_count : Nat
  ms_crc32 : Nat
deriving DecidableEq, Repr

/-- The eight bytes of a header as they stand in a frame: both fields
little-endian (the byte swap on big-endian hosts makes the layout the same
everywhere). -/
def hdr_bytes (h : msg_struct) : List Nat :=
  le32 h.ms_count ++ le32 h.ms_crc32

/-- What the pointer *msg holds after msg_create: left as it was (never
assigned), NULL, or a buffer malloc returned with the bytes copied into it. -/
inductive msg_ptr where
  | unset
  | null
  | buf (bytes : List Nat)
deriving DecidableEq, Repr

/-- The function msg_create.  payload is none for a NULL pointer; malloc_ok tells
whether malloc succeeds.  The result is the unsigned long return value, *msg and
the errno value stored, if any. -/
def msg_create (env : msg_env) (payload : Option (List Nat)) (len : Int) (malloc_ok : Bool) :
    Nat × msg_ptr × Option Int :=
  let data := (payload.getD []).take len.toNat
  let msg_hdr : msg_struct :=
    { ms_count := (len % 2 ^ 32).toNat, ms_crc32 := (env.clu_crc32 data % 2 ^ 32).toNat }
  if len = 0 ∨ payload = none then (sizeof_msg_struct, msg_ptr.unset, none)
  else if !malloc_ok then (2 ^ 64 - 1, msg_ptr.null, some ENOMEM)
  else
    let ret := (((sizeof_msg_struct : Int) + len) % 2 ^ 64).toNat
    (ret, msg_ptr.buf (hdr_bytes msg_hdr ++ data), none)

/-- The value of a 32-bit pattern read as an int. -/
def to_int32 (v : Int) : Int :=
  (v + 2 ^ 31) % 2 ^ 32 - 2 ^ 31

/-- The value of a 64-bit pattern read as an ssize_t. -/
def to_int64 (v : Int) : Int :=
  (v + 2 ^ 63) % 2 ^ 64 - 2 ^ 63

/-- The outcome of msg_send: return value, the errno value the function itself
stored, if any, and the buffer and length handed to write, if write was called. -/
structure send_result where
  retval : Int
  errno : Option Int
  written : Option (msg_ptr × Int)
deriving DecidableEq, Repr

/-- The function msg_send.  buf is none for a NULL pointer; malloc_ok tells whether
the malloc inside msg_create succeeds; write_ret is what write returns when it
is called. -/
def msg_send (env : msg_env) (fd : Int) (buf : Option (List Nat)) (count : Int)
    (malloc_ok : Bool) (write_ret : Int) : send_result :=
  if fd = -1 then ⟨-1, some EBADF, none⟩
  else if env.clist_get_flags fd &&& env.MSG_WRITE = 0 then ⟨-1, some EPERM, none⟩
  else if count > env.MSG_MAX_SIZE then ⟨-1, some EINVAL, none⟩
  else
    let created := msg_create env buf count malloc_ok
    let msg_len := to_int32 (created.1 : Int)
    let bytes_written := to_int32 write_ret
    if bytes_written < msg_len then ⟨-1, created.2.2, some (created.2.1, msg_len)⟩
    else
      ⟨to_int64 (bytes_written - (sizeof_msg_struct : Int)), created.2.2,
        some (created.2.1, msg_len)⟩

end Magma

/-! # Journal layout of mkfs (gfs/gfs_mkfs/fs_geometry.c)

Block numbers and counts are 64-bit unsigned, the command-line numbers 32-bit
unsigned. -/

namespace Mkfs

/-- The fields of commandline_t that fs_geometry.c uses. -/
structure commandline_t where
  expert : Bool
  debug : Bool
  bsize : Nat
  seg_size : Nat
  sb_addr : Nat
  rgsize : Nat
  rgrps : Nat
deriving DecidableEq, Repr

/-- One subdevice of the device: first block, length in blocks, journal or data.
The struct is declared in mkfs_gfs.h, which is not in src; start and length are
64-bit block numbers like the boffset and bcount they are copied to. -/
structure mkfs_subdevice_t where
  start : Nat
  length : Nat
  is_journal : Bool
deriving DecidableEq, Repr

/-- One entry of the journal list: first block and number of segments. -/
structure journal_list_t where
  start : Nat
  segments : Nat
deriving DecidableEq, Repr

/-- How compute_journal_layout ends: it returns with the journal list, or die stops
the program with the message for journal j and the minimum size, or the
remainder by a zero seg_size traps. -/
inductive layout_result where
  | done (jlist : List journal_list_t)
  | die (j : Nat) (min_jsize : Nat)
  | div_by_zero
deriving DecidableEq, Repr

/-- The minimum journal size in megabytes: 1 in expert mode, 32 otherwise. -/
def min_jsize (comline : commandline_t) : Nat :=
  if comline.expert then 1 else 32

/-- The test before die: (bcount + seg_size) * bsize < min_jsize << 20, the left
side in 64 bits and the right side in 32 bits. -/
def journal_too_small (comline : commandline_t) (sdev : mkfs_subdevice_t) : Bool :=
  decide (((sdev.length + comline.seg_size) % 2 ^ 64 * comline.bsize) % 2 ^ 64 <
    (min_jsize comline <<< 20) % 2 ^ 32)

/-- The journal entry built for an accepted journal subdevice: the start rounded
up to a seg_size boundary and the remaining length in whole segments. -/
def journal_entry (comline : commandline_t) (sdev : mkfs_subdevice_t) : journal_list_t :=
  let boffset := sdev.start
  let bcount := sdev.length
  if boffset % comline.seg_size ≠ 0 then
    let pad := comline.seg_size - boffset % comline.seg_size
    let bcount1 := (bcount + 2 ^ 64 - pad) % 2 ^ 64
    let boffset1 := (boffset + pad) % 2 ^ 64
    { start := boffset1, segments := (bcount1 / comline.seg_size) % 2 ^ 32 }
  else
    { start := boffset, segments := (bcount / comline.seg_size) % 2 ^ 32 }

/-- The loop of compute_journal_layout over the subdevices still to visit, with
the journal counter j and the list built so far; osi_list_add_prev appends at
the tail of the list. -/
def journal_loop (comline : commandline_t) :
    List mkfs_subdevice_t → Nat → List journal_list_t → layout_result
  | [], _, jlist => layout_result.done jlist
  | sdev :: rest, j, jlist =>
    if sdev.is_journal then
      if journal_too_small comline sdev then layout_result.die j (min_jsize comline)
      else if comline.seg_size = 0 then layout_result.div_by_zero
      else journal_loop comline rest ((j + 1) % 2 ^ 32) (jlist ++ [journal_entry comline sdev])
    else journal_loop comline rest j jlist

/-- The function compute_journal_layout on the subdevices of the device and the
journal list passed in. -/
def compute_journal_layout (comline : commandline_t) (device : List mkfs_subdevice_t)
    (jlist : List journal_list_t) : layout_result :=
  journal_loop comline device 0 jlist

end Mkfs

/-! # Termination of the id allocation (dlm-kernel/src/lkb.c) -/

namespace Dlm

/-- The id bucket | (counter << 16) as 32 bits, as a draw in bucket b composes it
from the counter value c. -/
def compose_lkid (b c : Nat) : Nat :=
  (b ||| (c <<< 16)) % 2 ^ 32

/-- The number of LKBs linked in the table: the sum of the lengths of the bucket
lists. -/
def lkb_count (ls : gd_ls) : Nat :=
  ((List.range ls.ls_lockidtbl_size).map (fun i => (ls.entry i).list.length)).sum

/-- The number of consecutive counter values of bucket b, starting at c and
stepping as the post-increment does, whose composed id is found in the table;
the first argument bounds how many values are tried. -/
def collisions_ahead (ls : gd_ls) (b : Nat) : Nat → Nat → Nat
  | 0, _ => 0
  | fuel + 1, c =>
    if (__find_lock_by_id ls (compose_lkid b c)).isSome then
      collisions_ahead ls b fuel ((c + 1) % 2 ^ 16) + 1
    else 0

/-- The collisions ahead of bucket b at its present counter, trying one value more
than the bucket holds LKBs. -/
def bucket_gap (ls : gd_ls) (b : Nat) : Nat :=
  collisions_ahead ls b ((ls.entry b).list.length + 1) (ls.entry b).counter

/-- The collisions ahead of all buckets a 16-bit draw can select. -/
def gap_sum (ls : gd_ls) : Nat :=
  ((List.range (min ls.ls_lockidtbl_size (2 ^ 16))).map (bucket_gap ls)).sum

end Dlm

/-! # Debug ring buffer and table reads (dlm-kernel/src/proc.c)

The constants are those of a build with DLM_DEBUG defined (without it both are
0 and dlm_debug_init sets up no buffer).  PAGE_SIZE comes from the kernel headers
and is an argument.  Characters are their codes. -/

namespace DlmProc

def DLM_DEBUG_SIZE : Nat := 1024

def MAX_DEBUG_MSG_LEN : Nat := 64

/-- What the pointer debug_buf holds: NULL, the address of a freed buffer, or a
live buffer with its bytes. -/
inductive debug_ptr where
  | null
  | freed
  | live (bytes : List Nat)
deriving DecidableEq, Repr

/-- The static variables of the debug buffer. -/
structure debug_state where
  debug_buf : debug_ptr
  debug_size : Nat
  debug_point : Nat
  debug_wrap : Int
deriving DecidableEq, Repr

/-- The function dlm_debug_setup.  The comparison size > PAGE_SIZE is made in
unsigned long, so a negative size is clamped as well.  kmalloc_ok tells whether
kmalloc succeeds when it is called.  A live old buffer is freed; on the path
that installs no new buffer the pointer keeps the freed address. -/
def dlm_debug_setup (PAGE_SIZE : Nat) (st : debug_state) (size : Int) (kmalloc_ok : Bool) :
    debug_state :=
  let size1 : Int := if size < 0 ∨ size > (PAGE_SIZE : Int) then (PAGE_SIZE : Int) else size
  let b : Bool := decide (size1 ≠ 0) && kmalloc_ok
  let st1 : debug_state :=
    match st.debug_buf with
    | debug_ptr.live _ => { st with debug_buf := debug_ptr.freed }
    | _ => st
  if size1 = 0 ∨ b = false then st1
  else
    { debug_buf := debug_ptr.live (List.replicate size1.toNat 0),
      debug_size := size1.toNat % 2 ^ 32, debug_point := 0, debug_wrap := 0 }

/-- The state dlm_debug_init sets before it calls dlm_debug_setup. -/
def debug_init_state : debug_state :=
  { debug_buf := debug_ptr.null, debug_size := 0, debug_point := 0, debug_wrap := 0 }

/-- The string dlm_debug_log appends for a lockspace name and the expansion of its
format: snprintf and vsnprintf leave at most MAX_DEBUG_MSG_LEN - 1 characters of
name, blank and text in buf (for a name that fills buf the second call is handed
no room and is taken to store nothing), the length is cut to
MAX_DEBUG_MSG_LEN - 1 and a newline is put behind. -/
def log_line (ls_name text : List Nat) : List Nat :=
  let buf := (ls_name ++ [32] ++ text).take (MAX_DEBUG_MSG_LEN - 1)
  let len := if buf.length > MAX_DEBUG_MSG_LEN - 1 then MAX_DEBUG_MSG_LEN - 1 else buf.length
  buf.take len ++ [10]

/-- One turn of the copy loop of dlm_debug_log:
debug_buf[debug_point++] = c, then the wrap test.  A store through a pointer
that is not live is dropped. -/
def debug_putc (st : debug_state) (c : Nat) : debug_state :=
  let buf1 : debug_ptr :=
    match st.debug_buf with
    | debug_ptr.live b => debug_ptr.live (b.set st.debug_point c)
    | p => p
  let point := (st.debug_point + 1) % 2 ^ 32
  if point = st.debug_size then
    { st with debug_buf := buf1, debug_point := 0, debug_wrap := 1 }
  else
    { st with debug_buf := buf1, debug_point := point }

/-- The function dlm_debug_log for a lockspace name and the expansion of the
format. -/
def dlm_debug_log (st : debug_state) (ls_name text : List Nat) : debug_state :=
  match st.debug_buf with
  | debug_ptr.null => st
  | _ => (log_line ls_name text).foldl debug_putc st

/-- The indices of debug_buf that the copy loop stores to, in order. -/
def write_indices (st : debug_state) : List Nat → List Nat
  | [] => []
  | c :: cs => st.debug_point :: write_indices (debug_putc st c) cs

/-- Read debug_buf[i]. -/
def debug_at (st : debug_state) (i : Nat) : Nat :=
  match st.debug_buf with
  | debug_ptr.live b => b.getD i 0
  | _ => 0

/-- The characters the two loops of dlm_debug_dump and dlm_debug_info visit, in
order: from debug_point to the end if debug_wrap is set, then from the start
to debug_point. -/
def debug_chars (st : debug_state) : List Nat :=
  (if st.debug_wrap ≠ 0 then
    (List.range' st.debug_point (st.debug_size - st.debug_point)).map (debug_at st)
   else []) ++
  (List.range st.debug_point).map (debug_at st)

/-- The function dlm_debug_dump: the characters handed to printk, in order. -/
def dlm_debug_dump (st : debug_state) : List Nat :=
  debug_chars st

/-- The function dlm_debug_info: the characters stored to b (sprintf of "%c"
stores one character and returns 1) and the return value n. -/
def dlm_debug_info (st : debug_state) : List Nat × Int :=
  (debug_chars st, ((debug_chars st).map (fun _ => (1 : Int))).sum)

/-- The state after a sequence of dlm_debug_log calls, each given by the lockspace
name and the expansion of the format. -/
def debug_log_all (st : debug_state) (calls : List (List Nat × List Nat)) : debug_state :=
  calls.foldl (fun s c => dlm_debug_log s c.1 c.2) st

/-- All characters a sequence of dlm_debug_log calls appends, in order. -/
def logged_chars (calls : List (List Nat × List Nat)) : List Nat :=
  (calls.map (fun c => log_line c.1 c.2)).flatten

/-- The indices of ls_reshashtbl that the loop of skip_empty reads (list_empty is
evaluated before the bound test). -/
def skip_empty_reads (ls : gd_ls) : Nat → Nat → List Nat
  | 0, _ => []
  | fuel + 1, entry =>
    entry ::
      (if (ls.ls_reshashtbl entry).isEmpty && decide (entry < ls.ls_hashsize) then
        skip_empty_reads ls fuel (entry + 1)
      else [])

/-- The indices of ls_reshashtbl read by the branch of next_rsb taken when
di->next is NULL: those of the loop, then the bucket whose first node is taken. -/
def next_rsb_top_reads (ls : gd_ls) (di : ls_dumpinfo) : List Nat :=
  let entry := skip_empty ls (ls.ls_hashsize + 1 - di.entry) di.entry
  skip_empty_reads ls (ls.ls_hashsize + 1 - di.entry) di.entry ++
    (if entry ≥ ls.ls_hashsize then [] else [entry])

/-- The indices of ls_reshashtbl read by one call of next_rsb. -/
def next_rsb_reads (ls : gd_ls) (di : ls_dumpinfo) : List Nat :=
  match di.next with
  | none => next_rsb_top_reads ls di
  | some k =>
    let n := (ls.ls_reshashtbl di.entry).length
    let k1 := (k + 1) % (n + 1)
    di.entry ::
      (if (k1 + 1) % (n + 1) = 0 then
        next_rsb_top_reads ls { di with next := none, entry := di.entry + 1 }
      else [])

end DlmProc

/-! # Resource-group layout of mkfs (gfs/gfs_mkfs/fs_geometry.c) -/

namespace Mkfs

/-- One entry of the resource-group list. -/
structure rgrp_list_t where
  subdevice : Nat
  rg_offset : Nat
  rg_length : Nat
deriving DecidableEq, Repr

/-- The function how_many_rgrps.  div_ru is the macro DIV_RU of global.h (not in
src); it yields none where the macro traps.  The result is none when bsize is 0
and the division traps, or when DIV_RU does. -/
def how_many_rgrps (div_ru : Nat → Nat → Option Nat) (comline : commandline_t)
    (sdev : mkfs_subdevice_t) : Option Nat :=
  if comline.bsize = 0 then none
  else
    let min := if comline.expert then 1 else 4
    match div_ru sdev.length (((comline.rgsize <<< 20) % 2 ^ 32) / comline.bsize) with
    | none => none
    | some v =>
      let nrgrp := v % 2 ^ 64
      some (if nrgrp < min then min else nrgrp)

/-- The loop over rgrp of compute_rgrp_layout for subdevice x: the first argument
counts the turns still to make, rlast is the entry made in the turn before, and
every new entry goes to the tail of the list. -/
def rgrp_loop (comline : commandline_t) (x : Nat) (sdev : mkfs_subdevice_t) (nrgrp : Nat)
    (first_sdev : Bool) :
    Nat → Nat → Option rgrp_list_t → List rgrp_list_t → List rgrp_list_t × Option rgrp_list_t
  | 0, _, rlast, rlist => (rlist, rlast)
  | todo + 1, rgrp, rlast, rlist =>
    let rl : rgrp_list_t :=
      if rgrp ≠ 0 then
        let last := rlast.getD ⟨0, 0, 0⟩
        { subdevice := x, rg_offset := (last.rg_offset + last.rg_length) % 2 ^ 64,
          rg_length := sdev.length / nrgrp }
      else
        let off := sdev.start
        let len := (sdev.length + 2 ^ 64 - ((nrgrp - 1) * (sdev.length / nrgrp)) % 2 ^ 64) % 2 ^ 64
        { subdevice := x,
          rg_offset := if first_sdev then (off + (comline.sb_addr + 1)) % 2 ^ 64 else off,
          rg_length := len }
    rgrp_loop comline x sdev nrgrp first_sdev todo (rgrp + 1) (some rl) (rlist ++ [rl])

/-- The loop over the subdevices of compute_rgrp_layout, from subdevice x on.  The
result holds the command line, the subdevices as the loop leaves them (the
first data subdevice shortened by the superblock space) and the list; none
when how_many_rgrps traps. -/
def rgrp_subdev_loop (div_ru : Nat → Nat → Option Nat) :
    List mkfs_subdevice_t → Nat → Bool → commandline_t → Option rgrp_list_t →
    List rgrp_list_t → Option (commandline_t × List mkfs_subdevice_t × List rgrp_list_t)
  | [], _, _, comline, _, rlist => some (comline, [], rlist)
  | sdev :: rest, x, first_sdev, comline, rlast, rlist =>
    if sdev.is_journal then
      match rgrp_subdev_loop div_ru rest (x + 1) first_sdev comline rlast rlist with
      | none => none
      | some (c, d, r) => some (c, sdev :: d, r)
    else
      let sdev1 : mkfs_subdevice_t :=
        if first_sdev then
          { sdev with length := (sdev.length + 2 ^ 64 - (comline.sb_addr + 1) % 2 ^ 64) % 2 ^ 64 }
        else sdev
      match how_many_rgrps div_ru comline sdev1 with
      | none => none
      | some nrgrp =>
        let made := rgrp_loop comline x sdev1 nrgrp first_sdev nrgrp 0 rlast rlist
        let comline1 := { comline with rgrps := (comline.rgrps + nrgrp) % 2 ^ 64 }
        match rgrp_subdev_loop div_ru rest (x + 1) false comline1 made.2 made.1 with
        | none => none
        | some (c, d, r) => some (c, sdev1 :: d, r)

/-- The function compute_rgrp_layout on the subdevices of the device and the list
passed in. -/
def compute_rgrp_layout (div_ru : Nat → Nat → Option Nat) (comline : commandline_t)
    (device : List mkfs_subdevice_t) (rlist : List rgrp_list_t) :
    Option (commandline_t × List mkfs_subdevice_t × List rgrp_list_t) :=
  rgrp_subdev_loop div_ru device 0 true comline none rlist

/-- The blocks at the start of subdevice j that the layout leaves to the
superblock: sb_addr + 1 on the first data subdevice (first_sdev still set and
only journals before it), none on the others. -/
def reserved (first_sdev : Bool) (comline : commandline_t) (device : List mkfs_subdevice_t)
    (j : Nat) : Nat :=
  if first_sdev && (device.take j).all (fun s => s.is_journal) then comline.sb_addr + 1 else 0

/-- The resource groups g tile a data subdevice behind its reserved blocks: they
are as many as how_many_rgrps says for the usable length, at least one and at
least four outside expert mode, each starts where the one before it ends, the
first starts right behind the reserved blocks, and the lengths add up to the
usable length. -/
structure tiles (div_ru : Nat → Nat → Option Nat) (comline : commandline_t)
    (sdev : mkfs_subdevice_t) (res : Nat) (g : List rgrp_list_t) : Prop where
  count : how_many_rgrps div_ru comline { sdev with length := sdev.length - res } = some g.length
  at_least_one : 1 ≤ g.length
  at_least_four : comline.expert = false → 4 ≤ g.length
  contiguous : List.Chain' (fun a b => b.rg_offset = a.rg_offset + a.rg_length) g
  first : g.head?.map (fun rl => rl.rg_offset) = some (sdev.start + res)
  total : (g.map (fun rl => rl.rg_length)).sum = sdev.length - res

end Mkfs

/-! # Connecting to the configuration server (ccs/lib/libccs.c)

The outcomes of bindresvport, connect and random in each turn of the loop are
given by the environment, indexed by the number of the turn. -/

namespace Ccs

def EINVAL : Int := 22
def EADDRINUSE : Int := 98
def ECONNREFUSED : Int := 111
def RAND_MAX : Nat := 2147483647
def IPPORT_RESERVED : Int := 1024

/-- What the calls made in turn i of the loop do: bindresvport and connect give
none on success and the errno value they set on failure; random gives its
return value. -/
structure request_env where
  bindresvport : Nat → Option Int
  connect : Nat → Option Int
  random : Nat → Nat

/-- A sleep made by the loop: after an address-in-use bind failure or after a
refused connection, with the reserved port tried and the seconds slept. -/
inductive sleep_event where
  | addrinuse (res_port : Int) (seconds : Int)
  | refused (res_port : Int) (seconds : Int)
deriving DecidableEq, Repr

/-- How the bind/connect part of do_request ends: connected on a port (the request
is then written), failed with the value of error, or still in the loop when the
bound on the number of turns is used up. -/
inductive loop_result where
  | connected (res_port : Int) (sleeps : List sleep_event)
  | failed (error : Int) (sleeps : List sleep_event)
  | running (sleeps : List sleep_event)
deriving DecidableEq, Repr

/-- The for loop of do_request with the test behind it.  Arguments: the bound on
the turns, the number of the turn, res_port, connrefused_timo, errno, and the
sleeps made so far. -/
def bind_connect_loop (env : request_env) :
    Nat → Nat → Int → Int → Int → List sleep_event → loop_result
  | 0, _, _, _, _, sleeps => loop_result.running sleeps
  | fuel + 1, i, res_port, connrefused_timo, errno, sleeps =>
    if res_port ≥ 512 then
      match env.bindresvport i with
      | some e =>
        if e = EADDRINUSE then
          let addrinuse_timo : Int :=
            ((env.random i % (RAND_MAX + 1) / (RAND_MAX / 4) : Nat) : Int) + 1
          bind_connect_loop env fuel (i + 1) (res_port - 1) connrefused_timo e
            (sleeps ++ [sleep_event.addrinuse res_port addrinuse_timo])
        else if e = EINVAL then loop_result.failed (-ECONNREFUSED) sleeps
        else loop_result.failed (-e) sleeps
      | none =>
        match env.connect i with
        | some e =>
          if e = ECONNREFUSED ∧ connrefused_timo ≤ 8 then
            bind_connect_loop env fuel (i + 1) (res_port + 1 - 1) (connrefused_timo * 2) e
              (sleeps ++ [sleep_event.refused res_port connrefused_timo])
          else loop_result.failed (-e) sleeps
        | none => loop_result.connected res_port sleeps
    else loop_result.failed (-errno) sleeps

/-- The bind/connect part of do_request from its initial values:
res_port = IPPORT_RESERVED - 1 and connrefused_timo = 1; errno is the value
before the loop. -/
def do_request_connect (env : request_env) (fuel : Nat) (errno : Int) : loop_result :=
  bind_connect_loop env fuel 0 (IPPORT_RESERVED - 1) 1 errno []

/-- The seconds slept after refused connections, in order. -/
def refused_delays : List sleep_event → List Int
  | [] => []
  | sleep_event.refused _ s :: rest => s :: refused_delays rest
  | sleep_event.addrinuse _ _ :: rest => refused_delays rest

/-- The ports and seconds of the sleeps after address-in-use failures, in order. -/
def addrinuse_sleeps : List sleep_event → List (Int × Int)
  | [] => []
  | sleep_event.addrinuse p s :: rest => (p, s) :: addrinuse_sleeps rest
  | sleep_event.refused _ _ :: rest => addrinuse_sleeps rest

end Ccs

namespace DlmProc

/-- The ring is well formed: a live buffer of debug_size bytes, debug_point inside
it, and a size that fits the unsigned int. -/
def ring_ok (st : debug_state) : Prop :=
  ∃ b, st.debug_buf = debug_ptr.live b ∧ b.length = st.debug_size ∧
    st.debug_point < st.debug_size ∧ st.debug_size < 2 ^ 32

/-- The last n elements of a list (all of it when it is shorter). -/
def last_chars (n : Nat) (l : List Nat) : List Nat :=
  l.drop (l.length - n)

/-- The ring holds the last debug_size of the characters cs put into it, and
debug_wrap and debug_point say how many there were. -/
def ring_holds (st : debug_state) (cs : List Nat) : Prop :=
  ring_ok st ∧ debug_chars st = last_chars st.debug_size cs ∧
    (st.debug_wrap = 0 ∨ st.debug_wrap = 1) ∧
    (st.debug_wrap ≠ 0 ↔ st.debug_size ≤ cs.length) ∧
    (st.debug_wrap = 0 → st.debug_point = cs.length)

/-- A 62-character lockspace name, for which every log line has 64 characters. -/
def name62 : List Nat := List.replicate 62 97

/-- Sixty-five log calls for that name with an empty message. -/
def calls65 : List (List Nat × List Nat) := List.replicate 65 (name62, [])

/-- A table with one empty bucket; the memory behind the array reads as an empty
list head. -/
def ls_empty1 : gd_ls := { ls_hashsize := 1, ls_reshashtbl := fun _ => [] }

end DlmProc

namespace Ccs

/-- The sleeps of a run are in order: the delays after refused connections are
1, 2, 4, 8 (as many as there were, at most four), and the k-th address-in-use
sleep was for port 1023 - k, at most 512 of them, each of 1 to 5 seconds. -/
def sleeps_ok (sleeps : List sleep_event) : Prop :=
  refused_delays sleeps = [1, 2, 4, 8].take (refused_delays sleeps).length ∧
  (refused_delays sleeps).length ≤ 4 ∧
  (addrinuse_sleeps sleeps).length ≤ 512 ∧
  ∀ (k : Nat) (p s : Int), (addrinuse_sleeps sleeps)[k]? = some (p, s) →
    p = 1023 - (k : Int) ∧ 1 ≤ s ∧ s ≤ 5

/-- How a failure comes about in the turn after the given sleeps: all 512 ports
were in use (error = -EADDRINUSE), or, with a port still left, bindresvport
failed with another errno (error = -ECONNREFUSED for EINVAL, else -errno), or
connect failed (error = -errno), a refused connection only after the four
retries. -/
def failure_ok (env : request_env) (error : Int) (sleeps : List sleep_event) : Prop :=
  ((addrinuse_sleeps sleeps).length = 512 ∧ error = -EADDRINUSE) ∨
  ((addrinuse_sleeps sleeps).length < 512 ∧
    ∃ eb, env.bindresvport sleeps.length = some eb ∧ eb ≠ EADDRINUSE ∧
      error = if eb = EINVAL then -ECONNREFUSED else -eb) ∨
  ((addrinuse_sleeps sleeps).length < 512 ∧ env.bindresvport sleeps.length = none ∧
    ∃ ec, env.connect sleeps.length = some ec ∧ error = -ec ∧
      (ec = ECONNREFUSED → refused_delays sleeps = [1, 2, 4, 8]))

/-- The port the loop is at after the given sleeps: one below 1023 for every
address-in-use sleep. -/
def port_after (sleeps : List sleep_event) : Int :=
  1023 - ((addrinuse_sleeps sleeps).length : Int)

/-- The seconds slept after an address-in-use failure, from the value random
returned. -/
def addrinuse_timo (r : Nat) : Int :=
  ((r % (RAND_MAX + 1) / (RAND_MAX / 4) : Nat) : Int) + 1

/-- Every sleep of a run is the answer to the outcome of its turn.  The sleep of
turn i is an address-in-use sleep exactly when bindresvport failed with
EADDRINUSE in turn i, with the seconds drawn in that turn; it is a
refused-connection sleep exactly when bindresvport succeeded and connect failed
with ECONNREFUSED in turn i, with twice the seconds of the refused sleep
before it (1 for the first).  The port of the sleep is the port the earlier
sleeps led to, and it is at least 512. -/
def sleeps_caused (env : request_env) (sleeps : List sleep_event) : Prop :=
  ∀ (i : Nat) (ev : sleep_event), sleeps[i]? = some ev →
    512 ≤ port_after (sleeps.take i) ∧
    ((env.bindresvport i = some EADDRINUSE ∧
        ev = sleep_event.addrinuse (port_after (sleeps.take i))
          (addrinuse_timo (env.random i))) ∨
     (env.bindresvport i = none ∧ env.connect i = some ECONNREFUSED ∧
        ev = sleep_event.refused (port_after (sleeps.take i))
          (2 ^ (refused_delays (sleeps.take i)).length)))

/-- The sleeps a result carries. -/
def trace_of : loop_result → List sleep_event
  | loop_result.connected _ sleeps => sleeps
  | loop_result.failed _ sleeps => sleeps
  | loop_result.running sleeps => sleeps

/-- What a finished run of the bind/connect loop looks like in the given
environment.  Its sleeps are caused by the outcomes of their turns and are in
order; in the turn after them the loop connected, on the port the sleeps led
to, because bindresvport and connect both succeeded, or it failed in one of
the ways of failure_ok. -/
def run_ok (env : request_env) : loop_result → Prop
  | loop_result.connected p sl =>
    512 ≤ p ∧ p ≤ 1023 ∧ sleeps_ok sl ∧ sleeps_caused env sl ∧ p = port_after sl ∧
      env.bindresvport sl.length = none ∧ env.connect sl.length = none
  | loop_result.failed e sl => sleeps_ok sl ∧ sleeps_caused env sl ∧ failure_ok env e sl
  | loop_result.running _ => False

/-- The state of the loop at the head of a turn agrees with the sleeps made so
far. -/
structure loop_inv (i : Nat) (res_port timo errno : Int) (sleeps : List sleep_event) :
    Prop where
  turn : i = sleeps.length
  port : res_port = 1023 - ((addrinuse_sleeps sleeps).length : Int)
  timo : timo = 2 ^ (refused_delays sleeps).length
  ok : sleeps_ok sleeps
  low : res_port < 512 → errno = EADDRINUSE

/-- An environment in which every port is free and every connection is refused. -/
def env_refusing : request_env :=
  { bindresvport := fun _ => none, connect := fun _ => some ECONNREFUSED, random := fun _ => 0 }

end Ccs

/-! # Sample states -/

namespace Magma

/-- An environment for evaluating the message functions: byte sum as checksum,
every descriptor readable and writable. -/
def env_sample : msg_env :=
  { MSG_MAX_SIZE := 1024, MSG_READ := 0x10, MSG_WRITE := 0x8,
    clu_crc32 := fun b => (b.sum : Int), clist_get_flags := fun _ => 0x18 }

end Magma

namespace Mkfs

/-- A command line without expert mode: 4096-byte blocks, 16-block segments. -/
def comline_sample : commandline_t :=
  { expert := false, debug := false, bsize := 4096, seg_size := 16, sb_addr := 16,
    rgsize := 256, rgrps := 0 }

/-- A rounding-up division for the sample runs, which fails on the divisor 0. -/
def div_ru_sample (x y : Nat) : Option Nat :=
  if y = 0 then none else some ((x + y - 1) / y)

/-- A device of one journal subdevice followed by two data subdevices. -/
def device_sample : List mkfs_subdevice_t :=
  [{ start := 0, length := 64, is_journal := true },
   { start := 64, length := 1000, is_journal := false },
   { start := 1064, length := 500, is_journal := false }]

end Mkfs

namespace DlmProc

/-- A resource table of three buckets with two resources chained on bucket 1; the
memory behind the array reads as a non-empty list head. -/
def ls_sample : gd_ls :=
  { ls_hashsize := 3,
    ls_reshashtbl := fun i => if i = 1 then [10, 11] else if i = 3 then [99] else [] }

end DlmProc

namespace Dlm

/-- A lockspace with no table and no live LKB. -/
def ls_blank : gd_ls := ⟨0, none, fun _ => none, fun _ => false⟩

/-- An LKB with every field zero. -/
def lkb_blank : gd_lkb := ⟨0, 0, 0, none, 0, none, none⟩

/-- A table of two buckets holding one LKB, at address 7 with id 0x10001, whose
parent is the LKB at address 9 (live, not in the table). -/
def ls_one : gd_ls :=
  ⟨2, some [⟨[], 1⟩, ⟨[7], 2⟩],
    fun a => if a = 7 then some { lkb_blank with lkb_id := 0x10001, lkb_parent := some 9 }
      else if a = 9 then some { lkb_blank with lkb_childcnt := 1 } else none,
    fun _ => false⟩

/-- The lockspace after create_lkb on the sample table, with the new LKB at address
3 and the single random draw 0. -/
def ls_created : gd_ls :=
  match create_lkb ls_one (some (3, lkb_blank)) [0] with
  | some (ls, _) => ls
  | none => ls_one

/-- The lockspace init_lockidtbl(ls, 2) makes of the blank lockspace. -/
def ls_init2 : gd_ls :=
  { ls_blank with ls_lockidtbl_size := 2, ls_lockidtbl := some [⟨[], 1⟩, ⟨[], 1⟩] }

/-- The lockspace after one create_lkb on ls_init2, with the new LKB at address 3
and the single random draw 0. -/
def ls_init2_created : gd_ls :=
  match create_lkb ls_init2 (some (3, lkb_blank)) [0] with
  | some (ls, _) => ls
  | none => ls_init2

end Dlm

namespace Dlm

/-! ## Reading and writing buckets -/

theorem entry_set_entry (ls : gd_ls) (i j : Nat) (e : gd_lockidtbl_entry) :
    (ls.set_entry i e).entry j =
      if i = j ∧ i < (ls.ls_lockidtbl.getD []).length then e else ls.entry j := by
  unfold gd_ls.set_entry gd_ls.entry
  cases h : ls.ls_lockidtbl with
  | none => simp
  | some t =>
    simp only [Option.map_some', Option.getD_some, List.getElem?_set]
    by_cases hij : i = j
    · subst hij
      by_cases hi : i < t.length
      · simp [hi]
      · simp [hi, List.getElem?_eq_none (Nat.le_of_not_lt hi)]
    · simp [hij]

theorem entry_set_entry_of_ne (ls : gd_ls) (i j : Nat) (e : gd_lockidtbl_entry) (h : i ≠ j) :
    (ls.set_entry i e).entry j = ls.entry j := by
  rw [entry_set_entry]; simp [h]

theorem entry_set_entry_self (ls : gd_ls) (i : Nat) (e : gd_lockidtbl_entry)
    (ht : table_ok ls) (hi : i < ls.ls_lockidtbl_size) :
    (ls.set_entry i e).entry i = e := by
  obtain ⟨t, h1, h2⟩ := ht
  rw [entry_set_entry]; simp [h1, h2, hi]

@[simp] theorem set_entry_size (ls : gd_ls) (i : Nat) (e : gd_lockidtbl_entry) :
    (ls.set_entry i e).ls_lockidtbl_size = ls.ls_lockidtbl_size := rfl

@[simp] theorem set_entry_lkb_mem (ls : gd_ls) (i : Nat) (e : gd_lockidtbl_entry) :
    (ls.set_entry i e).lkb_mem = ls.lkb_mem := rfl

@[simp] theorem set_entry_lvb_mem (ls : gd_ls) (i : Nat) (e : gd_lockidtbl_entry) :
    (ls.set_entry i e).lvb_mem = ls.lvb_mem := rfl

@[simp] theorem set_entry_id_of (ls : gd_ls) (i : Nat) (e : gd_lockidtbl_entry) (a : Nat) :
    (ls.set_entry i e).id_of a = ls.id_of a := rfl

theorem set_entry_table_ok (ls : gd_ls) (i : Nat) (e : gd_lockidtbl_entry) (ht : table_ok ls) :
    table_ok (ls.set_entry i e) := by
  obtain ⟨t, h1, h2⟩ := ht
  exact ⟨t.set i e, by simp [gd_ls.set_entry, h1], by simp [h2]⟩

theorem entry_list_del (ls : gd_ls) (lkb i : Nat) :
    ((list_del ls lkb).entry i).list = (ls.entry i).list.erase lkb := by
  unfold list_del gd_ls.entry
  cases h : ls.ls_lockidtbl with
  | none => simp [raw_entry]
  | some t =>
    simp only [Option.map_some', Option.getD_some, List.getElem?_map]
    cases h2 : t[i]? with
    | none => simp [raw_entry]
    | some e => simp

theorem entry_list_del_counter (ls : gd_ls) (lkb i : Nat) :
    ((list_del ls lkb).entry i).counter = (ls.entry i).counter := by
  unfold list_del gd_ls.entry
  cases h : ls.ls_lockidtbl with
  | none => simp
  | some t =>
    simp only [Option.map_some', Option.getD_some, List.getElem?_map]
    cases h2 : t[i]? with
    | none => simp
    | some e => simp

theorem list_del_table_ok (ls : gd_ls) (lkb : Nat) (ht : table_ok ls) :
    table_ok (list_del ls lkb) := by
  obtain ⟨t, h1, h2⟩ := ht
  exact ⟨t.map (fun e => { e with list := e.list.erase lkb }), by simp [list_del, h1],
    by simpa using h2⟩

/-! ## Lookup -/

theorem find_some_iff (ls : gd_ls)
    (hbucket : ∀ i, i < ls.ls_lockidtbl_size → ∀ lkb ∈ (ls.entry i).list,
      ∃ L, ls.lkb_mem lkb = some L ∧ L.lkb_id &&& 0xFFFF = i)
    (hunique : ∀ a b, in_table ls a → in_table ls b → ls.id_of a = ls.id_of b → a = b)
    (lkid lkb : Nat) :
    __find_lock_by_id ls lkid = some lkb ↔ in_table ls lkb ∧ ls.id_of lkb = some lkid := by
  have key : ∀ q, in_table ls q → ls.id_of q = some lkid →
      lkid &&& 0xFFFF < ls.ls_lockidtbl_size ∧ q ∈ (ls.entry (lkid &&& 0xFFFF)).list := by
    intro q ⟨i, hi, hq⟩ hid
    obtain ⟨L, hL, hlow⟩ := hbucket i hi q hq
    have : L.lkb_id = lkid := by simpa [gd_ls.id_of, hL] using hid
    subst this
    rw [hlow]; exact ⟨hi, hq⟩
  unfold __find_lock_by_id
  simp only []
  split
  · rename_i h
    constructor
    · intro h1; cases h1
    · rintro ⟨h1, h2⟩
      exact absurd (key lkb h1 h2).1 (Nat.not_lt.mpr h)
  · rename_i h
    have hlt : lkid &&& 0xFFFF < ls.ls_lockidtbl_size := Nat.lt_of_not_le h
    constructor
    · intro h1
      have hp := List.find?_some h1
      have hm := List.mem_of_find?_eq_some h1
      exact ⟨⟨_, hlt, hm⟩, by simpa using hp⟩
    · rintro ⟨h1, h2⟩
      have hm := (key lkb h1 h2).2
      cases hf : (ls.entry (lkid &&& 0xFFFF)).list.find? (fun lkb => ls.id_of lkb == some lkid) with
      | none =>
        have := List.find?_eq_none.mp hf lkb hm
        simp [h2] at this
      | some q =>
        have hp := List.find?_some hf
        have hq := List.mem_of_find?_eq_some hf
        have hqid : ls.id_of q = some lkid := by simpa using hp
        have : q = lkb := hunique q lkb ⟨_, hlt, hq⟩ h1 (by rw [hqid, h2])
        rw [this]

theorem find_none_of_large (ls : gd_ls) (lkid : Nat)
    (h : ls.ls_lockidtbl_size ≤ lkid &&& 0xFFFF) : __find_lock_by_id ls lkid = none := by
  unfold __find_lock_by_id
  simp [h]

/-- C4: on a table in which every LKB sits on the list of the bucket given by the
low 16 bits of its id and ids are pairwise distinct, find_lock_by_id(ls, id)
returns an LKB exactly when that LKB is in the table with that id, returns
NULL exactly when there is none, returns NULL when the low 16 bits are not
below ls_lockidtbl_size, and leaves the lockspace as it was. -/
theorem find_lock_by_id_sound_complete (ls : gd_ls)
    (hbucket : ∀ i, i < ls.ls_lockidtbl_size → ∀ lkb ∈ (ls.entry i).list,
      ∃ L, ls.lkb_mem lkb = some L ∧ L.lkb_id &&& 0xFFFF = i)
    (hunique : ∀ a b, in_table ls a → in_table ls b → ls.id_of a = ls.id_of b → a = b)
    (lkid : Nat) :
    (∀ lkb, (find_lock_by_id ls lkid).2 = some lkb ↔
      (in_table ls lkb ∧ ls.id_of lkb = some lkid)) ∧
    ((find_lock_by_id ls lkid).2 = none ↔
      ¬ ∃ lkb, in_table ls lkb ∧ ls.id_of lkb = some lkid) ∧
    (ls.ls_lockidtbl_size ≤ lkid &&& 0xFFFF → (find_lock_by_id ls lkid).2 = none) ∧
    (find_lock_by_id ls lkid).1 = ls := by
  have h1 := find_some_iff ls hbucket hunique lkid
  refine ⟨h1, ?_, find_none_of_large ls lkid, rfl⟩
  show __find_lock_by_id ls lkid = none ↔ _
  constructor
  · intro hn ⟨q, hq⟩
    rw [(h1 q).mpr hq] at hn
    cases hn
  · intro hn
    cases hf : __find_lock_by_id ls lkid with
    | none => rfl
    | some q => exact absurd ⟨q, (h1 q).mp hf⟩ hn

theorem ls_one_bucket : ∀ i, i < ls_one.ls_lockidtbl_size → ∀ lkb ∈ (ls_one.entry i).list,
    ∃ L, ls_one.lkb_mem lkb = some L ∧ L.lkb_id &&& 0xFFFF = i := by
  intro i hi lkb hm
  have hi2 : i < 2 := hi
  interval_cases i
  · simp [ls_one, gd_ls.entry] at hm
  · have : lkb = 7 := by simpa [ls_one, gd_ls.entry] using hm
    subst this
    exact ⟨_, rfl, by decide⟩

theorem ls_one_in_table (a : Nat) (h : in_table ls_one a) : a = 7 := by
  obtain ⟨i, hi, hm⟩ := h
  have hi2 : i < 2 := hi
  interval_cases i
  · simp [ls_one, gd_ls.entry] at hm
  · simpa [ls_one, gd_ls.entry] using hm

theorem ls_one_unique : ∀ a b, in_table ls_one a → in_table ls_one b →
    ls_one.id_of a = ls_one.id_of b → a = b := by
  intro a b ha hb _
  rw [ls_one_in_table a ha, ls_one_in_table b hb]

theorem ls_one_inv : lkid_inv ls_one where
  table := ⟨_, rfl, rfl⟩
  bucket := ls_one_bucket
  nodup := by
    intro i hi
    have hi2 : i < 2 := hi
    interval_cases i <;> simp [ls_one, gd_ls.entry]
  unique := ls_one_unique

/-- The lookup theorem applied to the sample table: the id 0x10001 is found at
address 7. -/
theorem find_lock_by_id_sound_complete_witness :
    (find_lock_by_id ls_one 0x10001).2 = some 7 :=
  ((find_lock_by_id_sound_complete ls_one ls_one_bucket ls_one_unique 0x10001).1 7).mpr
    ⟨⟨1, by decide, by simp [ls_one, gd_ls.entry]⟩, rfl⟩

/-! ## Refused release -/

theorem release_lkb_of_status (mstcpy : Nat) (ls : gd_ls) (lkb : Nat) (L : gd_lkb)
    (hL : ls.lkb_mem lkb = some L) (hs : L.lkb_status ≠ 0) :
    release_lkb mstcpy ls lkb = ls := by
  unfold release_lkb
  simp [hL, hs]

/-- C5: release_lkb on an LKB whose lkb_status is not zero leaves the whole
lockspace as it was: every bucket list and counter, the LKB itself (still live
with the same contents, still linked) and the child count of its parent. -/
theorem release_lkb_refused (mstcpy : Nat) (ls : gd_ls) (lkb : Nat) (L : gd_lkb)
    (hL : ls.lkb_mem lkb = some L) (hs : L.lkb_status ≠ 0) :
    release_lkb mstcpy ls lkb = ls ∧
    (release_lkb mstcpy ls lkb).lkb_mem lkb = some L ∧
    (∀ i, (release_lkb mstcpy ls lkb).entry i = ls.entry i) ∧
    (∀ p, L.lkb_parent = some p →
      (release_lkb mstcpy ls lkb).lkb_mem p = ls.lkb_mem p) := by
  have h := release_lkb_of_status mstcpy ls lkb L hL hs
  rw [h]
  exact ⟨rfl, hL, fun _ => rfl, fun _ _ => rfl⟩

theorem release_lkb_refused_witness :
    release_lkb 0x2000 { ls_one with lkb_mem := fun _ => some { lkb_blank with lkb_status := 2 } } 7
      = { ls_one with lkb_mem := fun _ => some { lkb_blank with lkb_status := 2 } } :=
  (release_lkb_refused 0x2000 _ 7 { lkb_blank with lkb_status := 2 } rfl (by decide)).1

/-! ## Freeing the table -/

theorem free_lockidtbl_any (ls : gd_ls) :
    (List.range ls.ls_lockidtbl_size).any (fun i => !(ls.entry i).list.isEmpty) = true ↔
      ∃ i, i < ls.ls_lockidtbl_size ∧ (ls.entry i).list ≠ [] := by
  simp [List.any_eq_true, List.isEmpty_iff]

theorem free_lockidtbl_of_empty (ls : gd_ls)
    (hall : ∀ i, i < ls.ls_lockidtbl_size → (ls.entry i).list = []) :
    free_lockidtbl ls = (0, { ls with ls_lockidtbl := none }) := by
  unfold free_lockidtbl
  rw [if_neg]
  intro hc
  obtain ⟨i, hi, hne⟩ := (free_lockidtbl_any ls).mp hc
  exact hne (hall i hi)

/-- C7: free_lockidtbl returns -1 and leaves the lockspace as it was when some
bucket list of the table holds an LKB, and returns 0 with the table freed when
every bucket list is empty; so it fails if and only if some bucket is non-empty. -/
theorem free_lockidtbl_result (ls : gd_ls) :
    ((∃ i, i < ls.ls_lockidtbl_size ∧ (ls.entry i).list ≠ []) →
      free_lockidtbl ls = (-1, ls)) ∧
    ((∀ i, i < ls.ls_lockidtbl_size → (ls.entry i).list = []) →
      free_lockidtbl ls = (0, { ls with ls_lockidtbl := none })) ∧
    ((free_lockidtbl ls).1 = -1 ↔ ∃ i, i < ls.ls_lockidtbl_size ∧ (ls.entry i).list ≠ []) ∧
    ((free_lockidtbl ls).1 = 0 ↔ ∀ i, i < ls.ls_lockidtbl_size → (ls.entry i).list = []) := by
  have hany := free_lockidtbl_any ls
  by_cases h : ∃ i, i < ls.ls_lockidtbl_size ∧ (ls.entry i).list ≠ []
  · have h1 : free_lockidtbl ls = (-1, ls) := by
      unfold free_lockidtbl; rw [if_pos (hany.mpr h)]
    refine ⟨fun _ => h1, ?_, ?_, ?_⟩
    · intro hall
      obtain ⟨i, hi, hne⟩ := h
      exact absurd (hall i hi) hne
    · rw [h1]; simp [h]
    · rw [h1]
      constructor
      · intro h0; simp at h0
      · intro hall
        obtain ⟨i, hi, hne⟩ := h
        exact absurd (hall i hi) hne
  · have h0 : free_lockidtbl ls = (0, { ls with ls_lockidtbl := none }) := by
      unfold free_lockidtbl
      rw [if_neg (fun hc => h (hany.mp hc))]
    have hall : ∀ i, i < ls.ls_lockidtbl_size → (ls.entry i).list = [] := by
      intro i hi
      by_contra hne
      exact h ⟨i, hi, hne⟩
    refine ⟨fun hex => absurd hex h, fun _ => h0, ?_, ?_⟩
    · rw [h0]; simp [h]
    · rw [h0]; exact ⟨fun _ => hall, fun _ => rfl⟩

/-! ## Initialisation -/

theorem foldl_set_getElem? (v : gd_lockidtbl_entry) (m : Nat) (t : List gd_lockidtbl_entry)
    (j : Nat) :
    ((List.range m).foldl (fun acc i => acc.set i v) t)[j]? =
      if j < m ∧ j < t.length then some v else t[j]? := by
  induction m with
  | zero => simp
  | succ m ih =>
    have hlen : ∀ (k : Nat) (u : List gd_lockidtbl_entry),
        ((List.range k).foldl (fun acc i => acc.set i v) u).length = u.length := by
      intro k
      induction k with
      | zero => intro u; simp
      | succ k ihk => intro u; simp [List.range_succ, List.foldl_append, ihk]
    rw [List.range_succ, List.foldl_append]
    simp only [List.foldl_cons, List.foldl_nil, List.getElem?_set, hlen, ih]
    by_cases hjm : m = j
    · subst hjm
      by_cases hl : m < t.length
      · simp [hl]
      · simp [hl, List.getElem?_eq_none (Nat.le_of_not_lt hl)]
    · simp only [hjm, if_false]
      by_cases hl : j < t.length
      · have : (j < m + 1) = (j < m) := by
          apply propext; omega
        simp [hl, this]
      · simp [hl]

theorem init_buckets_replicate (n : Nat) :
    init_buckets (n : Int) (List.replicate n raw_entry) = List.replicate n ⟨[], 1⟩ := by
  apply List.ext_getElem?
  intro j
  unfold init_buckets
  rw [foldl_set_getElem?]
  simp only [Int.toNat_ofNat, List.length_replicate, List.getElem?_replicate]
  by_cases h : j < n <;> simp [h]

theorem entries_check_pow (k : Nat) (hk : k ≤ 30) : entries_check ((2 : Int) ^ k) = true := by
  interval_cases k <;> decide

theorem init_lockidtbl_ok (ls0 : gd_ls) (n : Nat) (hn : n < 2 ^ 32)
    (hc : entries_check (n : Int) = true) :
    init_lockidtbl ls0 (n : Int) true =
      some (0, { ls0 with ls_lockidtbl_size := n,
                          ls_lockidtbl := some (List.replicate n ⟨[], 1⟩) }) := by
  unfold init_lockidtbl
  have h1 : ((n : Int) % 2 ^ 32).toNat = n := by
    have : ((n : Int) % 2 ^ 32) = ((n % 2 ^ 32 : Nat) : Int) := by norm_cast
    rw [this, Int.toNat_ofNat, Nat.mod_eq_of_lt hn]
  simp only [GDLM_ASSERT, hc, if_true, Bool.not_true, Bool.false_eq_true, if_false, h1,
    Int.toNat_ofNat, init_buckets_replicate]

theorem entry_replicate_list (ls : gd_ls) (n : Nat) (c : Nat)
    (h : ls.ls_lockidtbl = some (List.replicate n ⟨[], c⟩)) (i : Nat) :
    (ls.entry i).list = [] := by
  unfold gd_ls.entry
  rw [h]
  simp only [Option.getD_some, List.getElem?_replicate]
  by_cases hi : i < n <;> simp [hi, raw_entry]

/-- C8: for a power of two entries = 2^k that an int can hold, init_lockidtbl with a
successful allocation returns 0 and leaves ls_lockidtbl_size = entries and a
table of exactly entries buckets, each with an empty list and counter 1; on
that table find_lock_by_id returns NULL for every id and free_lockidtbl
returns 0.  The LKB memory is not touched. -/
theorem init_lockidtbl_post (ls0 : gd_ls) (k : Nat) (hk : k ≤ 30) :
    ∃ ls, init_lockidtbl ls0 ((2 : Int) ^ k) true = some (0, ls) ∧
      ls.ls_lockidtbl_size = 2 ^ k ∧
      ls.ls_lockidtbl = some (List.replicate (2 ^ k) ⟨[], 1⟩) ∧
      ls.lkb_mem = ls0.lkb_mem ∧
      (∀ lkid, (find_lock_by_id ls lkid).2 = none) ∧
      (free_lockidtbl ls).1 = 0 := by
  have hlt : 2 ^ k < 2 ^ 32 := Nat.pow_lt_pow_right (by decide) (by omega)
  have hc : entries_check (((2 ^ k : Nat)) : Int) = true := by
    have := entries_check_pow k hk
    simpa using this
  have hinit := init_lockidtbl_ok ls0 (2 ^ k) hlt hc
  refine ⟨{ ls0 with ls_lockidtbl_size := 2 ^ k,
                      ls_lockidtbl := some (List.replicate (2 ^ k) ⟨[], 1⟩) },
    by simpa using hinit, rfl, rfl, rfl, ?_, ?_⟩
  · intro lkid
    show __find_lock_by_id _ lkid = none
    unfold __find_lock_by_id
    simp only []
    split
    · rfl
    · rw [entry_replicate_list _ (2 ^ k) 1 rfl]
      rfl
  · rw [free_lockidtbl_of_empty _ (fun i _ => entry_replicate_list _ (2 ^ k) 1 rfl i)]

theorem init_lockidtbl_post_witness :
    ∃ ls, init_lockidtbl ls_blank ((2 : Int) ^ 3) true = some (0, ls) ∧
      ls.ls_lockidtbl_size = 2 ^ 3 ∧
      ls.ls_lockidtbl = some (List.replicate (2 ^ 3) ⟨[], 1⟩) ∧
      ls.lkb_mem = ls_blank.lkb_mem ∧
      (∀ lkid, (find_lock_by_id ls lkid).2 = none) ∧
      (free_lockidtbl ls).1 = 0 :=
  init_lockidtbl_post ls_blank 3 (by decide)

/-- C9 (evaluation at the failing input): the assertion of init_lockidtbl passes
for entries = 0, which is not a power of two; the same holds for the least int. -/
theorem entries_check_zero :
    entries_check 0 = true ∧ (¬ ∃ k : Nat, (0 : Int) = 2 ^ k) ∧
      entries_check (-(2 : Int) ^ 31) = true := by
  refine ⟨by decide, ?_, by decide⟩
  rintro ⟨k, hk⟩
  have : (0 : Int) < 2 ^ k := by positivity
  omega

end Dlm

namespace Dlm

theorem draw_bucket_lt (ls : gd_ls) (rnd : Nat) (h : 1 ≤ ls.ls_lockidtbl_size) :
    draw_bucket ls rnd < ls.ls_lockidtbl_size := by
  unfold draw_bucket
  have h1 : (ls.ls_lockidtbl_size + 2 ^ 32 - 1) % 2 ^ 32 ≤ ls.ls_lockidtbl_size - 1 := by
    have : ls.ls_lockidtbl_size + 2 ^ 32 - 1 = (ls.ls_lockidtbl_size - 1) + 2 ^ 32 := by omega
    rw [this, Nat.add_mod_right]; exact Nat.mod_le _ _
  have h2 := @Nat.and_le_right (rnd % 2 ^ 16) ((ls.ls_lockidtbl_size + 2 ^ 32 - 1) % 2 ^ 32)
  have h3 := Nat.mod_le ((rnd % 2 ^ 16) &&& ((ls.ls_lockidtbl_size + 2 ^ 32 - 1) % 2 ^ 32)) (2 ^ 16)
  omega

theorem draw_bucket_lt_pow (ls : gd_ls) (rnd : Nat) : draw_bucket ls rnd < 2 ^ 16 :=
  Nat.mod_lt _ (by decide)

theorem entry_congr (ls1 ls2 : gd_ls) (h : ls1.ls_lockidtbl = ls2.ls_lockidtbl) (i : Nat) :
    ls1.entry i = ls2.entry i := by
  unfold gd_ls.entry; rw [h]

theorem release_lkb_size (mstcpy : Nat) (ls : gd_ls) (lkb : Nat) :
    (release_lkb mstcpy ls lkb).ls_lockidtbl_size = ls.ls_lockidtbl_size := by
  unfold release_lkb free_lkb free_lvb dec_childcnt gd_ls.store_lkb
  repeat' split
  all_goals rfl

theorem release_lkb_tbl (mstcpy : Nat) (ls : gd_ls) (lkb : Nat) (L : gd_lkb)
    (hL : ls.lkb_mem lkb = some L) (hs : L.lkb_status = 0) :
    (release_lkb mstcpy ls lkb).ls_lockidtbl = (list_del ls lkb).ls_lockidtbl := by
  unfold release_lkb free_lkb free_lvb dec_childcnt gd_ls.store_lkb
  simp only [hL, hs, ne_eq, not_true_eq_false, if_false]
  repeat' split
  all_goals rfl

theorem release_lkb_tbl_cases (mstcpy : Nat) (ls : gd_ls) (lkb : Nat) :
    (release_lkb mstcpy ls lkb).ls_lockidtbl = ls.ls_lockidtbl ∨
    (release_lkb mstcpy ls lkb).ls_lockidtbl = (list_del ls lkb).ls_lockidtbl := by
  cases hL : ls.lkb_mem lkb with
  | none => left; unfold release_lkb; simp [hL]
  | some L =>
    by_cases hs : L.lkb_status = 0
    · right; exact release_lkb_tbl mstcpy ls lkb L hL hs
    · left; rw [release_lkb_of_status mstcpy ls lkb L hL hs]

end Dlm

namespace Dlm

theorem release_lkb_entry_counter (mstcpy : Nat) (ls : gd_ls) (lkb i : Nat) :
    ((release_lkb mstcpy ls lkb).entry i).counter = (ls.entry i).counter := by
  rcases release_lkb_tbl_cases mstcpy ls lkb with h | h
  · rw [entry_congr _ _ h]
  · rw [entry_congr _ _ h, entry_list_del_counter]

theorem create_lkb_draw_counter (ls : gd_ls) (ht : table_ok ls)
    (hsz : 1 ≤ ls.ls_lockidtbl_size) (rnd : Nat) :
    ((create_lkb_draw ls rnd).entry (draw_bucket ls rnd)).counter =
      ((ls.entry (draw_bucket ls rnd)).counter + 1) % 2 ^ 16 := by
  unfold create_lkb_draw
  simp only []
  rw [entry_set_entry_self ls _ _ ht (draw_bucket_lt ls rnd hsz)]

theorem create_lkb_draw_entry_of_ne (ls : gd_ls) (rnd i : Nat) (h : i ≠ draw_bucket ls rnd) :
    (create_lkb_draw ls rnd).entry i = ls.entry i := by
  unfold create_lkb_draw
  simp only []
  rw [entry_set_entry_of_ne _ _ _ _ (Ne.symm h)]

theorem create_lkb_draw_list (ls : gd_ls) (rnd i : Nat) :
    ((create_lkb_draw ls rnd).entry i).list = (ls.entry i).list := by
  unfold create_lkb_draw
  simp only []
  rw [entry_set_entry]
  split
  · rename_i h; rw [← h.1]
  · rfl

/-- C10: one draw of the loop of create_lkb (whether or not the id it composes is
already in the table, the loop goes on from the state the draw leaves) advances
the counter of the drawn bucket by one modulo 2^16 and leaves the counter of
every other bucket as it was; find_lock_by_id and release_lkb leave every
counter as it was, and free_lockidtbl either leaves the lockspace as it was or
frees the table. -/
theorem bucket_counter_discipline (mstcpy : Nat) (ls : gd_ls) (ht : table_ok ls)
    (hsz : 1 ≤ ls.ls_lockidtbl_size) :
    (∀ rnd rest, create_lkb_loop ls (rnd :: rest) =
      if (__find_lock_by_id (create_lkb_draw ls rnd) (draw_lkid ls rnd)).isSome then
        create_lkb_loop (create_lkb_draw ls rnd) rest
      else some (create_lkb_draw ls rnd, draw_bucket ls rnd, draw_lkid ls rnd)) ∧
    (∀ rnd, ((create_lkb_draw ls rnd).entry (draw_bucket ls rnd)).counter =
      ((ls.entry (draw_bucket ls rnd)).counter + 1) % 2 ^ 16) ∧
    (∀ rnd i, i ≠ draw_bucket ls rnd →
      ((create_lkb_draw ls rnd).entry i).counter = (ls.entry i).counter) ∧
    (∀ lkid i, ((find_lock_by_id ls lkid).1.entry i).counter = (ls.entry i).counter) ∧
    (∀ lkb i, ((release_lkb mstcpy ls lkb).entry i).counter = (ls.entry i).counter) ∧
    ((free_lockidtbl ls).2 = ls ∨ (free_lockidtbl ls).2.ls_lockidtbl = none) := by
  refine ⟨fun _ _ => rfl, create_lkb_draw_counter ls ht hsz, ?_, fun _ _ => rfl,
    release_lkb_entry_counter mstcpy ls, ?_⟩
  · intro rnd i h
    rw [create_lkb_draw_entry_of_ne ls rnd i h]
  · unfold free_lockidtbl
    split
    · left; rfl
    · right; rfl

theorem bucket_counter_discipline_witness :
    ((create_lkb_draw ls_one 5).entry (draw_bucket ls_one 5)).counter =
      ((ls_one.entry (draw_bucket ls_one 5)).counter + 1) % 2 ^ 16 :=
  (bucket_counter_discipline 0x2000 ls_one ⟨_, rfl, rfl⟩ (by decide)).2.1 5

/-! ## Ranges -/

/-- C11: a call of lkb_set_range that returns 0 leaves the requested range equal
to [start, end]; when the LKB had no range the granted range becomes
[0, 0xffffffffffffffff], when it had one the granted range is kept; every other
field of the LKB is as before.  The call returns 0 whenever the LKB has a range
or allocate_range succeeds. -/
theorem lkb_set_range_result (lkb : gd_lkb) (start endv : Nat) (alloc : Option gd_range) :
    ((lkb.lkb_range ≠ none ∨ alloc ≠ none) → (lkb_set_range lkb start endv alloc).1 = 0) ∧
    ((lkb_set_range lkb start endv alloc).1 = 0 →
      (∃ r, (lkb_set_range lkb start endv alloc).2.lkb_range = some r ∧
        r.rq_range_start = start ∧ r.rq_range_end = endv ∧
        (lkb.lkb_range = none → r.gr_range_start = 0 ∧ r.gr_range_end = 0xffffffffffffffff) ∧
        (∀ old, lkb.lkb_range = some old →
          r.gr_range_start = old.gr_range_start ∧ r.gr_range_end = old.gr_range_end)) ∧
      (lkb_set_range lkb start endv alloc).2 =
        { lkb with lkb_range := (lkb_set_range lkb start endv alloc).2.lkb_range }) := by
  unfold lkb_set_range
  cases h : lkb.lkb_range with
  | none =>
    cases alloc with
    | none => simp [ENOMEM]
    | some raw => simp
  | some r => simp

theorem lkb_set_range_result_witness :
    (lkb_set_range lkb_blank 3 9 (some ⟨5, 6, 7, 8⟩)).1 = 0 ∧
    ∃ r, (lkb_set_range lkb_blank 3 9 (some ⟨5, 6, 7, 8⟩)).2.lkb_range = some r ∧
      r.rq_range_start = 3 ∧ r.rq_range_end = 9 ∧
      (lkb_blank.lkb_range = none → r.gr_range_start = 0 ∧ r.gr_range_end = 0xffffffffffffffff) ∧
      (∀ old, lkb_blank.lkb_range = some old →
        r.gr_range_start = old.gr_range_start ∧ r.gr_range_end = old.gr_range_end) :=
  ⟨(lkb_set_range_result lkb_blank 3 9 (some ⟨5, 6, 7, 8⟩)).1 (Or.inr (by decide)),
   ((lkb_set_range_result lkb_blank 3 9 (some ⟨5, 6, 7, 8⟩)).2
      ((lkb_set_range_result lkb_blank 3 9 (some ⟨5, 6, 7, 8⟩)).1 (Or.inr (by decide)))).1⟩

/-- C13: when allocate_lkb fails, create_lkb returns NULL and the lockspace (every
bucket list, every counter, all memory) is as before, whatever the random
draws; when allocate_range fails for an LKB without a range, lkb_set_range
returns -ENOMEM and the LKB is as before, still without a range. -/
theorem alloc_failure_no_change :
    (∀ (ls : gd_ls) (draws : List Nat), create_lkb ls none draws = some (ls, none)) ∧
    (∀ (lkb : gd_lkb) (start endv : Nat), lkb.lkb_range = none →
      lkb_set_range lkb start endv none = (-ENOMEM, lkb)) := by
  refine ⟨fun _ _ => rfl, ?_⟩
  intro lkb start endv h
  unfold lkb_set_range
  rw [h]
  simp only []
  congr 1
  cases lkb
  simp_all

theorem alloc_failure_no_change_witness :
    lkb_set_range lkb_blank 1 2 none = (-ENOMEM, lkb_blank) :=
  alloc_failure_no_change.2 lkb_blank 1 2 rfl

theorem free_lockidtbl_result_witness : free_lockidtbl ls_one = (-1, ls_one) :=
  (free_lockidtbl_result ls_one).1 ⟨1, by decide, by simp [ls_one, gd_ls.entry]⟩

end Dlm

namespace Dlm

theorem low16_of_draw (b c : Nat) (hb : b < 2 ^ 16) :
    ((b ||| (c <<< 16)) % 2 ^ 32) &&& 0xFFFF = b := by
  have h1 : (0xFFFF : Nat) = 2 ^ 16 - 1 := by norm_num
  rw [h1, Nat.and_pow_two_sub_one_eq_mod]
  apply Nat.eq_of_testBit_eq
  intro i
  simp only [Nat.testBit_mod_two_pow, Nat.testBit_or, Nat.testBit_shiftLeft]
  by_cases hi : i < 16
  · have : i < 32 := by omega
    simp [hi, this]
  · simp [hi]
    exact Nat.testBit_lt_two_pow (Nat.lt_of_lt_of_le hb (Nat.pow_le_pow_right (by decide) (Nat.le_of_not_lt hi)))

theorem draw_lkid_low16 (ls : gd_ls) (rnd : Nat) :
    draw_lkid ls rnd &&& 0xFFFF = draw_bucket ls rnd :=
  low16_of_draw _ _ (draw_bucket_lt_pow ls rnd)

theorem draw_lkid_eq (ls : gd_ls) (rnd : Nat) (hc : (ls.entry (draw_bucket ls rnd)).counter < 2 ^ 16) :
    draw_lkid ls rnd = ((ls.entry (draw_bucket ls rnd)).counter <<< 16) ||| draw_bucket ls rnd := by
  unfold draw_lkid
  rw [Nat.lor_comm]
  apply Nat.mod_eq_of_lt
  have hb := draw_bucket_lt_pow ls rnd
  have := @Nat.or_lt_two_pow ((ls.entry (draw_bucket ls rnd)).counter <<< 16) (draw_bucket ls rnd) 32
    (by rw [Nat.shiftLeft_eq]
        calc (ls.entry (draw_bucket ls rnd)).counter * 2 ^ 16 < 2 ^ 16 * 2 ^ 16 :=
              Nat.mul_lt_mul_of_pos_right hc (by decide)
          _ = 2 ^ 32 := by norm_num)
    (Nat.lt_of_lt_of_le hb (by norm_num))
  exact this

end Dlm

namespace Dlm

/-! ## Creation -/

theorem find?_congr_mem {α : Type} (p q : α → Bool) (l : List α)
    (h : ∀ x ∈ l, p x = q x) : l.find? p = l.find? q := by
  induction l with
  | nil => rfl
  | cons a t ih =>
    rw [List.find?_cons, List.find?_cons, h a (List.mem_cons_self a t),
      ih (fun x hx => h x (List.mem_cons_of_mem a hx))]

theorem find_congr (ls1 ls2 : gd_ls)
    (hs : ls1.ls_lockidtbl_size = ls2.ls_lockidtbl_size)
    (hl : ∀ i, (ls1.entry i).list = (ls2.entry i).list)
    (hid : ∀ i a, a ∈ (ls2.entry i).list → ls1.id_of a = ls2.id_of a) (lkid : Nat) :
    __find_lock_by_id ls1 lkid = __find_lock_by_id ls2 lkid := by
  unfold __find_lock_by_id
  simp only [hs, hl]
  split
  · rfl
  · apply find?_congr_mem
    intro x hx
    rw [hid _ x hx]

theorem create_lkb_draw_table_ok (ls : gd_ls) (rnd : Nat) (ht : table_ok ls) :
    table_ok (create_lkb_draw ls rnd) :=
  set_entry_table_ok ls _ _ ht

theorem create_lkb_draw_counter_lt (ls : gd_ls) (rnd : Nat)
    (hc : ∀ i, (ls.entry i).counter < 2 ^ 16) (i : Nat) :
    ((create_lkb_draw ls rnd).entry i).counter < 2 ^ 16 := by
  unfold create_lkb_draw
  simp only []
  rw [entry_set_entry]
  split
  · exact Nat.mod_lt _ (by decide)
  · exact hc i

/-- What the loop of create_lkb leaves when it ends: only counters have moved, the
id of the last draw is not in the table, and its low 16 bits are the bucket. -/
theorem create_lkb_loop_frame (draws : List Nat) :
    ∀ (ls0 ls1 : gd_ls) (b lkid : Nat), create_lkb_loop ls0 draws = some (ls1, b, lkid) →
      ls1.ls_lockidtbl_size = ls0.ls_lockidtbl_size ∧ ls1.lkb_mem = ls0.lkb_mem ∧
      ls1.lvb_mem = ls0.lvb_mem ∧ (∀ i, (ls1.entry i).list = (ls0.entry i).list) ∧
      (table_ok ls0 → table_ok ls1) ∧
      ((∀ i, (ls0.entry i).counter < 2 ^ 16) → ∀ i, (ls1.entry i).counter < 2 ^ 16) ∧
      __find_lock_by_id ls1 lkid = none ∧ lkid &&& 0xFFFF = b ∧
      (1 ≤ ls0.ls_lockidtbl_size → b < ls0.ls_lockidtbl_size) := by
  induction draws with
  | nil => intro ls0 ls1 b lkid h; cases h
  | cons rnd rest ih =>
    intro ls0 ls1 b lkid h
    simp only [create_lkb_loop] at h
    split at h
    · obtain ⟨h1, h2, h3, h4, h5, h6, h7, h8, h9⟩ := ih _ _ _ _ h
      refine ⟨h1, h2, h3, ?_, ?_, ?_, h7, h8, h9⟩
      · intro i; rw [h4, create_lkb_draw_list]
      · intro ht; exact h5 (create_lkb_draw_table_ok ls0 rnd ht)
      · intro hc; exact h6 (create_lkb_draw_counter_lt ls0 rnd hc)
    · rename_i hnf
      simp only [Option.some.injEq, Prod.mk.injEq] at h
      obtain ⟨h1, h2, h3⟩ := h
      subst h1 h2 h3
      refine ⟨rfl, rfl, rfl, create_lkb_draw_list ls0 rnd, create_lkb_draw_table_ok ls0 rnd,
        create_lkb_draw_counter_lt ls0 rnd, ?_, draw_lkid_low16 ls0 rnd,
        draw_bucket_lt ls0 rnd⟩
      cases hf : __find_lock_by_id (create_lkb_draw ls0 rnd) (draw_lkid ls0 rnd) with
      | none => rfl
      | some q => simp [hf] at hnf

@[simp] theorem store_lkb_size (ls : gd_ls) (a : Nat) (L : gd_lkb) :
    (ls.store_lkb a L).ls_lockidtbl_size = ls.ls_lockidtbl_size := rfl

@[simp] theorem store_lkb_entry (ls : gd_ls) (a : Nat) (L : gd_lkb) (i : Nat) :
    (ls.store_lkb a L).entry i = ls.entry i := rfl

@[simp] theorem store_lkb_lvb_mem (ls : gd_ls) (a : Nat) (L : gd_lkb) :
    (ls.store_lkb a L).lvb_mem = ls.lvb_mem := rfl

@[simp] theorem store_lkb_mem_self (ls : gd_ls) (a : Nat) (L : gd_lkb) :
    (ls.store_lkb a L).lkb_mem a = some L := by
  simp [gd_ls.store_lkb]

theorem store_lkb_mem_of_ne (ls : gd_ls) (a c : Nat) (L : gd_lkb) (h : c ≠ a) :
    (ls.store_lkb a L).lkb_mem c = ls.lkb_mem c := by
  simp [gd_ls.store_lkb, Function.update_noteq h]

theorem store_lkb_table_ok (ls : gd_ls) (a : Nat) (L : gd_lkb) (ht : table_ok ls) :
    table_ok (ls.store_lkb a L) := ht

@[simp] theorem list_add_size (ls : gd_ls) (lkb b : Nat) :
    (list_add ls lkb b).ls_lockidtbl_size = ls.ls_lockidtbl_size := rfl

@[simp] theorem list_add_lkb_mem (ls : gd_ls) (lkb b : Nat) :
    (list_add ls lkb b).lkb_mem = ls.lkb_mem := rfl

@[simp] theorem list_add_id_of (ls : gd_ls) (lkb b a : Nat) :
    (list_add ls lkb b).id_of a = ls.id_of a := rfl

theorem list_add_entry_self (ls : gd_ls) (lkb b : Nat) (ht : table_ok ls)
    (hb : b < ls.ls_lockidtbl_size) :
    (list_add ls lkb b).entry b = { ls.entry b with list := lkb :: (ls.entry b).list } := by
  unfold list_add
  simp only []
  rw [entry_set_entry_self ls _ _ ht hb]

theorem list_add_entry_of_ne (ls : gd_ls) (lkb b i : Nat) (h : i ≠ b) :
    (list_add ls lkb b).entry i = ls.entry i := by
  unfold list_add
  simp only []
  rw [entry_set_entry_of_ne _ _ _ _ (Ne.symm h)]

theorem list_add_table_ok (ls : gd_ls) (lkb b : Nat) (ht : table_ok ls) :
    table_ok (list_add ls lkb b) :=
  set_entry_table_ok ls _ _ ht

/-- The shape of a successful create_lkb. -/
theorem create_lkb_some (ls ls2 : gd_ls) (lkb p : Nat) (raw : gd_lkb) (draws : List Nat)
    (h : create_lkb ls (some (lkb, raw)) draws = some (ls2, some p)) :
    p = lkb ∧ ∃ ls1 b lkid,
      create_lkb_loop (ls.store_lkb lkb raw) draws = some (ls1, b, lkid) ∧
      ls2 = list_add (ls1.store_lkb lkb { raw with lkb_id := lkid }) lkb b := by
  unfold create_lkb at h
  simp only [] at h
  split at h
  · cases h
  · rename_i ls1 b lkid hloop
    simp only [Option.some.injEq, Prod.mk.injEq] at h
    exact ⟨h.2.symm, ls1, b, lkid, hloop, h.1.symm⟩

theorem create_lkb_alloc (ls ls2 : gd_ls) (alloc : Option (Nat × gd_lkb)) (p : Nat)
    (draws : List Nat) (h : create_lkb ls alloc draws = some (ls2, some p)) :
    ∃ raw, alloc = some (p, raw) := by
  cases alloc with
  | none => simp [create_lkb] at h
  | some a =>
    obtain ⟨lkb, raw⟩ := a
    have := (create_lkb_some ls ls2 lkb p raw draws h).1
    exact ⟨raw, by rw [this]⟩

/-- C2: on a table with at least one bucket, when create_lkb returns an LKB, a
find_lock_by_id with the id of that LKB directly afterwards returns that
very LKB. -/
theorem create_then_find (ls : gd_ls) (ht : table_ok ls) (hsz : 1 ≤ ls.ls_lockidtbl_size)
    (alloc : Option (Nat × gd_lkb)) (draws : List Nat) (ls2 : gd_ls) (lkb : Nat)
    (h : create_lkb ls alloc draws = some (ls2, some lkb)) :
    ∃ lkid, ls2.id_of lkb = some lkid ∧ (find_lock_by_id ls2 lkid).2 = some lkb := by
  obtain ⟨raw, rfl⟩ := create_lkb_alloc ls ls2 alloc lkb draws h
  obtain ⟨-, ls1, b, lkid, hloop, rfl⟩ := create_lkb_some ls ls2 lkb lkb raw draws h
  obtain ⟨h1, h2, h3, h4, h5, h6, h7, h8, h9⟩ := create_lkb_loop_frame draws _ _ _ _ hloop
  have hb : b < ls1.ls_lockidtbl_size := by rw [h1]; exact h9 hsz
  have ht1 : table_ok ls1 := h5 ht
  refine ⟨lkid, ?_, ?_⟩
  · simp [gd_ls.id_of]
  · show __find_lock_by_id _ lkid = some lkb
    unfold __find_lock_by_id
    simp only [h8, list_add_size, store_lkb_size]
    rw [if_neg (Nat.not_le.mpr hb),
      list_add_entry_self _ _ _ (store_lkb_table_ok _ _ _ ht1) hb]
    apply List.find?_cons_of_pos
    simp [gd_ls.id_of]

theorem create_then_find_witness :
    ∃ lkid, ls_created.id_of 3 = some lkid ∧ (find_lock_by_id ls_created lkid).2 = some 3 :=
  create_then_find ls_one ⟨_, rfl, rfl⟩ (by decide) (some (3, lkb_blank)) [0] ls_created 3 rfl

end Dlm

namespace Dlm

/-! ## Release -/

theorem release_lkb_mem (mstcpy : Nat) (ls : gd_ls) (lkb : Nat) (L : gd_lkb)
    (hL : ls.lkb_mem lkb = some L) (hs : L.lkb_status = 0) :
    (release_lkb mstcpy ls lkb).lkb_mem =
      Function.update
        (match L.lkb_parent with
          | none => ls
          | some parent => dec_childcnt ls parent).lkb_mem lkb none := by
  unfold release_lkb free_lkb free_lvb
  simp only [hL, hs, ne_eq, not_true_eq_false, if_false]
  cases L.lkb_parent <;> cases L.lkb_lvbptr <;> simp only [] <;> (try split) <;> rfl

theorem dec_childcnt_mem_self (ls : gd_ls) (p : Nat) (P : gd_lkb) (hP : ls.lkb_mem p = some P) :
    (dec_childcnt ls p).lkb_mem p =
      some { P with lkb_childcnt := atomic_dec P.lkb_childcnt } := by
  unfold dec_childcnt
  simp [hP]

theorem dec_childcnt_mem_of_ne (ls : gd_ls) (p a : Nat) (h : a ≠ p) :
    (dec_childcnt ls p).lkb_mem a = ls.lkb_mem a := by
  unfold dec_childcnt
  cases hP : ls.lkb_mem p with
  | none => rfl
  | some P => simp [store_lkb_mem_of_ne _ _ _ _ h]

theorem dec_childcnt_id_of (ls : gd_ls) (p a : Nat) :
    (dec_childcnt ls p).id_of a = ls.id_of a := by
  by_cases h : a = p
  · subst h
    cases hP : ls.lkb_mem a with
    | none => simp [dec_childcnt, hP]
    | some P => simp [gd_ls.id_of, dec_childcnt_mem_self ls a P hP, hP]
  · simp [gd_ls.id_of, dec_childcnt_mem_of_ne ls p a h]

/-- What a release that is not refused does to the lockspace. -/
theorem release_lkb_shape (mstcpy : Nat) (ls : gd_ls) (lkb : Nat) (L : gd_lkb)
    (hL : ls.lkb_mem lkb = some L) (hs : L.lkb_status = 0) :
    (∀ i, ((release_lkb mstcpy ls lkb).entry i).list = (ls.entry i).list.erase lkb) ∧
    (table_ok ls → table_ok (release_lkb mstcpy ls lkb)) ∧
    (release_lkb mstcpy ls lkb).lkb_mem lkb = none ∧
    (∀ a, a ≠ lkb → (release_lkb mstcpy ls lkb).id_of a = ls.id_of a) ∧
    (∀ p P, L.lkb_parent = some p → p ≠ lkb → ls.lkb_mem p = some P →
      (release_lkb mstcpy ls lkb).lkb_mem p =
        some { P with lkb_childcnt := atomic_dec P.lkb_childcnt }) ∧
    (∀ a, a ≠ lkb → L.lkb_parent ≠ some a →
      (release_lkb mstcpy ls lkb).lkb_mem a = ls.lkb_mem a) := by
  have htbl := release_lkb_tbl mstcpy ls lkb L hL hs
  have hmem := release_lkb_mem mstcpy ls lkb L hL hs
  refine ⟨?_, ?_, ?_, ?_, ?_, ?_⟩
  · intro i
    rw [entry_congr _ _ htbl, entry_list_del]
  · intro ht
    obtain ⟨t, h1, h2⟩ := list_del_table_ok ls lkb ht
    exact ⟨t, by rw [htbl, h1], by rw [h2, release_lkb_size]; rfl⟩
  · rw [hmem]; simp
  · intro a ha
    unfold gd_ls.id_of
    rw [hmem, Function.update_noteq ha]
    cases hp : L.lkb_parent with
    | none => rfl
    | some p => exact dec_childcnt_id_of ls p a
  · intro p P hp hne hP
    rw [hmem, Function.update_noteq hne, hp]
    exact dec_childcnt_mem_self ls p P hP
  · intro a ha hpa
    rw [hmem, Function.update_noteq ha]
    cases hp : L.lkb_parent with
    | none => rfl
    | some p =>
      have : a ≠ p := by
        intro h; subst h; exact hpa hp
      exact dec_childcnt_mem_of_ne ls p a this

theorem in_table_live (ls : gd_ls) (hinv : lkid_inv ls) (a : Nat) (h : in_table ls a) :
    ∃ L, ls.lkb_mem a = some L := by
  obtain ⟨i, hi, hm⟩ := h
  obtain ⟨L, hL, -⟩ := hinv.bucket i hi a hm
  exact ⟨L, hL⟩

theorem release_lkb_inv (mstcpy : Nat) (ls : gd_ls) (lkb : Nat) (hinv : lkid_inv ls) :
    lkid_inv (release_lkb mstcpy ls lkb) := by
  cases hL : ls.lkb_mem lkb with
  | none =>
    have : release_lkb mstcpy ls lkb = ls := by unfold release_lkb; simp [hL]
    rw [this]; exact hinv
  | some L =>
    by_cases hs : L.lkb_status = 0
    · obtain ⟨h1, h2, h3, h4, -, -⟩ := release_lkb_shape mstcpy ls lkb L hL hs
      have hsz := release_lkb_size mstcpy ls lkb
      have hsub : ∀ a, in_table (release_lkb mstcpy ls lkb) a → in_table ls a ∧ a ≠ lkb := by
        intro a ⟨i, hi, hm⟩
        rw [hsz] at hi
        rw [h1] at hm
        have := (List.Nodup.mem_erase_iff (hinv.nodup i hi)).mp hm
        exact ⟨⟨i, hi, this.2⟩, this.1⟩
      refine ⟨h2 hinv.table, ?_, ?_, ?_⟩
      · intro i hi a hm
        rw [hsz] at hi
        rw [h1] at hm
        have hm2 := (List.Nodup.mem_erase_iff (hinv.nodup i hi)).mp hm
        obtain ⟨La, hLa, hlow⟩ := hinv.bucket i hi a hm2.2
        have hid := h4 a hm2.1
        simp only [gd_ls.id_of, hLa, Option.map_some'] at hid
        cases hm3 : (release_lkb mstcpy ls lkb).lkb_mem a with
        | none => simp [hm3] at hid
        | some M =>
          simp only [hm3, Option.map_some', Option.some.injEq] at hid
          exact ⟨M, rfl, by rw [hid]; exact hlow⟩
      · intro i hi
        rw [hsz] at hi
        rw [h1]
        exact (hinv.nodup i hi).erase lkb
      · intro a b ha hb hab
        obtain ⟨ha1, ha2⟩ := hsub a ha
        obtain ⟨hb1, hb2⟩ := hsub b hb
        rw [h4 a ha2, h4 b hb2] at hab
        exact hinv.unique a b ha1 hb1 hab
    · rw [release_lkb_of_status mstcpy ls lkb L hL hs]; exact hinv

end Dlm

namespace Dlm

/-- What a successful create_lkb with a fresh address does to the lockspace. -/
theorem create_lkb_shape (ls : gd_ls) (hinv : lkid_inv ls) (hsz : 1 ≤ ls.ls_lockidtbl_size)
    (lkb : Nat) (raw : gd_lkb) (draws : List Nat) (ls2 : gd_ls) (p : Nat)
    (hfresh : ls.lkb_mem lkb = none)
    (h : create_lkb ls (some (lkb, raw)) draws = some (ls2, some p)) :
    p = lkb ∧ ∃ b lkid, b < ls.ls_lockidtbl_size ∧ lkid &&& 0xFFFF = b ∧
      ls2.ls_lockidtbl_size = ls.ls_lockidtbl_size ∧ table_ok ls2 ∧
      (ls2.entry b).list = lkb :: (ls.entry b).list ∧
      (∀ i, i ≠ b → (ls2.entry i).list = (ls.entry i).list) ∧
      ls2.lkb_mem lkb = some { raw with lkb_id := lkid } ∧
      (∀ a, a ≠ lkb → ls2.lkb_mem a = ls.lkb_mem a) ∧
      (¬ in_table ls lkb) ∧
      (¬ ∃ q, in_table ls q ∧ ls.id_of q = some lkid) ∧
      ((∀ i, (ls.entry i).counter < 2 ^ 16) → ∀ i, (ls2.entry i).counter < 2 ^ 16) := by
  obtain ⟨hp, ls1, b, lkid, hloop, rfl⟩ := create_lkb_some ls ls2 lkb p raw draws h
  obtain ⟨h1, h2, h3, h4, h5, h6, h7, h8, h9⟩ := create_lkb_loop_frame draws _ _ _ _ hloop
  simp only [store_lkb_size, store_lkb_entry] at h1 h4 h5 h6 h9
  have hb : b < ls1.ls_lockidtbl_size := by rw [h1]; exact h9 hsz
  have ht1 : table_ok ls1 := h5 hinv.table
  have hnot : ¬ in_table ls lkb := by
    intro hin
    obtain ⟨L, hL⟩ := in_table_live ls hinv lkb hin
    rw [hfresh] at hL; cases hL
  have hfind : __find_lock_by_id ls lkid = none := by
    rw [← h7]
    symm
    apply find_congr _ _ h1 h4
    intro i a ha
    have hne : a ≠ lkb := by
      intro hc; subst hc
      by_cases hi : i < ls.ls_lockidtbl_size
      · exact hnot ⟨i, hi, ha⟩
      · obtain ⟨t, ht1, ht2⟩ := hinv.table
        have : ls.entry i = raw_entry := by
          unfold gd_ls.entry
          rw [ht1]
          simp [List.getElem?_eq_none (by omega : t.length ≤ i)]
        rw [this] at ha
        simp [raw_entry] at ha
    unfold gd_ls.id_of
    rw [h2, store_lkb_mem_of_ne _ _ _ _ hne]
  refine ⟨hp, b, lkid, h9 hsz, h8, ?_, ?_, ?_, ?_, ?_, ?_, hnot, ?_, ?_⟩
  · simp [h1]
  · exact list_add_table_ok _ _ _ (store_lkb_table_ok _ _ _ ht1)
  · rw [list_add_entry_self _ _ _ (store_lkb_table_ok _ _ _ ht1) hb]
    simp [h4]
  · intro i hi
    rw [list_add_entry_of_ne _ _ _ _ hi]
    simp [h4]
  · simp
  · intro a ha
    rw [list_add_lkb_mem, store_lkb_mem_of_ne _ _ _ _ ha, h2, store_lkb_mem_of_ne _ _ _ _ ha]
  · rintro ⟨q, hq1, hq2⟩
    rw [(find_some_iff ls hinv.bucket hinv.unique lkid q).mpr ⟨hq1, hq2⟩] at hfind
    cases hfind
  · intro hc i
    by_cases hi : i = b
    · subst hi
      rw [list_add_entry_self _ _ _ (store_lkb_table_ok _ _ _ ht1) hb]
      exact h6 hc i
    · rw [list_add_entry_of_ne _ _ _ _ hi]
      exact h6 hc i

theorem create_lkb_inv (ls : gd_ls) (hinv : lkid_inv ls) (hsz : 1 ≤ ls.ls_lockidtbl_size)
    (lkb : Nat) (raw : gd_lkb) (draws : List Nat) (ls2 : gd_ls) (p : Nat)
    (hfresh : ls.lkb_mem lkb = none)
    (h : create_lkb ls (some (lkb, raw)) draws = some (ls2, some p)) :
    lkid_inv ls2 := by
  obtain ⟨-, b, lkid, hb, hlow, hsz2, ht2, hlb, hlo, hml, hmo, hnot, hnew, -⟩ :=
    create_lkb_shape ls hinv hsz lkb raw draws ls2 p hfresh h
  have hmem : ∀ i, i < ls.ls_lockidtbl_size → ∀ a, a ∈ (ls2.entry i).list →
      (a = lkb ∧ i = b) ∨ (a ≠ lkb ∧ a ∈ (ls.entry i).list) := by
    intro i hi a ha
    by_cases hib : i = b
    · subst hib
      rw [hlb] at ha
      rcases List.mem_cons.mp ha with h1 | h1
      · left; exact ⟨h1, rfl⟩
      · right
        refine ⟨?_, h1⟩
        intro hc; subst hc; exact hnot ⟨i, hi, h1⟩
    · rw [hlo i hib] at ha
      right
      refine ⟨?_, ha⟩
      intro hc; subst hc; exact hnot ⟨i, hi, ha⟩
  have hidl : ls2.id_of lkb = some lkid := by simp [gd_ls.id_of, hml]
  have hido : ∀ a, a ≠ lkb → ls2.id_of a = ls.id_of a := by
    intro a ha; simp [gd_ls.id_of, hmo a ha]
  have hin : ∀ a, in_table ls2 a → a = lkb ∨ (a ≠ lkb ∧ in_table ls a) := by
    intro a ⟨i, hi, ha⟩
    rw [hsz2] at hi
    rcases hmem i hi a ha with h1 | h1
    · left; exact h1.1
    · right; exact ⟨h1.1, i, hi, h1.2⟩
  refine ⟨ht2, ?_, ?_, ?_⟩
  · intro i hi a ha
    rw [hsz2] at hi
    rcases hmem i hi a ha with ⟨h1, h2⟩ | ⟨h1, h2⟩
    · subst h1; subst h2
      exact ⟨_, hml, hlow⟩
    · rw [hmo a h1]
      exact hinv.bucket i hi a h2
  · intro i hi
    rw [hsz2] at hi
    by_cases hib : i = b
    · subst hib
      rw [hlb]
      apply List.nodup_cons.mpr
      exact ⟨fun hc => hnot ⟨i, hi, hc⟩, hinv.nodup i hi⟩
    · rw [hlo i hib]; exact hinv.nodup i hi
  · intro x y hx hy hxy
    rcases hin x hx with h1 | ⟨h1, h1t⟩ <;> rcases hin y hy with h2 | ⟨h2, h2t⟩
    · rw [h1, h2]
    · subst h1
      rw [hidl, hido y h2] at hxy
      exact absurd ⟨y, h2t, hxy.symm⟩ hnew
    · subst h2
      rw [hidl, hido x h1] at hxy
      exact absurd ⟨x, h1t, hxy⟩ hnew
    · rw [hido x h1, hido y h2] at hxy
      exact hinv.unique x y h1t h2t hxy

end Dlm

namespace Dlm

theorem find_isSome_nonempty (ls : gd_ls) (lkid : Nat)
    (h : (__find_lock_by_id ls lkid).isSome = true) :
    (ls.entry (lkid &&& 0xFFFF)).list ≠ [] := by
  unfold __find_lock_by_id at h
  simp only [] at h
  split at h
  · simp at h
  · intro hnil
    rw [hnil] at h
    simp at h

/-- A bucket with an empty list is not touched by colliding draws: the loop
either ends in another bucket and leaves it alone, or ends in it with the id
composed from the counter it had when the loop started. -/
theorem create_lkb_loop_fresh (draws : List Nat) :
    ∀ (ls0 ls1 : gd_ls) (b lkid f : Nat), create_lkb_loop ls0 draws = some (ls1, b, lkid) →
      (ls0.entry f).list = [] →
      (f ≠ b → ls1.entry f = ls0.entry f) ∧
      (f = b → lkid = (f ||| ((ls0.entry f).counter <<< 16)) % 2 ^ 32) := by
  induction draws with
  | nil => intro ls0 ls1 b lkid f h; cases h
  | cons rnd rest ih =>
    intro ls0 ls1 b lkid f h hf
    simp only [create_lkb_loop] at h
    split at h
    · rename_i hcol
      have hne := find_isSome_nonempty _ _ hcol
      rw [draw_lkid_low16, create_lkb_draw_list] at hne
      have hfb : f ≠ draw_bucket ls0 rnd := by
        intro hc; rw [← hc] at hne; exact hne hf
      have hsame := create_lkb_draw_entry_of_ne ls0 rnd f hfb
      have := ih _ _ _ _ f h (by rw [hsame]; exact hf)
      rw [hsame] at this
      exact this
    · simp only [Option.some.injEq, Prod.mk.injEq] at h
      obtain ⟨h1, h2, h3⟩ := h
      subst h1 h2 h3
      refine ⟨fun hne => create_lkb_draw_entry_of_ne ls0 rnd f hne, ?_⟩
      intro hfb
      rw [hfb]
      rfl

theorem create_lkb_fresh (ls : gd_ls) (lkb : Nat) (raw : gd_lkb) (draws : List Nat)
    (ls2 : gd_ls) (p f : Nat)
    (h : create_lkb ls (some (lkb, raw)) draws = some (ls2, some p))
    (hf : (ls.entry f).list = []) :
    ∃ b lkid, ls2.id_of p = some lkid ∧ lkid &&& 0xFFFF = b ∧
      (f ≠ b → ls2.entry f = ls.entry f) ∧
      (f = b → lkid = (f ||| ((ls.entry f).counter <<< 16)) % 2 ^ 32) := by
  obtain ⟨hp, ls1, b, lkid, hloop, rfl⟩ := create_lkb_some ls ls2 lkb p raw draws h
  obtain ⟨-, -, -, -, -, -, -, h8, -⟩ := create_lkb_loop_frame draws _ _ _ _ hloop
  obtain ⟨h1, h2⟩ := create_lkb_loop_fresh draws _ _ _ _ f hloop (by simpa using hf)
  refine ⟨b, lkid, ?_, h8, ?_, ?_⟩
  · subst hp; simp [gd_ls.id_of]
  · intro hne
    rw [list_add_entry_of_ne _ _ _ _ hne]
    simpa using h1 hne
  · intro he
    simpa using h2 he

theorem create_lkb_loop_final (draws : List Nat) :
    ∀ (ls0 ls1 : gd_ls) (b lkid : Nat), create_lkb_loop ls0 draws = some (ls1, b, lkid) →
      ∃ pre rnd post, draws = pre ++ rnd :: post ∧
        b = draw_bucket (pre.foldl create_lkb_draw ls0) rnd ∧
        lkid = draw_lkid (pre.foldl create_lkb_draw ls0) rnd ∧
        ls1 = create_lkb_draw (pre.foldl create_lkb_draw ls0) rnd := by
  induction draws with
  | nil => intro ls0 ls1 b lkid h; cases h
  | cons rnd rest ih =>
    intro ls0 ls1 b lkid h
    simp only [create_lkb_loop] at h
    split at h
    · obtain ⟨pre, r, post, h1, h2, h3, h4⟩ := ih _ _ _ _ h
      exact ⟨rnd :: pre, r, post, by rw [h1]; rfl, h2, h3, h4⟩
    · simp only [Option.some.injEq, Prod.mk.injEq] at h
      obtain ⟨h1, h2, h3⟩ := h
      exact ⟨[], rnd, rest, rfl, h2.symm, h3.symm, h1.symm⟩

theorem foldl_draw_store (pre : List Nat) :
    ∀ (ls : gd_ls) (a : Nat) (L : gd_lkb),
      pre.foldl create_lkb_draw (ls.store_lkb a L) =
        (pre.foldl create_lkb_draw ls).store_lkb a L := by
  induction pre with
  | nil => intro ls a L; rfl
  | cons r t ih =>
    intro ls a L
    simp only [List.foldl_cons]
    rw [← ih]
    rfl

theorem foldl_draw_frame (pre : List Nat) :
    ∀ (ls : gd_ls), (pre.foldl create_lkb_draw ls).ls_lockidtbl_size = ls.ls_lockidtbl_size ∧
      (table_ok ls → table_ok (pre.foldl create_lkb_draw ls)) ∧
      (∀ i, ((pre.foldl create_lkb_draw ls).entry i).list = (ls.entry i).list) ∧
      ((∀ i, (ls.entry i).counter < 2 ^ 16) →
        ∀ i, ((pre.foldl create_lkb_draw ls).entry i).counter < 2 ^ 16) := by
  induction pre with
  | nil => intro ls; exact ⟨rfl, id, fun _ => rfl, id⟩
  | cons r t ih =>
    intro ls
    simp only [List.foldl_cons]
    obtain ⟨h1, h2, h3, h4⟩ := ih (create_lkb_draw ls r)
    refine ⟨h1, fun ht => h2 (create_lkb_draw_table_ok ls r ht), ?_, ?_⟩
    · intro i; rw [h3, create_lkb_draw_list]
    · intro hc; exact h4 (create_lkb_draw_counter_lt ls r hc)

theorem draw_bucket_size (ls1 ls2 : gd_ls) (h : ls1.ls_lockidtbl_size = ls2.ls_lockidtbl_size)
    (rnd : Nat) : draw_bucket ls1 rnd = draw_bucket ls2 rnd := by
  unfold draw_bucket; rw [h]

theorem draw_bucket_mask (ls : gd_ls) (rnd : Nat) (h1 : 1 ≤ ls.ls_lockidtbl_size)
    (h2 : ls.ls_lockidtbl_size ≤ 2 ^ 32) :
    draw_bucket ls rnd = (rnd % 2 ^ 16) &&& (ls.ls_lockidtbl_size - 1) := by
  unfold draw_bucket
  have e : (ls.ls_lockidtbl_size + 2 ^ 32 - 1) % 2 ^ 32 = ls.ls_lockidtbl_size - 1 := by
    have : ls.ls_lockidtbl_size + 2 ^ 32 - 1 = (ls.ls_lockidtbl_size - 1) + 2 ^ 32 := by omega
    rw [this, Nat.add_mod_right]
    apply Nat.mod_eq_of_lt
    omega
  rw [e]
  apply Nat.mod_eq_of_lt
  exact Nat.lt_of_le_of_lt Nat.and_le_left (Nat.mod_lt _ (by decide))

end Dlm

namespace Dlm

/-! ## Reachable tables -/

theorem entry_replicate (ls : gd_ls) (n : Nat) (e : gd_lockidtbl_entry)
    (h : ls.ls_lockidtbl = some (List.replicate n e)) (i : Nat) (hi : i < n) :
    ls.entry i = e := by
  unfold gd_ls.entry
  rw [h]
  simp [List.getElem?_replicate, hi]

theorem init_lockidtbl_shape (ls0 ls : gd_ls) (n : Nat) (hn : n < 2 ^ 32)
    (h : init_lockidtbl ls0 (n : Int) true = some (0, ls)) :
    ls = { ls0 with ls_lockidtbl_size := n,
                    ls_lockidtbl := some (List.replicate n ⟨[], 1⟩) } := by
  by_cases hc : entries_check (n : Int) = true
  · rw [init_lockidtbl_ok ls0 n hn hc] at h
    simp only [Option.some.injEq, Prod.mk.injEq, true_and] at h
    exact h.symm
  · unfold init_lockidtbl at h
    simp [GDLM_ASSERT, hc] at h

/-- The facts that hold of every reachable lockspace: the LKID invariant, the
table size, 16-bit counters, and that a bucket no created id points to still
has counter 1 and an empty list. -/
theorem reachable_inv (mstcpy : Nat) (n : Nat) (hn1 : 1 ≤ n) (hn : n < 2 ^ 32)
    (ls : gd_ls) (hist : List Nat) (h : reachable mstcpy (n : Int) ls hist) :
    lkid_inv ls ∧ ls.ls_lockidtbl_size = n ∧ (∀ i, (ls.entry i).counter < 2 ^ 16) ∧
      (∀ f, f < n → (∀ id ∈ hist, id &&& 0xFFFF ≠ f) →
        (ls.entry f).counter = 1 ∧ (ls.entry f).list = []) := by
  induction h with
  | init ls0 ls hinit =>
    have hs := init_lockidtbl_shape ls0 ls n hn hinit
    have htbl : ls.ls_lockidtbl = some (List.replicate n ⟨[], 1⟩) := by rw [hs]
    have hsz : ls.ls_lockidtbl_size = n := by rw [hs]
    have hl : ∀ i, (ls.entry i).list = [] := entry_replicate_list ls n 1 htbl
    refine ⟨⟨⟨_, htbl, by simp [hsz]⟩, ?_, ?_, ?_⟩, hsz, ?_, ?_⟩
    · intro i _ a ha; rw [hl i] at ha; cases ha
    · intro i _; rw [hl i]; exact List.nodup_nil
    · intro a b ⟨i, _, ha⟩; rw [hl i] at ha; cases ha
    · intro i
      by_cases hi : i < n
      · rw [entry_replicate ls n _ htbl i hi]; decide
      · unfold gd_ls.entry
        rw [htbl]
        simp [List.getElem?_replicate, hi, raw_entry]
    · intro f hf _
      rw [entry_replicate ls n _ htbl f hf]
      exact ⟨rfl, rfl⟩
  | create ls ls1 hist lkb lkid raw draws _ hfresh hc hid ih =>
    obtain ⟨hinv, hsz, hcnt, hfr⟩ := ih
    have hsz1 : 1 ≤ ls.ls_lockidtbl_size := by rw [hsz]; exact hn1
    obtain ⟨-, b, lkid2, hb, hlow, hsz2, -, -, -, -, -, -, -, hcnt2⟩ :=
      create_lkb_shape ls hinv hsz1 lkb raw draws ls1 lkb hfresh hc
    refine ⟨create_lkb_inv ls hinv hsz1 lkb raw draws ls1 lkb hfresh hc, by rw [hsz2, hsz],
      hcnt2 hcnt, ?_⟩
    intro f hf hall
    have hfold := hfr f hf (fun id hm => hall id (List.mem_cons_of_mem _ hm))
    obtain ⟨b3, lkid3, hid3, hlow3, hne3, -⟩ :=
      create_lkb_fresh ls lkb raw draws ls1 lkb f hc hfold.2
    rw [hid] at hid3
    simp only [Option.some.injEq] at hid3
    subst hid3
    have : f ≠ b3 := by
      intro hc2
      exact hall lkid (List.mem_cons_self _ _) (by rw [hlow3, hc2])
    rw [hne3 this]
    exact hfold
  | release ls hist lkb _ ih =>
    obtain ⟨hinv, hsz, hcnt, hfr⟩ := ih
    refine ⟨release_lkb_inv mstcpy ls lkb hinv, by rw [release_lkb_size, hsz], ?_, ?_⟩
    · intro i; rw [release_lkb_entry_counter]; exact hcnt i
    · intro f hf hall
      obtain ⟨h1, h2⟩ := hfr f hf hall
      refine ⟨by rw [release_lkb_entry_counter]; exact h1, ?_⟩
      rcases release_lkb_tbl_cases mstcpy ls lkb with h | h
      · rw [entry_congr _ _ h]; exact h2
      · rw [entry_congr _ _ h, entry_list_del, h2]; rfl

end Dlm

namespace Dlm

theorem ls_init2_created_reachable :
    reachable 0x2000 ((2 : Int) ^ 1) ls_init2_created [0x10000] :=
  reachable.create ls_init2 ls_init2_created [] 3 0x10000 lkb_blank [0]
    (reachable.init ls_blank ls_init2 rfl) rfl rfl rfl

end Dlm

namespace Dlm

/-! ## Composition of the lock id -/

theorem create_lkb_composed (ls : gd_ls) (ht : table_ok ls) (hsz : 1 ≤ ls.ls_lockidtbl_size)
    (hc : ∀ i, (ls.entry i).counter < 2 ^ 16)
    (lkb : Nat) (raw : gd_lkb) (draws : List Nat) (ls2 : gd_ls) (p : Nat)
    (h : create_lkb ls (some (lkb, raw)) draws = some (ls2, some p)) :
    ∃ pre rnd post, draws = pre ++ rnd :: post ∧
      ((pre.foldl create_lkb_draw ls).entry (draw_bucket ls rnd)).counter < 2 ^ 16 ∧
      draw_bucket ls rnd < ls.ls_lockidtbl_size ∧
      (ls.ls_lockidtbl_size ≤ 2 ^ 32 →
        draw_bucket ls rnd = (rnd % 2 ^ 16) &&& (ls.ls_lockidtbl_size - 1)) ∧
      ls2.id_of p = some
        ((((pre.foldl create_lkb_draw ls).entry (draw_bucket ls rnd)).counter <<< 16) |||
          draw_bucket ls rnd) ∧
      (ls2.entry (draw_bucket ls rnd)).list = p :: (ls.entry (draw_bucket ls rnd)).list ∧
      (ls2.entry (draw_bucket ls rnd)).counter =
        (((pre.foldl create_lkb_draw ls).entry (draw_bucket ls rnd)).counter + 1) % 2 ^ 16 := by
  obtain ⟨hp, ls1, b, lkid, hloop, rfl⟩ := create_lkb_some ls ls2 lkb p raw draws h
  subst hp
  obtain ⟨pre, rnd, post, hd, hb, hid, hls1⟩ := create_lkb_loop_final draws _ _ _ _ hloop
  rw [foldl_draw_store] at hb hid hls1
  obtain ⟨f1, f2, f3, f4⟩ := foldl_draw_frame pre ls
  have hbe : draw_bucket ((pre.foldl create_lkb_draw ls).store_lkb p raw) rnd =
      draw_bucket ls rnd := draw_bucket_size _ _ f1 rnd
  rw [hbe] at hb
  subst hb
  have hblt := draw_bucket_lt ls rnd hsz
  have hck := f4 hc (draw_bucket ls rnd)
  have hide : lkid = (((pre.foldl create_lkb_draw ls).entry (draw_bucket ls rnd)).counter <<< 16)
      ||| draw_bucket ls rnd := by
    rw [hid]
    have := draw_lkid_eq ((pre.foldl create_lkb_draw ls).store_lkb p raw) rnd
      (by rw [hbe]; exact hck)
    rw [this, hbe]
    rfl
  have ht1 : table_ok ls1 := by
    rw [hls1]
    exact create_lkb_draw_table_ok _ _ (store_lkb_table_ok _ _ _ (f2 ht))
  have hsz1 : ls1.ls_lockidtbl_size = ls.ls_lockidtbl_size := by rw [hls1]; exact f1
  refine ⟨pre, rnd, post, hd, hck, hblt, draw_bucket_mask ls rnd hsz, ?_, ?_, ?_⟩
  · rw [← hide]; simp [gd_ls.id_of]
  · rw [list_add_entry_self _ _ _ (store_lkb_table_ok _ _ _ ht1) (by simpa [hsz1] using hblt)]
    simp only [store_lkb_entry]
    rw [hls1, create_lkb_draw_list]
    simp only [store_lkb_entry]
    rw [f3]
  · rw [list_add_entry_self _ _ _ (store_lkb_table_ok _ _ _ ht1) (by simpa [hsz1] using hblt)]
    simp only [store_lkb_entry]
    rw [hls1]
    have := create_lkb_draw_counter ((pre.foldl create_lkb_draw ls).store_lkb p raw)
      (store_lkb_table_ok _ _ _ (f2 ht)) (by simpa [f1] using hsz) rnd
    rw [hbe] at this
    simpa using this

theorem first_id_value (f : Nat) (hf : f < 2 ^ 16) :
    (f ||| (1 <<< 16)) % 2 ^ 32 = 0x00010000 ||| f := by
  rw [Nat.lor_comm]
  apply Nat.mod_eq_of_lt
  exact Nat.or_lt_two_pow (by decide) (Nat.lt_of_lt_of_le hf (by decide))

theorem create_lkb_first_in_bucket (mstcpy : Nat) (n : Nat) (hn1 : 1 ≤ n) (hn : n < 2 ^ 32)
    (ls : gd_ls) (hist : List Nat) (hr : reachable mstcpy (n : Int) ls hist)
    (lkb : Nat) (raw : gd_lkb) (draws : List Nat) (ls2 : gd_ls) (p lkid : Nat)
    (h : create_lkb ls (some (lkb, raw)) draws = some (ls2, some p))
    (hid : ls2.id_of p = some lkid)
    (hfirst : ∀ id ∈ hist, id &&& 0xFFFF ≠ lkid &&& 0xFFFF) :
    lkid = 0x00010000 ||| (lkid &&& 0xFFFF) := by
  obtain ⟨hinv, hsz, -, hfr⟩ := reachable_inv mstcpy n hn1 hn ls hist hr
  obtain ⟨hp, ls1, b, lkid1, hloop, hls2⟩ := create_lkb_some ls ls2 lkb p raw draws h
  obtain ⟨-, -, -, -, -, -, -, h8, h9⟩ := create_lkb_loop_frame draws _ _ _ _ hloop
  have hid1 : lkid1 = lkid := by
    rw [hls2, hp] at hid
    simpa [gd_ls.id_of] using hid
  subst hid1
  have hblt : lkid1 &&& 0xFFFF < n := by
    rw [h8, ← hsz]; exact h9 (by simpa [hsz] using hn1)
  obtain ⟨hc1, hl1⟩ := hfr (lkid1 &&& 0xFFFF) hblt hfirst
  obtain ⟨-, h2⟩ := create_lkb_loop_fresh draws _ _ _ _ (lkid1 &&& 0xFFFF) hloop
    (by simpa using hl1)
  have := h2 h8
  simp only [store_lkb_entry, hc1] at this
  have hlt16 : lkid1 &&& 0xFFFF < 2 ^ 16 :=
    Nat.lt_of_le_of_lt Nat.and_le_right (by decide)
  rw [first_id_value _ hlt16] at this
  exact this

/-- C3: the LKB create_lkb returns has lkb_id = (c << 16) | b, where b is the bucket
of the final draw (the 16 random bits masked with ls_lockidtbl_size - 1) and c
is the 16-bit value the counter of bucket b held just before the increment of
that draw; the LKB is linked at the head of the list of bucket b and the
counter has moved on by one.  The first LKB created in a bucket of a table
reached from init_lockidtbl has id 0x00010000 | b. -/
theorem create_lkb_id_composition :
    (∀ (ls : gd_ls), table_ok ls → 1 ≤ ls.ls_lockidtbl_size →
      (∀ i, (ls.entry i).counter < 2 ^ 16) →
      ∀ (lkb : Nat) (raw : gd_lkb) (draws : List Nat) (ls2 : gd_ls) (p : Nat),
      create_lkb ls (some (lkb, raw)) draws = some (ls2, some p) →
      ∃ pre rnd post, draws = pre ++ rnd :: post ∧
        ((pre.foldl create_lkb_draw ls).entry (draw_bucket ls rnd)).counter < 2 ^ 16 ∧
        draw_bucket ls rnd < ls.ls_lockidtbl_size ∧
        (ls.ls_lockidtbl_size ≤ 2 ^ 32 →
          draw_bucket ls rnd = (rnd % 2 ^ 16) &&& (ls.ls_lockidtbl_size - 1)) ∧
        ls2.id_of p = some
          ((((pre.foldl create_lkb_draw ls).entry (draw_bucket ls rnd)).counter <<< 16) |||
            draw_bucket ls rnd) ∧
        (ls2.entry (draw_bucket ls rnd)).list = p :: (ls.entry (draw_bucket ls rnd)).list ∧
        (ls2.entry (draw_bucket ls rnd)).counter =
          (((pre.foldl create_lkb_draw ls).entry (draw_bucket ls rnd)).counter + 1) % 2 ^ 16) ∧
    (∀ (mstcpy n : Nat), 1 ≤ n → n < 2 ^ 32 →
      ∀ (ls : gd_ls) (hist : List Nat), reachable mstcpy (n : Int) ls hist →
      ∀ (lkb : Nat) (raw : gd_lkb) (draws : List Nat) (ls2 : gd_ls) (p lkid : Nat),
      create_lkb ls (some (lkb, raw)) draws = some (ls2, some p) →
      ls2.id_of p = some lkid →
      (∀ id ∈ hist, id &&& 0xFFFF ≠ lkid &&& 0xFFFF) →
      lkid = 0x00010000 ||| (lkid &&& 0xFFFF)) :=
  ⟨create_lkb_composed, create_lkb_first_in_bucket⟩

theorem create_lkb_id_composition_witness :
    (0x10001 : Nat) = 0x00010000 ||| (0x10001 &&& 0xFFFF) :=
  create_lkb_id_composition.2 0x2000 2 (by decide) (by decide) ls_init2_created [0x10000]
    ls_init2_created_reachable 5 lkb_blank [1]
    (match create_lkb ls_init2_created (some (5, lkb_blank)) [1] with
      | some (ls, _) => ls
      | none => ls_init2)
    5 0x10001 rfl rfl (by decide)

end Dlm

namespace Dlm

/-! ## Effect of a release -/

theorem atomic_dec_eq (c : Int) (h1 : -(2 : Int) ^ 31 < c) (h2 : c < 2 ^ 31) :
    atomic_dec c = c - 1 := by
  unfold atomic_dec
  rw [Int.emod_eq_of_lt (by omega) (by omega)]
  omega

/-- C6: on a table that satisfies the LKID invariant, releasing an LKB of the table
whose status is NONE makes find_lock_by_id return NULL for its id, leaves
find_lock_by_id of every other LKB of the table returning that LKB, leaves
every bucket counter as it was, and replaces the child count of its parent (a
live LKB other than itself) by atomic_dec of it, which is one less whenever
the count is above the least int. -/
theorem release_lkb_removes (mstcpy : Nat) (ls : gd_ls) (hinv : lkid_inv ls) (lkb : Nat)
    (L : gd_lkb) (hin : in_table ls lkb) (hL : ls.lkb_mem lkb = some L)
    (hs : L.lkb_status = 0) :
    (find_lock_by_id (release_lkb mstcpy ls lkb) L.lkb_id).2 = none ∧
    (∀ m M, in_table ls m → m ≠ lkb → ls.lkb_mem m = some M →
      (find_lock_by_id (release_lkb mstcpy ls lkb) M.lkb_id).2 = some m) ∧
    (∀ i, ((release_lkb mstcpy ls lkb).entry i).counter = (ls.entry i).counter) ∧
    (∀ p P, L.lkb_parent = some p → p ≠ lkb → ls.lkb_mem p = some P →
      ∃ P1, (release_lkb mstcpy ls lkb).lkb_mem p = some P1 ∧
        P1 = { P with lkb_childcnt := atomic_dec P.lkb_childcnt } ∧
        (-(2 : Int) ^ 31 < P.lkb_childcnt → P.lkb_childcnt < 2 ^ 31 →
          P1.lkb_childcnt = P.lkb_childcnt - 1)) := by
  have hinv2 := release_lkb_inv mstcpy ls lkb hinv
  obtain ⟨h1, -, -, h4, h5, -⟩ := release_lkb_shape mstcpy ls lkb L hL hs
  have hsz := release_lkb_size mstcpy ls lkb
  have hfind := find_some_iff _ hinv2.bucket hinv2.unique
  refine ⟨?_, ?_, release_lkb_entry_counter mstcpy ls lkb, ?_⟩
  · show __find_lock_by_id _ L.lkb_id = none
    cases hf : __find_lock_by_id (release_lkb mstcpy ls lkb) L.lkb_id with
    | none => rfl
    | some q =>
      exfalso
      obtain ⟨⟨i, hi, hm⟩, hq2⟩ := (hfind L.lkb_id q).mp hf
      rw [hsz] at hi
      rw [h1] at hm
      have hm2 := (List.Nodup.mem_erase_iff (hinv.nodup i hi)).mp hm
      rw [h4 q hm2.1] at hq2
      have : q = lkb := hinv.unique q lkb ⟨i, hi, hm2.2⟩ hin
        (by rw [hq2]; simp [gd_ls.id_of, hL])
      exact hm2.1 this
  · intro m M ⟨i, hi, hm⟩ hne hM
    show __find_lock_by_id _ M.lkb_id = some m
    apply (hfind M.lkb_id m).mpr
    refine ⟨⟨i, by rw [hsz]; exact hi, ?_⟩, ?_⟩
    · rw [h1]; exact (List.mem_erase_of_ne hne).mpr hm
    · rw [h4 m hne]; simp [gd_ls.id_of, hM]
  · intro p P hp hne hP
    refine ⟨_, h5 p P hp hne hP, rfl, ?_⟩
    intro hlo hhi
    exact atomic_dec_eq _ hlo hhi

theorem release_lkb_removes_witness :
    (find_lock_by_id (release_lkb 0x2000 ls_one 7) 0x10001).2 = none ∧
    ∃ P1, (release_lkb 0x2000 ls_one 7).lkb_mem 9 = some P1 ∧
      P1 = { lkb_blank with lkb_childcnt := atomic_dec 1 } ∧
      (-(2 : Int) ^ 31 < 1 → (1 : Int) < 2 ^ 31 → P1.lkb_childcnt = 1 - 1) :=
  ⟨(release_lkb_removes 0x2000 ls_one ls_one_inv 7
      { lkb_blank with lkb_id := 0x10001, lkb_parent := some 9 }
      ⟨1, by decide, by simp [ls_one, gd_ls.entry]⟩ rfl rfl).1,
   (release_lkb_removes 0x2000 ls_one ls_one_inv 7
      { lkb_blank with lkb_id := 0x10001, lkb_parent := some 9 }
      ⟨1, by decide, by simp [ls_one, gd_ls.entry]⟩ rfl rfl).2.2.2 9
      { lkb_blank with lkb_childcnt := 1 } rfl (by decide) rfl⟩

end Dlm

namespace DlmProc

/-! # Resource-directory dump iterator -/

theorem rsbs_from_lt (ls : gd_ls) (e : Nat) (h : e < ls.ls_hashsize) :
    rsbs_from ls e = ls.ls_reshashtbl e ++ rsbs_from ls (e + 1) := by
  unfold rsbs_from
  have : ls.ls_hashsize - e = (ls.ls_hashsize - (e + 1)) + 1 := by omega
  rw [this, List.range'_succ]
  simp

theorem rsbs_from_ge (ls : gd_ls) (e : Nat) (h : ls.ls_hashsize ≤ e) :
    rsbs_from ls e = [] := by
  unfold rsbs_from
  have : ls.ls_hashsize - e = 0 := by omega
  rw [this]
  rfl

theorem all_rsbs_eq (ls : gd_ls) : all_rsbs ls = rsbs_from ls 0 := by
  unfold all_rsbs rsbs_from
  rw [List.range_eq_range']
  rfl

theorem skip_empty_spec (ls : gd_ls) :
    ∀ (fuel e : Nat), e ≤ ls.ls_hashsize → ls.ls_hashsize - e < fuel →
      e ≤ skip_empty ls fuel e ∧ skip_empty ls fuel e ≤ ls.ls_hashsize ∧
      (skip_empty ls fuel e < ls.ls_hashsize →
        ls.ls_reshashtbl (skip_empty ls fuel e) ≠ []) ∧
      rsbs_from ls e = rsbs_from ls (skip_empty ls fuel e) := by
  intro fuel
  induction fuel with
  | zero => intro e _ h; omega
  | succ fuel ih =>
    intro e he hf
    unfold skip_empty
    split
    · rename_i hc
      simp only [Bool.and_eq_true, List.isEmpty_iff, decide_eq_true_eq] at hc
      obtain ⟨h1, h2, h3, h4⟩ := ih (e + 1) (by omega) (by omega)
      refine ⟨by omega, h2, h3, ?_⟩
      rw [rsbs_from_lt ls e hc.2, hc.1, List.nil_append, h4]
    · rename_i hc
      simp only [Bool.and_eq_true, List.isEmpty_iff, decide_eq_true_eq, not_and] at hc
      refine ⟨Nat.le_refl _, he, ?_, rfl⟩
      intro hlt hnil
      exact hc hnil hlt

theorem next_rsb_top_spec (ls : gd_ls) (di : ls_dumpinfo) (he : di.entry ≤ ls.ls_hashsize) :
    (rsbs_from ls di.entry = [] ∧ (next_rsb_top ls di).2 = false) ∨
    (∃ e x, e < ls.ls_hashsize ∧ (ls.ls_reshashtbl e)[0]? = some x ∧
      rsbs_from ls di.entry = ls.ls_reshashtbl e ++ rsbs_from ls (e + 1) ∧
      next_rsb_top ls di = ({ entry := e, next := some 0, rsb := some x }, true)) := by
  obtain ⟨h1, h2, h3, h4⟩ :=
    skip_empty_spec ls (ls.ls_hashsize + 1 - di.entry) di.entry he (by omega)
  unfold next_rsb_top
  simp only []
  split
  · rename_i hge
    left
    refine ⟨?_, rfl⟩
    rw [h4]
    exact rsbs_from_ge ls _ hge
  · rename_i hlt
    have hlt2 : skip_empty ls (ls.ls_hashsize + 1 - di.entry) di.entry < ls.ls_hashsize :=
      Nat.lt_of_not_le hlt
    right
    have hne := h3 hlt2
    cases hc : ls.ls_reshashtbl (skip_empty ls (ls.ls_hashsize + 1 - di.entry) di.entry) with
    | nil => exact absurd hc hne
    | cons x rest =>
      refine ⟨_, x, hlt2, by rw [hc]; simp, ?_, ?_⟩
      · rw [h4, rsbs_from_lt ls _ hlt2]
      · simp [hc]

/-- The walk from a position inside a bucket yields the rest of that chain and
then the chains of the buckets behind it. -/
theorem rsb_walk_from_pos (ls : gd_ls) :
    ∀ (calls e k : Nat) (r : Option Nat), e < ls.ls_hashsize →
      k < (ls.ls_reshashtbl e).length →
      ((ls.ls_reshashtbl e).drop (k + 1) ++ rsbs_from ls (e + 1)).length + 1 ≤ calls →
      rsb_walk ls calls { entry := e, next := some k, rsb := r } =
        ((ls.ls_reshashtbl e).drop (k + 1) ++ rsbs_from ls (e + 1)).map some ++ [none] := by
  intro calls
  induction calls with
  | zero => intro e k r _ _ h; omega
  | succ calls ih =>
    intro e k r he hk hlen
    have hmod : (k + 1) % ((ls.ls_reshashtbl e).length + 1) = k + 1 :=
      Nat.mod_eq_of_lt (by omega)
    unfold rsb_walk next_rsb
    simp only [hmod]
    by_cases hlast : k + 1 = (ls.ls_reshashtbl e).length
    · have hz : (k + 1 + 1) % ((ls.ls_reshashtbl e).length + 1) = 0 := by
        rw [hlast]; exact Nat.mod_self _
      rw [if_pos hz]
      have hdrop : (ls.ls_reshashtbl e).drop (k + 1) = [] := by
        apply List.drop_eq_nil_of_le; omega
      rw [hdrop, List.nil_append] at hlen ⊢
      rcases next_rsb_top_spec ls { entry := e + 1, next := none, rsb := r } (by simpa using he)
        with ⟨h1, h2⟩ | ⟨e2, x, h1, h2, h3, h4⟩
      · simp only [] at h1
        cases hres : next_rsb_top ls { entry := e + 1, next := none, rsb := r } with
        | mk d b =>
          rw [hres] at h2
          simp only [] at h2
          subst h2
          simp [h1]
      · simp only [] at h3
        rw [h4]
        simp only []
        have hx : ls.ls_reshashtbl e2 = x :: (ls.ls_reshashtbl e2).drop 1 := by
          cases hc : ls.ls_reshashtbl e2 with
          | nil => rw [hc] at h2; cases h2
          | cons y t =>
            rw [hc] at h2
            simp at h2
            subst h2
            rfl
        have hk2 : 0 < (ls.ls_reshashtbl e2).length := by
          rw [hx]; simp
        rw [h3] at hlen
        rw [ih e2 0 (some x) h1 hk2 (by rw [hx] at hlen; simpa using hlen)]
        rw [h3]
        conv_rhs => rw [hx]
        simp
    · have hnz : (k + 1 + 1) % ((ls.ls_reshashtbl e).length + 1) ≠ 0 := by
        rw [Nat.mod_eq_of_lt (by omega)]; omega
      rw [if_neg hnz]
      simp only []
      have hk1 : k + 1 < (ls.ls_reshashtbl e).length := by omega
      have hd : (ls.ls_reshashtbl e).drop (k + 1) =
          (ls.ls_reshashtbl e)[k + 1] :: (ls.ls_reshashtbl e).drop (k + 1 + 1) :=
        List.drop_eq_getElem_cons hk1
      rw [hd] at hlen ⊢
      rw [ih e (k + 1) _ he hk1
        (by simp only [List.length_append, List.length_cons] at hlen ⊢; omega),
        List.getElem?_eq_getElem hk1]
      rfl

/-- C14: on a resource table that does not change, the calls of next_rsb from the
cursor s_start sets up (entry 0, no current position) return exactly the
resources chained in the table, bucket after bucket in increasing index and in
chain order inside a bucket, empty buckets skipped, each position once, and
the call after the last resource returns NULL. -/
theorem next_rsb_complete (ls : gd_ls) (calls : Nat)
    (h : (all_rsbs ls).length + 1 ≤ calls) :
    rsb_walk ls calls start_cursor = (all_rsbs ls).map some ++ [none] := by
  rw [all_rsbs_eq] at h ⊢
  cases calls with
  | zero => omega
  | succ calls =>
    unfold rsb_walk next_rsb start_cursor
    simp only []
    rcases next_rsb_top_spec ls { entry := 0, next := none, rsb := none } (Nat.zero_le _)
      with ⟨h1, h2⟩ | ⟨e2, x, h1, h2, h3, h4⟩
    · simp only [] at h1
      cases hres : next_rsb_top ls { entry := 0, next := none, rsb := none } with
      | mk d b =>
        rw [hres] at h2
        simp only [] at h2
        subst h2
        simp [h1]
    · simp only [] at h3
      rw [h4]
      simp only []
      have hx : ls.ls_reshashtbl e2 = x :: (ls.ls_reshashtbl e2).drop 1 := by
        cases hc : ls.ls_reshashtbl e2 with
        | nil => rw [hc] at h2; cases h2
        | cons y t =>
          rw [hc] at h2
          simp at h2
          subst h2
          rfl
      have hk2 : 0 < (ls.ls_reshashtbl e2).length := by
        rw [hx]; simp
      rw [rsb_walk_from_pos ls calls e2 0 (some x) h1 hk2 (by rw [h3, hx] at h; simpa using h)]
      rw [h3]
      conv_rhs => rw [hx]
      simp

theorem next_rsb_complete_witness :
    rsb_walk ls_sample 3 start_cursor = (all_rsbs ls_sample).map some ++ [none] :=
  next_rsb_complete ls_sample 3 (by decide)

end DlmProc

namespace Magma

/-! # Message framing -/

end Magma

namespace Magma

/-- C16 (evaluation at the failing input): for len = 0, or for a NULL payload,
msg_create returns sizeof (struct msg_struct) = 8 without allocating anything:
*msg is never assigned, whatever malloc would do. -/
theorem msg_create_zero_len (env : msg_env) (payload : Option (List Nat)) (len : Int)
    (malloc_ok : Bool) :
    msg_create env payload 0 malloc_ok = (8, msg_ptr.unset, none) ∧
    msg_create env none len malloc_ok = (8, msg_ptr.unset, none) := by
  constructor
  · unfold msg_create
    simp [sizeof_msg_struct]
  · unfold msg_create
    simp [sizeof_msg_struct]

/-- C17 (evaluation at the failing input): on a writable descriptor with
count = 1 <= MSG_MAX_SIZE, when the malloc inside msg_create fails and write
then returns -1, msg_send returns -9 (and calls write with a NULL buffer and
length -1), not -1. -/
theorem msg_send_nomem :
    msg_send env_sample 3 (some [7]) 1 false (-1) =
      ⟨-9, some ENOMEM, some (msg_ptr.null, -1)⟩ := by
  decide

end Magma

namespace Mkfs

/-! # Journal layout -/

theorem journal_loop_done (comline : commandline_t) (hseg : 0 < comline.seg_size) :
    ∀ (device : List mkfs_subdevice_t) (j : Nat) (jlist0 jlist : List journal_list_t),
      journal_loop comline device j jlist0 = layout_result.done jlist →
      jlist = jlist0 ++ (device.filter (fun sd => sd.is_journal)).map (journal_entry comline) := by
  intro device
  induction device with
  | nil =>
    intro j jlist0 jlist h
    simp only [journal_loop, layout_result.done.injEq] at h
    simp [h]
  | cons sd rest ih =>
    intro j jlist0 jlist h
    unfold journal_loop at h
    by_cases hj : sd.is_journal = true
    · rw [if_pos hj] at h
      split at h
      · cases h
      · rw [if_neg (by omega)] at h
        have := ih _ _ _ h
        rw [this]
        simp [hj]
    · rw [if_neg hj] at h
      have := ih _ _ _ h
      rw [this]
      simp [hj]

theorem journal_entry_start (comline : commandline_t) (sd : mkfs_subdevice_t)
    (hseg : 0 < comline.seg_size) (hfit : sd.start + comline.seg_size ≤ 2 ^ 64) :
    comline.seg_size ∣ (journal_entry comline sd).start ∧
    sd.start ≤ (journal_entry comline sd).start ∧
    (journal_entry comline sd).start - sd.start < comline.seg_size ∧
    (∀ m, comline.seg_size ∣ m → sd.start ≤ m → (journal_entry comline sd).start ≤ m) := by
  have hmod := Nat.mod_lt sd.start hseg
  have hdm := Nat.div_add_mod sd.start comline.seg_size
  unfold journal_entry
  simp only []
  split
  · rename_i hne
    have hlt : sd.start + (comline.seg_size - sd.start % comline.seg_size) < 2 ^ 64 := by omega
    rw [Nat.mod_eq_of_lt hlt]
    dsimp only
    have hstart : sd.start + (comline.seg_size - sd.start % comline.seg_size) =
        comline.seg_size * (sd.start / comline.seg_size + 1) := by
      rw [Nat.mul_add, Nat.mul_one]; omega
    refine ⟨?_, by omega, by omega, ?_⟩
    · rw [hstart]; exact Nat.dvd_mul_right _ _
    · rintro m ⟨q, rfl⟩ hle
      rw [hstart]
      apply Nat.mul_le_mul_left
      by_contra hq
      have hq2 : q ≤ sd.start / comline.seg_size := by omega
      have := Nat.mul_le_mul_left comline.seg_size hq2
      omega
  · rename_i he
    simp only [ne_eq, not_not] at he
    dsimp only
    refine ⟨Nat.dvd_of_mod_eq_zero he, Nat.le_refl _, by omega, fun m _ hle => hle⟩

/-- C19: when compute_journal_layout returns, with seg_size > 0 and every journal
subdevice starting at least seg_size blocks below 2^64, the journal list has
grown by one entry per journal subdevice, in subdevice order, and the start
recorded for each is the smallest multiple of seg_size that is not below the
start block of its subdevice. -/
theorem journal_alignment (comline : commandline_t) (device : List mkfs_subdevice_t)
    (jlist0 jlist : List journal_list_t) (hseg : 0 < comline.seg_size)
    (hfit : ∀ sd ∈ device, sd.is_journal = true → sd.start + comline.seg_size ≤ 2 ^ 64)
    (h : compute_journal_layout comline device jlist0 = layout_result.done jlist) :
    jlist = jlist0 ++ (device.filter (fun sd => sd.is_journal)).map (journal_entry comline) ∧
    jlist.length = jlist0.length + (device.filter (fun sd => sd.is_journal)).length ∧
    (∀ sd ∈ device, sd.is_journal = true →
      (journal_entry comline sd).start % comline.seg_size = 0 ∧
      sd.start ≤ (journal_entry comline sd).start ∧
      (journal_entry comline sd).start - sd.start < comline.seg_size ∧
      (∀ m, m % comline.seg_size = 0 → sd.start ≤ m → (journal_entry comline sd).start ≤ m)) := by
  have hl := journal_loop_done comline hseg device 0 jlist0 jlist h
  refine ⟨hl, by rw [hl]; simp, ?_⟩
  intro sd hsd hj
  obtain ⟨h1, h2, h3, h4⟩ := journal_entry_start comline sd hseg (hfit sd hsd hj)
  exact ⟨Nat.mod_eq_zero_of_dvd h1, h2, h3,
    fun m hm hle => h4 m (Nat.dvd_of_mod_eq_zero hm) hle⟩

theorem journal_alignment_witness :
    [journal_entry comline_sample ⟨100, 9000, true⟩] =
      [] ++ ([⟨0, 50, false⟩, ⟨100, 9000, true⟩].filter
        (fun sd => sd.is_journal)).map (journal_entry comline_sample) ∧
    (journal_entry comline_sample ⟨100, 9000, true⟩).start = 112 :=
  ⟨(journal_alignment comline_sample [⟨0, 50, false⟩, ⟨100, 9000, true⟩] []
      [journal_entry comline_sample ⟨100, 9000, true⟩] (by decide) (by decide) (by decide)).1,
    by decide⟩

end Mkfs

namespace Dlm

theorem land_pred_eq_zero_iff : ∀ (n : Nat), 0 < n → (n &&& (n - 1) = 0 ↔ ∃ k, n = 2 ^ k) := by
  intro n
  induction n using Nat.strong_induction_on with
  | _ n ih =>
    intro hn
    by_cases h1 : n = 1
    · subst h1
      exact ⟨fun _ => ⟨0, rfl⟩, fun _ => by decide⟩
    · have hdiv : (n &&& (n - 1)) / 2 = n / 2 &&& (n - 1) / 2 := Nat.and_div_two
      rcases Nat.even_or_odd' n with ⟨m, hm | hm⟩
      · have hm1 : 0 < m := by omega
        have e1 : n / 2 = m := by omega
        have e2 : (n - 1) / 2 = m - 1 := by omega
        have hmod : (n &&& (n - 1)) % 2 = 0 := by
          have := @Nat.and_le_left n (n - 1)
          have h0 : (n &&& (n - 1)).testBit 0 = false := by
            rw [Nat.testBit_and]
            have : n.testBit 0 = false := by
              rw [Nat.testBit_zero]; simp; omega
            simp [this]
          simp only [Nat.testBit_zero, decide_eq_false_iff_not] at h0
          omega
        rw [e1, e2] at hdiv
        have hiff : n &&& (n - 1) = 0 ↔ m &&& (m - 1) = 0 := by
          constructor
          · intro h; rw [h] at hdiv; simpa using hdiv.symm
          · intro h; rw [h] at hdiv; omega
        rw [hiff, ih m (by omega) hm1]
        constructor
        · rintro ⟨k, hk⟩; exact ⟨k + 1, by rw [hm, hk, pow_succ]; ring⟩
        · rintro ⟨k, hk⟩
          cases k with
          | zero => omega
          | succ k => exact ⟨k, by rw [pow_succ] at hk; omega⟩
      · have hm1 : 0 < m := by omega
        have e1 : n / 2 = m := by omega
        have e2 : (n - 1) / 2 = m := by omega
        rw [e1, e2, Nat.and_self] at hdiv
        constructor
        · intro h; rw [h] at hdiv; simp at hdiv; omega
        · rintro ⟨k, hk⟩
          cases k with
          | zero => omega
          | succ k => rw [pow_succ] at hk; omega

/-- For every positive int the assertion of init_lockidtbl passes exactly for the
powers of two. -/
theorem entries_check_pos (entries : Int) (h1 : 1 ≤ entries) (h2 : entries < 2 ^ 31) :
    entries_check entries = true ↔ ∃ k : Nat, entries = 2 ^ k := by
  obtain ⟨n, rfl⟩ := Int.eq_ofNat_of_zero_le (by omega : (0 : Int) ≤ entries)
  have hn : 0 < n := by omega
  have e1 : (((n : Int)) % 2 ^ 32).toNat = n := by omega
  have e2 : ((((n : Int)) - 1) % 2 ^ 32).toNat = n - 1 := by omega
  unfold entries_check int_and
  rw [e1, e2]
  simp only [beq_iff_eq]
  rw [land_pred_eq_zero_iff n hn]
  constructor
  · rintro ⟨k, hk⟩; exact ⟨k, by rw [hk, Nat.cast_pow]; rfl⟩
  · rintro ⟨k, hk⟩
    have : (n : Int) = ((2 ^ k : Nat) : Int) := by rw [hk, Nat.cast_pow]; rfl
    exact ⟨k, Int.ofNat_inj.mp this⟩

end Dlm

namespace DlmProc

/-! # Debug ring buffer -/

theorem debug_putc_ok (st : debug_state) (c : Nat) (h : ring_ok st) :
    ring_ok (debug_putc st c) ∧ (debug_putc st c).debug_size = st.debug_size := by
  obtain ⟨b, hb, hl, hp, hs⟩ := h
  have hmod : (st.debug_point + 1) % 2 ^ 32 = st.debug_point + 1 :=
    Nat.mod_eq_of_lt (by omega)
  unfold debug_putc
  simp only [hb, hmod]
  split
  · exact ⟨⟨b.set st.debug_point c, rfl, by simp [hl], by simp; omega, hs⟩, rfl⟩
  · rename_i hne
    exact ⟨⟨b.set st.debug_point c, rfl, by simp [hl], by simp; omega, hs⟩, rfl⟩

theorem foldl_putc_ok (cs : List Nat) :
    ∀ (st : debug_state), ring_ok st →
      ring_ok (cs.foldl debug_putc st) ∧ (cs.foldl debug_putc st).debug_size = st.debug_size := by
  induction cs with
  | nil => intro st h; exact ⟨h, rfl⟩
  | cons c t ih =>
    intro st h
    obtain ⟨h1, h2⟩ := debug_putc_ok st c h
    obtain ⟨h3, h4⟩ := ih _ h1
    exact ⟨h3, by rw [List.foldl_cons, h4, h2]⟩

theorem dlm_debug_log_eq (st : debug_state) (ls_name text : List Nat) (h : ring_ok st) :
    dlm_debug_log st ls_name text = (log_line ls_name text).foldl debug_putc st := by
  obtain ⟨b, hb, -⟩ := h
  unfold dlm_debug_log
  rw [hb]

theorem debug_log_all_eq (calls : List (List Nat × List Nat)) :
    ∀ (st : debug_state), ring_ok st →
      debug_log_all st calls = (logged_chars calls).foldl debug_putc st := by
  induction calls with
  | nil => intro st _; rfl
  | cons c t ih =>
    intro st h
    have h1 := dlm_debug_log_eq st c.1 c.2 h
    have h2 := (foldl_putc_ok (log_line c.1 c.2) st h).1
    unfold debug_log_all logged_chars
    simp only [List.foldl_cons, List.map_cons, List.flatten_cons, List.foldl_append]
    rw [h1]
    have := ih _ h2
    unfold debug_log_all logged_chars at this
    exact this

theorem write_indices_lt (cs : List Nat) :
    ∀ (st : debug_state), ring_ok st → ∀ i ∈ write_indices st cs, i < st.debug_size := by
  induction cs with
  | nil => intro st _ i hi; cases hi
  | cons c t ih =>
    intro st h i hi
    unfold write_indices at hi
    rcases List.mem_cons.mp hi with rfl | hi
    · obtain ⟨b, -, -, hp, -⟩ := h
      exact hp
    · obtain ⟨h1, h2⟩ := debug_putc_ok st c h
      rw [← h2]
      exact ih _ h1 i hi

theorem dlm_debug_setup_ok (PAGE_SIZE : Nat) (st0 : debug_state) (size : Int)
    (hp0 : 0 < PAGE_SIZE) (hp : PAGE_SIZE < 2 ^ 32) (hs : 1 ≤ size) :
    dlm_debug_setup PAGE_SIZE st0 size true =
      { debug_buf := debug_ptr.live (List.replicate (min size.toNat PAGE_SIZE) 0),
        debug_size := min size.toNat PAGE_SIZE, debug_point := 0, debug_wrap := 0 } := by
  unfold dlm_debug_setup
  by_cases hbig : size > (PAGE_SIZE : Int)
  · have h1 : (size < 0 ∨ size > (PAGE_SIZE : Int)) := Or.inr hbig
    have hne : ¬ ((PAGE_SIZE : Int) = 0) := by omega
    have hmin : min size.toNat PAGE_SIZE = PAGE_SIZE := by omega
    simp only [if_pos h1, ne_eq, hne, not_false_eq_true, decide_True, Bool.and_self,
      Bool.true_eq_false, or_self, if_false, Int.toNat_ofNat, Nat.mod_eq_of_lt hp, hmin]
  · have h1 : ¬ (size < 0 ∨ size > (PAGE_SIZE : Int)) := by omega
    have hne : ¬ (size = 0) := by omega
    have hmin : min size.toNat PAGE_SIZE = size.toNat := by omega
    have hlt : size.toNat < 2 ^ 32 := by omega
    simp only [if_neg h1, ne_eq, hne, not_false_eq_true, decide_True, Bool.and_self,
      Bool.true_eq_false, or_self, if_false, Nat.mod_eq_of_lt hlt, hmin]

theorem dlm_debug_setup_ring_ok (PAGE_SIZE : Nat) (st0 : debug_state) (size : Int)
    (hp0 : 0 < PAGE_SIZE) (hp : PAGE_SIZE < 2 ^ 32) (hs : 1 ≤ size) :
    ring_ok (dlm_debug_setup PAGE_SIZE st0 size true) := by
  rw [dlm_debug_setup_ok PAGE_SIZE st0 size hp0 hp hs]
  exact ⟨_, rfl, by simp, by simp; omega, by simp; omega⟩

/-- C21: after a dlm_debug_setup(size) with size >= 1 that gets its buffer, the
buffer is live with debug_size bytes and 0 <= debug_point < debug_size <=
PAGE_SIZE; every sequence of dlm_debug_log calls, for any lockspace names and
messages, keeps this, and every index a further dlm_debug_log call stores to is
below debug_size. -/
theorem debug_ring_invariant (PAGE_SIZE : Nat) (st0 : debug_state) (size : Int)
    (hp0 : 0 < PAGE_SIZE) (hp : PAGE_SIZE < 2 ^ 32) (hs : 1 ≤ size)
    (calls : List (List Nat × List Nat)) :
    (∃ b, (dlm_debug_setup PAGE_SIZE st0 size true).debug_buf = debug_ptr.live b ∧
      b.length = (dlm_debug_setup PAGE_SIZE st0 size true).debug_size) ∧
    (dlm_debug_setup PAGE_SIZE st0 size true).debug_point <
      (dlm_debug_setup PAGE_SIZE st0 size true).debug_size ∧
    (dlm_debug_setup PAGE_SIZE st0 size true).debug_size ≤ PAGE_SIZE ∧
    (∃ b, (debug_log_all (dlm_debug_setup PAGE_SIZE st0 size true) calls).debug_buf =
        debug_ptr.live b ∧
      b.length = (debug_log_all (dlm_debug_setup PAGE_SIZE st0 size true) calls).debug_size) ∧
    (debug_log_all (dlm_debug_setup PAGE_SIZE st0 size true) calls).debug_point <
      (debug_log_all (dlm_debug_setup PAGE_SIZE st0 size true) calls).debug_size ∧
    (debug_log_all (dlm_debug_setup PAGE_SIZE st0 size true) calls).debug_size ≤ PAGE_SIZE ∧
    (∀ ls_name text, ∀ i ∈ write_indices
        (debug_log_all (dlm_debug_setup PAGE_SIZE st0 size true) calls)
        (log_line ls_name text),
      i < (debug_log_all (dlm_debug_setup PAGE_SIZE st0 size true) calls).debug_size) := by
  have h0 := dlm_debug_setup_ring_ok PAGE_SIZE st0 size hp0 hp hs
  have hsz : (dlm_debug_setup PAGE_SIZE st0 size true).debug_size ≤ PAGE_SIZE := by
    rw [dlm_debug_setup_ok PAGE_SIZE st0 size hp0 hp hs]
    exact Nat.min_le_right _ _
  have h1 := foldl_putc_ok (logged_chars calls) _ h0
  rw [← debug_log_all_eq calls _ h0] at h1
  obtain ⟨b0, hb0, hl0, hp0', -⟩ := h0
  obtain ⟨⟨b1, hb1, hl1, hp1, hs1⟩, he⟩ := h1
  refine ⟨⟨b0, hb0, hl0⟩, hp0', hsz, ⟨b1, hb1, hl1⟩, hp1, by rw [he]; exact hsz, ?_⟩
  intro ls_name text i hi
  exact write_indices_lt _ _ ⟨b1, hb1, hl1, hp1, hs1⟩ i hi

theorem debug_ring_invariant_witness :
    (debug_log_all (dlm_debug_setup 4096 debug_init_state 8 true) [([97], [98])]).debug_point <
      (debug_log_all (dlm_debug_setup 4096 debug_init_state 8 true) [([97], [98])]).debug_size :=
  (debug_ring_invariant 4096 debug_init_state 8 (by decide) (by decide) (by decide)
    [([97], [98])]).2.2.2.2.1

end DlmProc

namespace DlmProc

theorem map_getD_range (b : List Nat) (p : Nat) (hp : p ≤ b.length) :
    (List.range p).map (fun i => b.getD i 0) = b.take p := by
  apply List.ext_getElem
  · simp [hp]
  · intro n h1 h2
    simp only [List.length_map, List.length_range] at h1
    simp [List.getElem?_eq_getElem (by omega : n < b.length)]

theorem map_getD_range' (b : List Nat) (p : Nat) :
    (List.range' p (b.length - p)).map (fun i => b.getD i 0) = b.drop p := by
  apply List.ext_getElem
  · simp
  · intro n h1 h2
    simp only [List.length_map, List.length_range'] at h1
    simp [List.getElem?_eq_getElem (by omega : p + n < b.length)]

theorem debug_chars_eq (st : debug_state) (b : List Nat) (hb : st.debug_buf = debug_ptr.live b)
    (hl : b.length = st.debug_size) (hp : st.debug_point < st.debug_size) :
    debug_chars st = (if st.debug_wrap ≠ 0 then b.drop st.debug_point else []) ++
      b.take st.debug_point := by
  have e : debug_at st = fun i => b.getD i 0 := by
    funext i; simp [debug_at, hb]
  unfold debug_chars
  rw [e, ← hl, map_getD_range' b, map_getD_range b _ (by omega)]

theorem last_chars_short (n : Nat) (l : List Nat) (h : l.length ≤ n) : last_chars n l = l := by
  unfold last_chars
  rw [Nat.sub_eq_zero_of_le h]; rfl

theorem last_chars_snoc (n : Nat) (l : List Nat) (c : Nat) (h : n ≤ l.length) (hn : 0 < n) :
    last_chars n (l ++ [c]) = (last_chars n l).drop 1 ++ [c] := by
  unfold last_chars
  rw [List.drop_drop, List.length_append, List.length_singleton,
    List.drop_append_of_le_length (by omega)]
  congr 2
  omega

theorem last_chars_length (n : Nat) (l : List Nat) : (last_chars n l).length = min l.length n := by
  unfold last_chars
  simp
  omega


theorem set_take_self (b : List Nat) (p c : Nat) (hp : p < b.length) :
    (b.set p c).take (p + 1) = b.take p ++ [c] := by
  rw [List.set_eq_take_append_cons_drop, if_pos hp]
  rw [List.take_append_eq_append_take]
  simp [List.length_take, Nat.min_eq_left (Nat.le_of_lt hp)]

theorem debug_putc_holds (st : debug_state) (cs : List Nat) (c : Nat) (h : ring_holds st cs) :
    ring_holds (debug_putc st c) (cs ++ [c]) := by
  obtain ⟨hok, hch, h01, hw, hpt⟩ := h
  obtain ⟨hok2, hsz2⟩ := debug_putc_ok st c hok
  obtain ⟨b, hb, hl, hp, hs⟩ := hok
  have hmod : (st.debug_point + 1) % 2 ^ 32 = st.debug_point + 1 :=
    Nat.mod_eq_of_lt (by omega)
  have hpl : st.debug_point < b.length := by omega
  rw [debug_chars_eq st b hb hl hp] at hch
  refine ⟨hok2, ?_⟩
  rw [hsz2]
  by_cases hend : st.debug_point + 1 = st.debug_size
  · -- the store fills the last slot: debug_point goes back to 0
    have hst : debug_putc st c =
        { st with debug_buf := debug_ptr.live (b.set st.debug_point c), debug_point := 0,
                  debug_wrap := 1 } := by
      unfold debug_putc
      simp only [hb, hmod, if_pos hend]
    have hd : b.drop (st.debug_point + 1) = [] := List.drop_eq_nil_of_le (by omega)
    have hset : b.set st.debug_point c = b.take st.debug_point ++ [c] := by
      rw [List.set_eq_take_append_cons_drop, if_pos hpl, hd]
    have hch2 : debug_chars (debug_putc st c) = b.take st.debug_point ++ [c] := by
      rw [debug_chars_eq _ (b.set st.debug_point c) (by rw [hst]) (by rw [hst]; simp [hl])
        (by rw [hst]; simp; omega)]
      rw [hst]
      simp [hset]
    refine ⟨?_, Or.inr (by rw [hst]), ?_, ?_⟩
    · rw [hch2]
      by_cases hwz : st.debug_wrap = 0
      · have hT := hpt hwz
        simp only [hwz, ne_eq, not_true_eq_false, if_false, List.nil_append] at hch
        rw [last_chars_short _ _ (by rw [← hT]; omega)] at hch
        rw [last_chars_short _ _ (by simp; omega), hch]
      · have hT := hw.mp hwz
        simp only [ne_eq, hwz, not_false_eq_true, if_true] at hch
        rw [last_chars_snoc _ _ _ hT (by omega), ← hch]
        have hdne : (b.drop st.debug_point).length = 1 := by simp; omega
        rw [List.drop_append_of_le_length (by omega), List.drop_drop, hd]
        rfl
    · rw [hst]
      simp only [ne_eq, one_ne_zero, not_false_eq_true, true_iff, List.length_append,
        List.length_singleton]
      by_cases hwz : st.debug_wrap = 0
      · have := hpt hwz; omega
      · have := hw.mp hwz; omega
    · intro hc; rw [hst] at hc; simp at hc
  · have hst : debug_putc st c =
        { st with debug_buf := debug_ptr.live (b.set st.debug_point c),
                  debug_point := st.debug_point + 1 } := by
      unfold debug_putc
      simp only [hb, hmod, if_neg hend]
    have hlt : st.debug_point + 1 < st.debug_size := by omega
    have hch2 : debug_chars (debug_putc st c) =
        (if st.debug_wrap ≠ 0 then b.drop (st.debug_point + 1) else []) ++
          (b.take st.debug_point ++ [c]) := by
      rw [debug_chars_eq _ (b.set st.debug_point c) (by rw [hst]) (by rw [hst]; simp [hl])
        (by rw [hst]; exact hlt)]
      rw [hst]
      simp only []
      rw [set_take_self b _ c hpl, List.drop_set_of_lt c b (Nat.lt_succ_self _)]
    refine ⟨?_, by rw [hst]; exact h01, ?_, ?_⟩
    · rw [hch2]
      by_cases hwz : st.debug_wrap = 0
      · have hT := hpt hwz
        simp only [hwz, ne_eq, not_true_eq_false, if_false, List.nil_append] at hch ⊢
        rw [last_chars_short _ _ (by rw [← hT]; omega)] at hch
        rw [last_chars_short _ _ (by simp; omega), hch]
      · have hT := hw.mp hwz
        simp only [ne_eq, hwz, not_false_eq_true, if_true] at hch ⊢
        rw [last_chars_snoc _ _ _ hT (by omega), ← hch]
        have hdne : 1 ≤ (b.drop st.debug_point).length := by simp; omega
        rw [List.drop_append_of_le_length hdne, List.drop_drop, List.append_assoc]
    · rw [hst]
      simp only [List.length_append, List.length_singleton]
      by_cases hwz : st.debug_wrap = 0
      · have := hpt hwz
        simp only [hwz, ne_eq, not_true_eq_false, false_iff, not_le]
        omega
      · have := hw.mp hwz
        simp only [ne_eq, hwz, not_false_eq_true, true_iff]
        omega
    · intro hc
      rw [hst] at hc ⊢
      simp only [] at hc
      have := hpt hc
      simp only [List.length_append, List.length_singleton]
      omega

theorem foldl_putc_holds (cs2 : List Nat) :
    ∀ (st : debug_state) (cs : List Nat), ring_holds st cs →
      ring_holds (cs2.foldl debug_putc st) (cs ++ cs2) := by
  induction cs2 with
  | nil => intro st cs h; simpa using h
  | cons c t ih =>
    intro st cs h
    have := ih _ _ (debug_putc_holds st cs c h)
    simpa using this

theorem setup_holds (PAGE_SIZE : Nat) (st0 : debug_state) (size : Int)
    (hp0 : 0 < PAGE_SIZE) (hp : PAGE_SIZE < 2 ^ 32) (hs : 1 ≤ size) :
    ring_holds (dlm_debug_setup PAGE_SIZE st0 size true) [] := by
  have hok := dlm_debug_setup_ring_ok PAGE_SIZE st0 size hp0 hp hs
  refine ⟨hok, ?_, ?_, ?_, ?_⟩
  all_goals rw [dlm_debug_setup_ok PAGE_SIZE st0 size hp0 hp hs]
  · simp [debug_chars, last_chars]
  · left; rfl
  · simp; omega
  · intro _; rfl

/-- What the ring holds after a setup that got its buffer and any sequence of log
calls. -/
theorem debug_ring_content (PAGE_SIZE : Nat) (st0 : debug_state) (size : Int)
    (hp0 : 0 < PAGE_SIZE) (hp : PAGE_SIZE < 2 ^ 32) (hs : 1 ≤ size)
    (calls : List (List Nat × List Nat)) :
    (debug_log_all (dlm_debug_setup PAGE_SIZE st0 size true) calls).debug_size =
      min size.toNat PAGE_SIZE ∧
    ring_holds (debug_log_all (dlm_debug_setup PAGE_SIZE st0 size true) calls)
      (logged_chars calls) := by
  have h0 := setup_holds PAGE_SIZE st0 size hp0 hp hs
  have h1 := foldl_putc_holds (logged_chars calls) _ _ h0
  rw [← debug_log_all_eq calls _ h0.1, List.nil_append] at h1
  refine ⟨?_, h1⟩
  rw [debug_log_all_eq calls _ h0.1, (foldl_putc_ok _ _ h0.1).2,
    dlm_debug_setup_ok PAGE_SIZE st0 size hp0 hp hs]

end DlmProc

namespace DlmProc

theorem sum_map_one (l : List Nat) : (l.map (fun _ => (1 : Int))).sum = (l.length : Int) := by
  induction l with
  | nil => rfl
  | cons a t ih => simp [ih]; ring

theorem logged_chars_replicate (c : List Nat × List Nat) (n : Nat) :
    (logged_chars (List.replicate n c)).length = n * (log_line c.1 c.2).length := by
  induction n with
  | zero => simp [logged_chars]
  | succ n ih =>
    unfold logged_chars at ih ⊢
    simp only [List.replicate_succ, List.map_cons, List.flatten_cons, List.length_append, ih]
    ring

theorem log_line_name62 : (log_line name62 []).length = 64 := by
  decide

theorem logged_chars_calls65 : (logged_chars calls65).length = 4160 := by
  unfold calls65
  rw [logged_chars_replicate, log_line_name62]

/-- C22 (claim as stated fails): with PAGE_SIZE = 4096, after dlm_debug_setup(5000)
and 65 log calls of 64 characters each (T = 4160 < 5000), dlm_debug_dump emits
4096 characters, not min(T, 5000) = 4160, and debug_wrap is set. -/
theorem debug_ring_clamped :
    (logged_chars calls65).length = 4160 ∧
    (dlm_debug_dump
      (debug_log_all (dlm_debug_setup 4096 debug_init_state 5000 true) calls65)).length = 4096 ∧
    (debug_log_all (dlm_debug_setup 4096 debug_init_state 5000 true) calls65).debug_wrap ≠ 0 := by
  obtain ⟨hsz, -, hch, -, hw, -⟩ :=
    debug_ring_content 4096 debug_init_state 5000 (by decide) (by decide) (by decide) calls65
  have hmin : min (5000 : Int).toNat 4096 = 4096 := by decide
  rw [hmin] at hsz
  refine ⟨logged_chars_calls65, ?_, ?_⟩
  · unfold dlm_debug_dump
    rw [hch, hsz, last_chars_length, logged_chars_calls65]
    rfl
  · apply hw.mpr
    rw [hsz, logged_chars_calls65]
    decide

/-- C22 (amended): after a dlm_debug_setup(size) with size >= 1 that gets its
buffer, debug_size is min(size, PAGE_SIZE); after any sequence of dlm_debug_log
calls that appended T characters in all, dlm_debug_dump emits exactly the last
min(T, debug_size) of them in the order they were logged, dlm_debug_info stores
the same characters and returns their number, and debug_wrap is set if and
only if T >= debug_size. -/
theorem debug_ring_last_chars (PAGE_SIZE : Nat) (st0 : debug_state) (size : Int)
    (hp0 : 0 < PAGE_SIZE) (hp : PAGE_SIZE < 2 ^ 32) (hs : 1 ≤ size)
    (calls : List (List Nat × List Nat)) :
    (debug_log_all (dlm_debug_setup PAGE_SIZE st0 size true) calls).debug_size =
      min size.toNat PAGE_SIZE ∧
    dlm_debug_dump (debug_log_all (dlm_debug_setup PAGE_SIZE st0 size true) calls) =
      (logged_chars calls).drop ((logged_chars calls).length - min size.toNat PAGE_SIZE) ∧
    (dlm_debug_dump (debug_log_all (dlm_debug_setup PAGE_SIZE st0 size true) calls)).length =
      min (logged_chars calls).length (min size.toNat PAGE_SIZE) ∧
    dlm_debug_info (debug_log_all (dlm_debug_setup PAGE_SIZE st0 size true) calls) =
      (dlm_debug_dump (debug_log_all (dlm_debug_setup PAGE_SIZE st0 size true) calls),
        ((min (logged_chars calls).length (min size.toNat PAGE_SIZE) : Nat) : Int)) ∧
    ((debug_log_all (dlm_debug_setup PAGE_SIZE st0 size true) calls).debug_wrap ≠ 0 ↔
      min size.toNat PAGE_SIZE ≤ (logged_chars calls).length) := by
  obtain ⟨hsz, -, hch, -, hw, -⟩ := debug_ring_content PAGE_SIZE st0 size hp0 hp hs calls
  rw [hsz] at hch hw
  have hd : dlm_debug_dump (debug_log_all (dlm_debug_setup PAGE_SIZE st0 size true) calls) =
      last_chars (min size.toNat PAGE_SIZE) (logged_chars calls) := hch
  have hlen := last_chars_length (min size.toNat PAGE_SIZE) (logged_chars calls)
  refine ⟨hsz, hd, by rw [hd, hlen], ?_, hw⟩
  unfold dlm_debug_info
  show (dlm_debug_dump _, _) = _
  rw [sum_map_one]
  show (dlm_debug_dump _, ((dlm_debug_dump _).length : Int)) = _
  rw [hd, hlen]

theorem debug_ring_last_chars_witness :
    dlm_debug_dump (debug_log_all (dlm_debug_setup 4096 debug_init_state 3 true)
      [([97], [98]), ([99], [])]) =
      (logged_chars [([97], [98]), ([99], [])]).drop
        ((logged_chars [([97], [98]), ([99], [])]).length - min (3 : Int).toNat 4096) :=
  (debug_ring_last_chars 4096 debug_init_state 3 (by decide) (by decide) (by decide)
    [([97], [98]), ([99], [])]).2.1

end DlmProc

namespace DlmProc

/-! # Reads of the resource table -/

theorem skip_empty_reads_mem (ls : gd_ls) :
    ∀ (fuel e : Nat), e ≤ ls.ls_hashsize → ls.ls_hashsize - e < fuel →
      ls.ls_hashsize ≤ skip_empty ls fuel e →
      ls.ls_hashsize ∈ skip_empty_reads ls fuel e := by
  intro fuel
  induction fuel with
  | zero => intro e _ h; omega
  | succ fuel ih =>
    intro e he hf hres
    unfold skip_empty at hres
    unfold skip_empty_reads
    split at hres
    · rename_i hc
      rw [if_pos hc]
      simp only [Bool.and_eq_true, decide_eq_true_eq] at hc
      exact List.mem_cons_of_mem _ (ih (e + 1) (by omega) (by omega) hres)
    · have : e = ls.ls_hashsize := by omega
      rw [this]
      exact List.mem_cons_self _ _

/-- Every call of next_rsb that finds no further bucket (and returns NULL) from a
cursor without current position has read ls_reshashtbl[ls_hashsize]. -/
theorem next_rsb_top_reads_end (ls : gd_ls) (di : ls_dumpinfo)
    (he : di.entry ≤ ls.ls_hashsize) (hnull : (next_rsb_top ls di).2 = false) :
    ls.ls_hashsize ∈ next_rsb_top_reads ls di := by
  unfold next_rsb_top at hnull
  simp only [] at hnull
  split at hnull
  · rename_i hge
    unfold next_rsb_top_reads
    simp only []
    exact List.mem_append_left _
      (skip_empty_reads_mem ls _ _ he (by omega) hge)
  · simp at hnull

/-- C24 (evaluation at the failing input): on a table of one empty bucket the
first call of next_rsb reads ls_reshashtbl[0] and then ls_reshashtbl[1], one
element behind the array, before it returns NULL; on the sample table the
call after the last resource reads index 3 = ls_hashsize. -/
theorem next_rsb_reads_past_end :
    next_rsb_reads ls_empty1 start_cursor = [0, 1] ∧ ls_empty1.ls_hashsize = 1 ∧
    (next_rsb ls_empty1 start_cursor).2 = false ∧
    next_rsb_reads ls_sample { entry := 1, next := some 1, rsb := some 11 } = [1, 2, 3] ∧
    ls_sample.ls_hashsize = 3 := by
  decide

end DlmProc

namespace Ccs

/-! # Bind/connect loop of do_request -/

theorem refused_delays_append (a b : List sleep_event) :
    refused_delays (a ++ b) = refused_delays a ++ refused_delays b := by
  induction a with
  | nil => rfl
  | cons x t ih => cases x <;> simp [refused_delays, ih]

theorem addrinuse_sleeps_append (a b : List sleep_event) :
    addrinuse_sleeps (a ++ b) = addrinuse_sleeps a ++ addrinuse_sleeps b := by
  induction a with
  | nil => rfl
  | cons x t ih => cases x <;> simp [addrinuse_sleeps, ih]

theorem addrinuse_timo_range (r : Nat) :
    1 ≤ ((r % (RAND_MAX + 1) / (RAND_MAX / 4) : Nat) : Int) + 1 ∧
    ((r % (RAND_MAX + 1) / (RAND_MAX / 4) : Nat) : Int) + 1 ≤ 5 := by
  simp only [RAND_MAX]
  omega

theorem take_delays (n : Nat) (hn : n ≤ 3) (t : Int) (ht : t = 2 ^ n) :
    ([1, 2, 4, 8] : List Int).take n ++ [t] = ([1, 2, 4, 8] : List Int).take (n + 1) := by
  subst ht
  interval_cases n <;> rfl

/-- The loop ends within the turns its state allows and ends as described. -/
theorem bind_connect_loop_spec (env : request_env) :
    ∀ (fuel i : Nat) (res_port timo errno : Int) (sleeps : List sleep_event),
      loop_inv i res_port timo errno sleeps →
      (res_port - 511).toNat + (4 - (refused_delays sleeps).length) + 1 ≤ fuel →
      (∃ p sl, bind_connect_loop env fuel i res_port timo errno sleeps =
          loop_result.connected p sl ∧ 512 ≤ p ∧ p ≤ 1023 ∧ sleeps_ok sl) ∨
      (∃ e sl, bind_connect_loop env fuel i res_port timo errno sleeps =
          loop_result.failed e sl ∧ sleeps_ok sl ∧ failure_ok env e sl) := by
  intro fuel
  induction fuel with
  | zero => intro i res_port timo errno sleeps _ h; omega
  | succ fuel ih =>
    intro i res_port timo errno sleeps hinv hfuel
    obtain ⟨hturn, hport, htimo, hok, hlow⟩ := hinv
    obtain ⟨hr1, hr2, ha1, ha2⟩ := hok
    unfold bind_connect_loop
    by_cases hge : res_port ≥ 512
    · rw [if_pos hge]
      cases hb : env.bindresvport i with
      | some eb =>
        simp only []
        by_cases hin : eb = EADDRINUSE
        · rw [if_pos hin]
          apply ih
          · refine ⟨by simp [hturn], ?_, ?_, ⟨?_, ?_, ?_, ?_⟩, ?_⟩
            · rw [addrinuse_sleeps_append]
              simp only [addrinuse_sleeps, List.length_append, List.length_singleton]
              push_cast; omega
            · rw [refused_delays_append]; simpa [refused_delays] using htimo
            · rw [refused_delays_append]; simpa [refused_delays] using hr1
            · rw [refused_delays_append]; simpa [refused_delays] using hr2
            · rw [addrinuse_sleeps_append]
              simp only [addrinuse_sleeps, List.length_append, List.length_singleton]
              omega
            · intro k p s hk
              rw [addrinuse_sleeps_append] at hk
              simp only [addrinuse_sleeps] at hk
              by_cases hkl : k < (addrinuse_sleeps sleeps).length
              · rw [List.getElem?_append_left hkl] at hk
                exact ha2 k p s hk
              · rw [List.getElem?_append_right (by omega)] at hk
                have hk0 : k - (addrinuse_sleeps sleeps).length = 0 := by
                  by_contra hne
                  rw [List.getElem?_eq_none (by simp; omega)] at hk
                  cases hk
                rw [hk0] at hk
                simp only [List.getElem?_cons_zero, Option.some.injEq, Prod.mk.injEq] at hk
                obtain ⟨h1, h2⟩ := hk
                have := addrinuse_timo_range (env.random i)
                refine ⟨?_, by rw [← h2]; exact this.1, by rw [← h2]; exact this.2⟩
                rw [← h1, hport]
                have : k = (addrinuse_sleeps sleeps).length := by omega
                rw [this]
            · intro _; exact hin
          · rw [refused_delays_append]
            simp only [refused_delays, List.append_nil]
            omega
        · rw [if_neg hin]
          right
          by_cases hinv2 : eb = EINVAL
          · rw [if_pos hinv2]
            exact ⟨_, _, rfl, ⟨hr1, hr2, ha1, ha2⟩, Or.inr (Or.inl
              ⟨by omega, eb, by rw [← hturn]; exact hb, hin, by rw [if_pos hinv2]⟩)⟩
          · rw [if_neg hinv2]
            exact ⟨_, _, rfl, ⟨hr1, hr2, ha1, ha2⟩, Or.inr (Or.inl
              ⟨by omega, eb, by rw [← hturn]; exact hb, hin, by rw [if_neg hinv2]⟩)⟩
      | none =>
        simp only []
        cases hc : env.connect i with
        | none =>
          left
          exact ⟨_, _, rfl, hge, by rw [hport]; omega, ⟨hr1, hr2, ha1, ha2⟩⟩
        | some ec =>
          simp only []
          by_cases hre : ec = ECONNREFUSED ∧ timo ≤ 8
          · rw [if_pos hre]
            have hn3 : (refused_delays sleeps).length ≤ 3 := by
              by_contra hcon
              have h4 : (refused_delays sleeps).length = 4 := by omega
              rw [h4] at htimo
              have := hre.2
              rw [htimo] at this
              norm_num at this
            apply ih
            · refine ⟨by simp [hturn], ?_, ?_, ⟨?_, ?_, ?_, ?_⟩, ?_⟩
              · rw [addrinuse_sleeps_append]
                simp only [addrinuse_sleeps, List.append_nil]
                omega
              · rw [refused_delays_append]
                simp only [refused_delays, List.length_append, List.length_singleton]
                rw [htimo, pow_succ]
              · rw [refused_delays_append]
                simp only [refused_delays, List.length_append, List.length_singleton]
                rw [hr1, List.length_take]
                have : min (refused_delays sleeps).length ([1, 2, 4, 8] : List Int).length =
                    (refused_delays sleeps).length := by simp; omega
                rw [this]
                exact take_delays _ hn3 _ htimo
              · rw [refused_delays_append]
                simp only [refused_delays, List.length_append, List.length_singleton]
                omega
              · rw [addrinuse_sleeps_append]
                simpa [addrinuse_sleeps] using ha1
              · rw [addrinuse_sleeps_append]
                simpa [addrinuse_sleeps] using ha2
              · intro hlt; omega
            · rw [refused_delays_append]
              simp only [refused_delays, List.length_append, List.length_singleton]
              omega
          · rw [if_neg hre]
            right
            refine ⟨_, _, rfl, ⟨hr1, hr2, ha1, ha2⟩, Or.inr (Or.inr
              ⟨by omega, by rw [← hturn]; exact hb, ec, by rw [← hturn]; exact hc, rfl, ?_⟩)⟩
            intro hec
            have ht8 : ¬ timo ≤ 8 := fun h => hre ⟨hec, h⟩
            have h4 : (refused_delays sleeps).length = 4 := by
              by_contra hcon
              have hn3 : (refused_delays sleeps).length ≤ 3 := by omega
              apply ht8
              rw [htimo]
              interval_cases (refused_delays sleeps).length <;> norm_num
            rw [hr1, h4]
            rfl
    · rw [if_neg hge]
      right
      refine ⟨_, _, rfl, ⟨hr1, hr2, ha1, ha2⟩, Or.inl ⟨?_, ?_⟩⟩
      · omega
      · rw [hlow (by omega)]

theorem bind_connect_loop_more (env : request_env) :
    ∀ (fuel k i : Nat) (res_port timo errno : Int) (sleeps : List sleep_event),
      (∀ sl, bind_connect_loop env fuel i res_port timo errno sleeps ≠ loop_result.running sl) →
      bind_connect_loop env (fuel + k) i res_port timo errno sleeps =
        bind_connect_loop env fuel i res_port timo errno sleeps := by
  intro fuel
  induction fuel with
  | zero =>
    intro k i res_port timo errno sleeps h
    exact absurd rfl (h sleeps)
  | succ fuel ih =>
    intro k i res_port timo errno sleeps h
    have e : fuel + 1 + k = (fuel + k) + 1 := by omega
    rw [e]
    unfold bind_connect_loop at h ⊢
    split
    · rename_i hge
      rw [if_pos hge] at h
      split
      · rename_i eb hb
        simp only [hb] at h
        split
        · rename_i hin
          rw [if_pos hin] at h
          exact ih _ _ _ _ _ _ h
        · rfl
      · rename_i hb
        simp only [hb] at h
        split
        · rename_i ec hc
          simp only [hc] at h
          split
          · rename_i hre
            rw [if_pos hre] at h
            exact ih _ _ _ _ _ _ h
          · rfl
        · rfl
    · rfl

theorem loop_inv_start (errno : Int) : loop_inv 0 (IPPORT_RESERVED - 1) 1 errno [] := by
  refine ⟨rfl, rfl, rfl, ⟨rfl, by decide, by decide, ?_⟩, ?_⟩
  · intro k p s h; simp [addrinuse_sleeps] at h
  · intro h; simp [IPPORT_RESERVED] at h

theorem sleeps_caused_nil (env : request_env) : sleeps_caused env [] := by
  intro i ev h
  simp at h

/-- A run stays caused by its environment when the sleep that answers the
outcome of the next turn is added. -/
theorem sleeps_caused_snoc (env : request_env) (sleeps : List sleep_event) (ev : sleep_event)
    (h : sleeps_caused env sleeps) (hp : 512 ≤ port_after sleeps)
    (hev : (env.bindresvport sleeps.length = some EADDRINUSE ∧
        ev = sleep_event.addrinuse (port_after sleeps)
          (addrinuse_timo (env.random sleeps.length))) ∨
      (env.bindresvport sleeps.length = none ∧ env.connect sleeps.length = some ECONNREFUSED ∧
        ev = sleep_event.refused (port_after sleeps) (2 ^ (refused_delays sleeps).length))) :
    sleeps_caused env (sleeps ++ [ev]) := by
  intro i e hi
  by_cases hlt : i < sleeps.length
  · rw [List.getElem?_append_left hlt] at hi
    rw [List.take_append_of_le_length (Nat.le_of_lt hlt)]
    exact h i e hi
  · rw [List.getElem?_append_right (by omega)] at hi
    have hi0 : i = sleeps.length := by
      by_contra hne
      rw [List.getElem?_eq_none (by simp; omega)] at hi
      cases hi
    subst hi0
    simp only [Nat.sub_self, List.getElem?_cons_zero, Option.some.injEq] at hi
    subst hi
    rw [List.take_left']
    · exact ⟨hp, hev⟩
    · rfl

/-- The sleeps of a result are caused by the environment, and a connection is made
in the turn in which bindresvport and connect both succeed. -/
theorem bind_connect_loop_caused (env : request_env) :
    ∀ (fuel i : Nat) (res_port timo errno : Int) (sleeps : List sleep_event),
      i = sleeps.length → res_port = port_after sleeps →
      timo = 2 ^ (refused_delays sleeps).length → sleeps_caused env sleeps →
      sleeps_caused env (trace_of (bind_connect_loop env fuel i res_port timo errno sleeps)) ∧
      ∀ p sl, bind_connect_loop env fuel i res_port timo errno sleeps =
          loop_result.connected p sl →
        p = port_after sl ∧ env.bindresvport sl.length = none ∧
          env.connect sl.length = none := by
  intro fuel
  induction fuel with
  | zero =>
    intro i res_port timo errno sleeps _ _ _ hc
    unfold bind_connect_loop
    exact ⟨hc, fun p sl h => by cases h⟩
  | succ fuel ih =>
    intro i res_port timo errno sleeps hturn hport htimo hc
    unfold bind_connect_loop
    by_cases hge : res_port ≥ 512
    · rw [if_pos hge]
      cases hb : env.bindresvport i with
      | some eb =>
        simp only []
        by_cases hin : eb = EADDRINUSE
        · rw [if_pos hin]
          apply ih
          · simp [hturn]
          · unfold port_after at hport ⊢
            rw [addrinuse_sleeps_append]
            simp only [addrinuse_sleeps, List.length_append, List.length_singleton]
            push_cast
            omega
          · rw [refused_delays_append]
            simpa [refused_delays] using htimo
          · refine sleeps_caused_snoc env sleeps _ hc (by rw [← hport]; exact hge) (Or.inl ⟨?_, ?_⟩)
            · rw [← hturn, hb, hin]
            · rw [← hturn, hport]
              rfl
        · rw [if_neg hin]
          split <;> exact ⟨hc, fun p sl h => by cases h⟩
      | none =>
        simp only []
        cases hcn : env.connect i with
        | none =>
          refine ⟨hc, fun p sl h => ?_⟩
          simp only [loop_result.connected.injEq] at h
          obtain ⟨rfl, rfl⟩ := h
          exact ⟨hport, by rw [← hturn]; exact hb, by rw [← hturn]; exact hcn⟩
        | some ec =>
          simp only []
          by_cases hre : ec = ECONNREFUSED ∧ timo ≤ 8
          · rw [if_pos hre]
            apply ih
            · simp [hturn]
            · unfold port_after at hport ⊢
              rw [addrinuse_sleeps_append]
              simp only [addrinuse_sleeps, List.append_nil]
              omega
            · rw [refused_delays_append]
              simp only [refused_delays, List.length_append, List.length_singleton]
              rw [htimo, pow_succ]
            · refine sleeps_caused_snoc env sleeps _ hc (by rw [← hport]; exact hge)
                (Or.inr ⟨?_, ?_, ?_⟩)
              · rw [← hturn, hb]
              · rw [← hturn, hcn, hre.1]
              · rw [hport, htimo]
          · rw [if_neg hre]
            exact ⟨hc, fun p sl h => by cases h⟩
    · rw [if_neg hge]
      exact ⟨hc, fun p sl h => by cases h⟩

/-- Every run of the loop that is given enough turns is a finished run as run_ok
describes it. -/
theorem do_request_connect_run_ok (env : request_env) (errno : Int) :
    run_ok env (do_request_connect env 517 errno) := by
  have hspec := bind_connect_loop_spec env 517 0 (IPPORT_RESERVED - 1) 1 errno []
    (loop_inv_start errno) (by decide)
  have hcaused := bind_connect_loop_caused env 517 0 (IPPORT_RESERVED - 1) 1 errno []
    rfl (by decide) rfl (sleeps_caused_nil env)
  unfold do_request_connect
  rcases hspec with ⟨p, sl, h, h1, h2, h3⟩ | ⟨e, sl, h, h1, h2⟩
  · obtain ⟨hc1, hc2⟩ := hcaused
    obtain ⟨hp, hb, hcn⟩ := hc2 p sl h
    rw [h] at hc1 ⊢
    exact ⟨h1, h2, h3, hc1, hp, hb, hcn⟩
  · obtain ⟨hc1, -⟩ := hcaused
    rw [h] at hc1 ⊢
    exact ⟨h1, hc1, h2⟩

theorem run_ok_trace (env : request_env) (r : loop_result) (h : run_ok env r) :
    sleeps_ok (trace_of r) ∧ sleeps_caused env (trace_of r) := by
  cases r with
  | connected p sl => exact ⟨h.2.2.1, h.2.2.2.1⟩
  | failed e sl => exact ⟨h.1, h.2.1⟩
  | running sl => exact False.elim h

/-- Two runs in the same environment make the same sleeps as far as both go. -/
theorem sleeps_caused_take (env : request_env) (s1 s2 : List sleep_event)
    (h1 : sleeps_caused env s1) (h2 : sleeps_caused env s2) :
    ∀ n, n ≤ s1.length → n ≤ s2.length → s1.take n = s2.take n := by
  intro n
  induction n with
  | zero => intro _ _; rfl
  | succ n ih =>
    intro hn1 hn2
    have e := ih (by omega) (by omega)
    have g1 : s1[n]? = some (s1.get ⟨n, by omega⟩) := List.getElem?_eq_getElem (by omega)
    have g2 : s2[n]? = some (s2.get ⟨n, by omega⟩) := List.getElem?_eq_getElem (by omega)
    obtain ⟨-, c1⟩ := h1 n _ g1
    obtain ⟨-, c2⟩ := h2 n _ g2
    rw [List.take_succ, List.take_succ, e, g1, g2]
    rw [e] at c1
    rcases c1 with ⟨b1, v1⟩ | ⟨b1, k1, v1⟩ <;> rcases c2 with ⟨b2, v2⟩ | ⟨b2, k2, v2⟩
    · rw [v1, v2]
    · rw [b1] at b2; cases b2
    · rw [b1] at b2; cases b2
    · rw [v1, v2]

/-- No run in the same environment goes on beyond the turn in which a finished
run ended. -/
theorem run_ok_no_later_sleep (env : request_env) (r : loop_result) (s2 : List sleep_event)
    (hr : run_ok env r) (h2c : sleeps_caused env s2) (h2o : sleeps_ok s2)
    (htake : s2.take (trace_of r).length = trace_of r)
    (hlt : (trace_of r).length < s2.length) : False := by
  have g : s2[(trace_of r).length]? = some (s2.get ⟨(trace_of r).length, hlt⟩) :=
    List.getElem?_eq_getElem hlt
  obtain ⟨hport, hkind⟩ := h2c _ _ g
  rw [htake] at hport hkind
  have hsplit : s2 = (trace_of r ++ [s2.get ⟨(trace_of r).length, hlt⟩]) ++
      s2.drop ((trace_of r).length + 1) := by
    conv_lhs => rw [← List.take_append_drop ((trace_of r).length + 1) s2]
    rw [List.take_succ, htake, g]
    rfl
  cases r with
  | running sl => exact hr
  | connected p sl =>
    obtain ⟨-, -, -, -, -, hb, hcn⟩ := hr
    simp only [trace_of] at hkind
    rcases hkind with ⟨b, -⟩ | ⟨-, k, -⟩
    · rw [hb] at b; cases b
    · rw [hcn] at k; cases k
  | failed e sl =>
    obtain ⟨-, -, hf⟩ := hr
    simp only [trace_of] at hkind hport hsplit
    rcases hf with ⟨hfull, -⟩ | ⟨-, eb, hb, hne, -⟩ | ⟨-, hb, ec, hcn, -, hfour⟩
    · unfold port_after at hport
      omega
    · rcases hkind with ⟨b, -⟩ | ⟨b, -, -⟩
      · rw [hb] at b
        simp only [Option.some.injEq] at b
        exact hne b
      · rw [hb] at b; cases b
    · rcases hkind with ⟨b, -⟩ | ⟨-, k, v⟩
      · rw [hb] at b; cases b
      · rw [hcn] at k
        simp only [Option.some.injEq] at k
        have h4 := hfour k
        have h5 := h2o.2.1
        rw [hsplit, v, refused_delays_append, refused_delays_append, h4] at h5
        simp [refused_delays] at h5

/-- Two finished runs with the same sleeps end the same way. -/
theorem run_ok_same_trace (env : request_env) (r1 r2 : loop_result) (h1 : run_ok env r1)
    (h2 : run_ok env r2) (ht : trace_of r1 = trace_of r2) : r1 = r2 := by
  cases r1 with
  | running sl => exact False.elim h1
  | connected p1 sl1 =>
    cases r2 with
    | running sl => exact False.elim h2
    | connected p2 sl2 =>
      simp only [trace_of] at ht
      subst ht
      rw [h1.2.2.2.2.1, h2.2.2.2.2.1]
    | failed e2 sl2 =>
      simp only [trace_of] at ht
      subst ht
      obtain ⟨hp, -, -, -, hpa, hb, hcn⟩ := h1
      obtain ⟨-, -, hf⟩ := h2
      exfalso
      rcases hf with ⟨hfull, -⟩ | ⟨-, eb, hb2, -, -⟩ | ⟨-, -, ec, hc2, -, -⟩
      · rw [hpa] at hp
        unfold port_after at hp
        omega
      · rw [hb] at hb2; cases hb2
      · rw [hcn] at hc2; cases hc2
  | failed e1 sl1 =>
    cases r2 with
    | running sl => exact False.elim h2
    | connected p2 sl2 =>
      simp only [trace_of] at ht
      subst ht
      obtain ⟨hp, -, -, -, hpa, hb, hcn⟩ := h2
      obtain ⟨-, -, hf⟩ := h1
      exfalso
      rcases hf with ⟨hfull, -⟩ | ⟨-, eb, hb2, -, -⟩ | ⟨-, -, ec, hc2, -, -⟩
      · rw [hpa] at hp
        unfold port_after at hp
        omega
      · rw [hb] at hb2; cases hb2
      · rw [hcn] at hc2; cases hc2
    | failed e2 sl2 =>
      simp only [trace_of] at ht
      subst ht
      obtain ⟨-, -, hf1⟩ := h1
      obtain ⟨-, -, hf2⟩ := h2
      have : e1 = e2 := by
        rcases hf1 with ⟨a1, v1⟩ | ⟨a1, eb1, b1, -, v1⟩ | ⟨a1, b1, ec1, c1, v1, -⟩ <;>
        rcases hf2 with ⟨a2, v2⟩ | ⟨a2, eb2, b2, -, v2⟩ | ⟨a2, b2, ec2, c2, v2, -⟩
        · rw [v1, v2]
        · omega
        · omega
        · omega
        · rw [b1] at b2
          simp only [Option.some.injEq] at b2
          rw [v1, v2, b2]
        · rw [b1] at b2; cases b2
        · omega
        · rw [b1] at b2; cases b2
        · rw [c1] at c2
          simp only [Option.some.injEq] at c2
          rw [v1, v2, c2]
      rw [this]

/-- The description run_ok leaves one result only. -/
theorem run_ok_unique (env : request_env) (r1 r2 : loop_result) (h1 : run_ok env r1)
    (h2 : run_ok env r2) : r1 = r2 := by
  obtain ⟨o1, c1⟩ := run_ok_trace env r1 h1
  obtain ⟨o2, c2⟩ := run_ok_trace env r2 h2
  rcases Nat.lt_trichotomy (trace_of r1).length (trace_of r2).length with hlt | heq | hgt
  · exfalso
    refine run_ok_no_later_sleep env r1 (trace_of r2) h1 c2 o2 ?_ hlt
    rw [← sleeps_caused_take env _ _ c1 c2 _ (Nat.le_refl _) (Nat.le_of_lt hlt), List.take_length]
  · apply run_ok_same_trace env r1 r2 h1 h2
    have := sleeps_caused_take env _ _ c1 c2 (trace_of r1).length (Nat.le_refl _)
      (Nat.le_of_eq heq)
    rw [List.take_length] at this
    rw [this, heq, List.take_length]
  · exfalso
    refine run_ok_no_later_sleep env r2 (trace_of r1) h2 c1 o1 ?_ hgt
    rw [sleeps_caused_take env _ _ c1 c2 _ (Nat.le_of_lt hgt) (Nat.le_refl _), List.take_length]

/-- C26: for every sequence of outcomes of bindresvport, connect and random, the
bind/connect loop of do_request ends within 517 turns, and its result is the
one finished run that the outcomes allow (run_ok holds of it and of no other
result).  Every sleep answers the outcome of its turn: an address-in-use
failure of bindresvport on port 1023 - k is followed by a sleep of 1 to 5
seconds and the next lower port, at most 512 times (ports 1023 down to 512),
after which the call fails; a refused connection is followed by a sleep of 1,
2, 4, 8 seconds in this order and a new attempt on the same port, at most four
times, and the fifth refusal ends the call with -ECONNREFUSED.  The call ends
connected, on the port the sleeps led to, in the turn in which bindresvport and
connect both succeed; any other failure of bindresvport or connect ends the
call in its turn, with an error that is negative when the errno values are
positive. -/
theorem do_request_connect_bounded (env : request_env) (errno : Int) (fuel : Nat)
    (hf : 517 ≤ fuel) :
    do_request_connect env fuel errno = do_request_connect env 517 errno ∧
    run_ok env (do_request_connect env fuel errno) ∧
    (∀ r, run_ok env r → r = do_request_connect env fuel errno) ∧
    ((∃ p sl, do_request_connect env fuel errno = loop_result.connected p sl ∧
        512 ≤ p ∧ p ≤ 1023 ∧ sleeps_ok sl ∧ sleeps_caused env sl ∧ p = port_after sl ∧
        env.bindresvport sl.length = none ∧ env.connect sl.length = none) ∨
     (∃ e sl, do_request_connect env fuel errno = loop_result.failed e sl ∧
        sleeps_ok sl ∧ sleeps_caused env sl ∧ failure_ok env e sl ∧
        ((∀ i eb, env.bindresvport i = some eb → 0 < eb) →
         (∀ i ec, env.connect i = some ec → 0 < ec) → e < 0))) := by
  have hspec := bind_connect_loop_spec env 517 0 (IPPORT_RESERVED - 1) 1 errno []
    (loop_inv_start errno) (by decide)
  have hstable : do_request_connect env fuel errno = do_request_connect env 517 errno := by
    unfold do_request_connect
    have e : fuel = 517 + (fuel - 517) := by omega
    rw [e]
    apply bind_connect_loop_more
    intro sl hrun
    rcases hspec with ⟨p, sl2, h, -⟩ | ⟨e2, sl2, h, -⟩ <;> rw [h] at hrun <;> cases hrun
  have hok := do_request_connect_run_ok env errno
  refine ⟨hstable, ?_, ?_, ?_⟩
  · rw [hstable]
    exact hok
  · intro r hr
    rw [hstable]
    exact run_ok_unique env _ _ hr hok
  · rw [hstable]
    cases hres : do_request_connect env 517 errno with
    | running sl =>
      rw [hres] at hok
      exact False.elim hok
    | connected p sl =>
      rw [hres] at hok
      left
      exact ⟨p, sl, rfl, hok⟩
    | failed e sl =>
      rw [hres] at hok
      obtain ⟨h1, h2, h3⟩ := hok
      right
      refine ⟨e, sl, rfl, h1, h2, h3, ?_⟩
      intro hbp hcp
      rcases h3 with ⟨-, he⟩ | ⟨-, eb, hb, -, he⟩ | ⟨-, -, ec, hc, he, -⟩
      · rw [he]; decide
      · rw [he]
        split
        · decide
        · have := hbp _ _ hb; omega
      · rw [he]
        have := hcp _ _ hc; omega

theorem env_refusing_run :
    do_request_connect env_refusing 517 0 =
      loop_result.failed (-ECONNREFUSED)
        [sleep_event.refused 1023 1, sleep_event.refused 1023 2,
         sleep_event.refused 1023 4, sleep_event.refused 1023 8] := by
  decide

theorem do_request_connect_bounded_witness :
    do_request_connect env_refusing 600 0 =
      loop_result.failed (-ECONNREFUSED)
        [sleep_event.refused 1023 1, sleep_event.refused 1023 2,
         sleep_event.refused 1023 4, sleep_event.refused 1023 8] :=
  (do_request_connect_bounded env_refusing 0 600 (by decide)).1.trans env_refusing_run

end Ccs

namespace Dlm

/-! ## Termination of the id allocation -/

theorem draw_lkid_compose (ls : gd_ls) (rnd : Nat) :
    draw_lkid ls rnd = compose_lkid (draw_bucket ls rnd) (ls.entry (draw_bucket ls rnd)).counter :=
  rfl

theorem compose_lkid_low (b c : Nat) (hb : b < 2 ^ 16) : compose_lkid b c &&& 0xFFFF = b :=
  low16_of_draw b c hb

theorem compose_lkid_val (b c : Nat) (hb : b < 2 ^ 16) (hc : c < 2 ^ 16) :
    compose_lkid b c = 2 ^ 16 * c + b := by
  unfold compose_lkid
  rw [Nat.lor_comm, Nat.shiftLeft_eq, Nat.mul_comm, ← Nat.mul_add_lt_is_or hb]
  apply Nat.mod_eq_of_lt
  have : 2 ^ 16 * c ≤ 2 ^ 16 * (2 ^ 16 - 1) := Nat.mul_le_mul_left _ (by omega)
  norm_num at this hb ⊢
  omega

theorem compose_lkid_inj (b c1 c2 : Nat) (hb : b < 2 ^ 16) (h1 : c1 < 2 ^ 16) (h2 : c2 < 2 ^ 16)
    (h : compose_lkid b c1 = compose_lkid b c2) : c1 = c2 := by
  rw [compose_lkid_val b c1 hb h1, compose_lkid_val b c2 hb h2] at h
  omega

theorem find_create_lkb_draw (ls : gd_ls) (rnd lkid : Nat) :
    __find_lock_by_id (create_lkb_draw ls rnd) lkid = __find_lock_by_id ls lkid :=
  find_congr (create_lkb_draw ls rnd) ls rfl (create_lkb_draw_list ls rnd) (fun _ _ _ => rfl) lkid

theorem collisions_ahead_congr (ls1 ls2 : gd_ls) (b : Nat)
    (h : ∀ lkid, __find_lock_by_id ls1 lkid = __find_lock_by_id ls2 lkid) :
    ∀ (fuel c : Nat), collisions_ahead ls1 b fuel c = collisions_ahead ls2 b fuel c := by
  intro fuel
  induction fuel with
  | zero => intro c; rfl
  | succ fuel ih => intro c; simp only [collisions_ahead, h, ih]

theorem collisions_ahead_le (ls : gd_ls) (b : Nat) :
    ∀ (fuel c : Nat), collisions_ahead ls b fuel c ≤ fuel := by
  intro fuel
  induction fuel with
  | zero => intro c; exact Nat.le_refl _
  | succ fuel ih =>
    intro c
    unfold collisions_ahead
    split
    · exact Nat.succ_le_succ (ih _)
    · exact Nat.zero_le _

theorem collisions_ahead_stable (ls : gd_ls) (b : Nat) :
    ∀ (fuel c : Nat), collisions_ahead ls b fuel c < fuel →
      collisions_ahead ls b (fuel + 1) c = collisions_ahead ls b fuel c := by
  intro fuel
  induction fuel with
  | zero => intro c h; simp [collisions_ahead] at h
  | succ fuel ih =>
    intro c h
    unfold collisions_ahead at h ⊢
    split
    · rename_i hs
      rw [if_pos hs] at h
      rw [ih _ (by omega)]
    · rfl

theorem collisions_ahead_full (ls : gd_ls) (b : Nat) :
    ∀ (fuel c : Nat), c < 2 ^ 16 → collisions_ahead ls b fuel c = fuel →
      ∀ t, t < fuel → (__find_lock_by_id ls (compose_lkid b ((c + t) % 2 ^ 16))).isSome = true := by
  intro fuel
  induction fuel with
  | zero => intro c _ _ t ht; omega
  | succ fuel ih =>
    intro c hc h t ht
    unfold collisions_ahead at h
    split at h
    · rename_i hs
      cases t with
      | zero => rw [Nat.add_zero, Nat.mod_eq_of_lt hc]; exact hs
      | succ t =>
        have := ih ((c + 1) % 2 ^ 16) (Nat.mod_lt _ (by decide)) (by omega) t (by omega)
        have e : ((c + 1) % 2 ^ 16 + t) % 2 ^ 16 = (c + (t + 1)) % 2 ^ 16 := by omega
        rw [e] at this
        exact this
    · omega

theorem find_isSome_mem (ls : gd_ls) (lkid : Nat)
    (h : (__find_lock_by_id ls lkid).isSome = true) :
    ∃ a ∈ (ls.entry (lkid &&& 0xFFFF)).list, ls.id_of a = some lkid := by
  unfold __find_lock_by_id at h
  simp only [] at h
  split at h
  · simp at h
  · cases hf : (ls.entry (lkid &&& 0xFFFF)).list.find? (fun lkb => ls.id_of lkb == some lkid) with
    | none => rw [hf] at h; simp at h
    | some a =>
      exact ⟨a, List.mem_of_find?_eq_some hf, by simpa using List.find?_some hf⟩

/-- A bucket cannot collide with more consecutive counter values than it holds
LKBs. -/
theorem collisions_ahead_bound (ls : gd_ls) (b c : Nat) (hb : b < 2 ^ 16) (hc : c < 2 ^ 16)
    (hk : (ls.entry b).list.length < 2 ^ 16) :
    collisions_ahead ls b ((ls.entry b).list.length + 1) c ≤ (ls.entry b).list.length := by
  by_contra hcon
  have hle := collisions_ahead_le ls b ((ls.entry b).list.length + 1) c
  have hfull : collisions_ahead ls b ((ls.entry b).list.length + 1) c =
      (ls.entry b).list.length + 1 := by omega
  have hall := collisions_ahead_full ls b _ c hc hfull
  have hnd : ((List.range ((ls.entry b).list.length + 1)).map
      (fun t => compose_lkid b ((c + t) % 2 ^ 16))).Nodup := by
    apply List.Nodup.map_on _ (List.nodup_range _)
    intro x hx y hy hxy
    rw [List.mem_range] at hx hy
    have := compose_lkid_inj b _ _ hb (Nat.mod_lt _ (by decide)) (Nat.mod_lt _ (by decide)) hxy
    omega
  have hsub : ((List.range ((ls.entry b).list.length + 1)).map
      (fun t => compose_lkid b ((c + t) % 2 ^ 16))) ⊆
      (ls.entry b).list.filterMap (fun a => ls.id_of a) := by
    intro x hx
    rw [List.mem_map] at hx
    obtain ⟨t, ht, rfl⟩ := hx
    rw [List.mem_range] at ht
    obtain ⟨a, ha, hid⟩ := find_isSome_mem ls _ (hall t ht)
    rw [compose_lkid_low b _ hb] at ha
    exact List.mem_filterMap.mpr ⟨a, ha, hid⟩
  have h1 := (List.subperm_of_subset hnd hsub).length_le
  have h2 := List.length_filterMap_le (fun a => ls.id_of a) (ls.entry b).list
  simp only [List.length_map, List.length_range] at h1
  omega

end Dlm

namespace Dlm

theorem sum_range_point (f g : Nat → Nat) (b : Nat) (hb : f b = g b + 1)
    (ho : ∀ i, i ≠ b → f i = g i) :
    ∀ n, ((List.range n).map f).sum = ((List.range n).map g).sum + (if b < n then 1 else 0) := by
  intro n
  induction n with
  | zero => simp
  | succ n ih =>
    rw [List.range_succ, List.map_append, List.map_append, List.sum_append, List.sum_append, ih]
    simp only [List.map_cons, List.map_nil, List.sum_cons, List.sum_nil, Nat.add_zero]
    by_cases h1 : b < n
    · have : f n = g n := ho n (by omega)
      simp [h1, (by omega : b < n + 1), this]; omega
    · by_cases h2 : b = n
      · subst h2
        simp [hb]; omega
      · have : f n = g n := ho n (fun h => h2 h.symm)
        rw [if_neg h1, if_neg (by omega), this]
        omega

theorem sum_range_le (f g : Nat → Nat) :
    ∀ n, (∀ i, i < n → f i ≤ g i) → ((List.range n).map f).sum ≤ ((List.range n).map g).sum := by
  intro n
  induction n with
  | zero => intro _; simp
  | succ n ih =>
    intro h
    rw [List.range_succ, List.map_append, List.map_append, List.sum_append, List.sum_append]
    have := ih (fun i hi => h i (by omega))
    have := h n (by omega)
    simp; omega

theorem sum_range_mono (g : Nat → Nat) (m : Nat) :
    ∀ n, m ≤ n → ((List.range m).map g).sum ≤ ((List.range n).map g).sum := by
  intro n
  induction n with
  | zero => intro h; have : m = 0 := by omega
            subst this; exact Nat.le_refl _
  | succ n ih =>
    intro h
    by_cases hm : m = n + 1
    · subst hm; exact Nat.le_refl _
    · have := ih (by omega)
      rw [List.range_succ, List.map_append, List.sum_append]
      omega

theorem gap_sum_le_count (ls : gd_ls) (hc : ∀ i, (ls.entry i).counter < 2 ^ 16)
    (hk : ∀ i, i < ls.ls_lockidtbl_size → (ls.entry i).list.length < 2 ^ 16) :
    gap_sum ls ≤ lkb_count ls := by
  unfold gap_sum lkb_count
  refine Nat.le_trans (sum_range_le _ (fun i => (ls.entry i).list.length) _ ?_)
    (sum_range_mono _ _ _ (Nat.min_le_left _ _))
  intro i hi
  have hi1 : i < ls.ls_lockidtbl_size := Nat.lt_of_lt_of_le hi (Nat.min_le_left _ _)
  have hi2 : i < 2 ^ 16 := Nat.lt_of_lt_of_le hi (Nat.min_le_right _ _)
  exact collisions_ahead_bound ls i _ hi2 (hc i) (hk i hi1)

/-- A colliding draw uses up one of the collisions ahead of its bucket and leaves
those of the other buckets as they were. -/
theorem gap_sum_draw (ls : gd_ls) (ht : table_ok ls) (hsz : 1 ≤ ls.ls_lockidtbl_size)
    (hc : ∀ i, (ls.entry i).counter < 2 ^ 16)
    (hk : ∀ i, i < ls.ls_lockidtbl_size → (ls.entry i).list.length < 2 ^ 16) (rnd : Nat)
    (hcol : (__find_lock_by_id (create_lkb_draw ls rnd) (draw_lkid ls rnd)).isSome = true) :
    gap_sum ls = gap_sum (create_lkb_draw ls rnd) + 1 := by
  have hb1 := draw_bucket_lt ls rnd hsz
  have hb2 := draw_bucket_lt_pow ls rnd
  have hfind := find_create_lkb_draw ls rnd
  rw [hfind] at hcol
  have hcong := collisions_ahead_congr (create_lkb_draw ls rnd) ls
  have hpoint : bucket_gap ls (draw_bucket ls rnd) =
      bucket_gap (create_lkb_draw ls rnd) (draw_bucket ls rnd) + 1 := by
    unfold bucket_gap
    rw [create_lkb_draw_list, create_lkb_draw_counter ls ht hsz rnd,
      hcong _ (fun lkid => hfind lkid)]
    have hbound := collisions_ahead_bound ls (draw_bucket ls rnd)
      (ls.entry (draw_bucket ls rnd)).counter hb2 (hc _) (hk _ hb1)
    have hunf : collisions_ahead ls (draw_bucket ls rnd)
        ((ls.entry (draw_bucket ls rnd)).list.length + 1) (ls.entry (draw_bucket ls rnd)).counter =
        collisions_ahead ls (draw_bucket ls rnd) (ls.entry (draw_bucket ls rnd)).list.length
          (((ls.entry (draw_bucket ls rnd)).counter + 1) % 2 ^ 16) + 1 := by
      conv_lhs => unfold collisions_ahead
      rw [draw_lkid_compose] at hcol
      rw [if_pos hcol]
    rw [hunf] at hbound ⊢
    rw [collisions_ahead_stable _ _ _ _ (by omega)]
  have hother : ∀ i, i ≠ draw_bucket ls rnd →
      bucket_gap ls i = bucket_gap (create_lkb_draw ls rnd) i := by
    intro i hi
    unfold bucket_gap
    rw [create_lkb_draw_entry_of_ne ls rnd i hi, hcong _ (fun lkid => hfind lkid)]
  unfold gap_sum
  have := sum_range_point (bucket_gap ls) (bucket_gap (create_lkb_draw ls rnd))
    (draw_bucket ls rnd) hpoint hother (min ls.ls_lockidtbl_size (2 ^ 16))
  rw [this, if_pos (Nat.lt_min.mpr ⟨hb1, hb2⟩)]
  rfl

theorem create_lkb_loop_isSome (draws : List Nat) :
    ∀ (ls : gd_ls), table_ok ls → 1 ≤ ls.ls_lockidtbl_size →
      (∀ i, (ls.entry i).counter < 2 ^ 16) →
      (∀ i, i < ls.ls_lockidtbl_size → (ls.entry i).list.length < 2 ^ 16) →
      gap_sum ls < draws.length → ∃ r, create_lkb_loop ls draws = some r := by
  induction draws with
  | nil => intro ls _ _ _ _ h; simp at h
  | cons rnd rest ih =>
    intro ls ht hsz hc hk hlen
    unfold create_lkb_loop
    simp only []
    split
    · rename_i hcol
      have hg := gap_sum_draw ls ht hsz hc hk rnd hcol
      apply ih _ (create_lkb_draw_table_ok ls rnd ht) hsz (create_lkb_draw_counter_lt ls rnd hc)
      · intro i hi
        rw [create_lkb_draw_list]
        exact hk i hi
      · simp only [List.length_cons] at hlen
        omega
    · exact ⟨_, rfl⟩

theorem create_lkb_loop_append (pre : List Nat) :
    ∀ (ls : gd_ls) (post : List Nat) r, create_lkb_loop ls pre = some r →
      create_lkb_loop ls (pre ++ post) = some r := by
  induction pre with
  | nil => intro ls post r h; cases h
  | cons rnd rest ih =>
    intro ls post r h
    rw [List.cons_append]
    unfold create_lkb_loop at h ⊢
    simp only [] at h ⊢
    split
    · rename_i hcol
      rw [if_pos hcol] at h
      exact ih _ _ _ h
    · rename_i hcol
      rw [if_neg hcol] at h
      exact h

theorem store_lkb_lkb_count (ls : gd_ls) (a : Nat) (L : gd_lkb) :
    lkb_count (ls.store_lkb a L) = lkb_count ls := rfl

/-- C23: on a table with at least one bucket whose buckets each hold fewer than
2^16 LKBs (and whose counters are 16-bit values), for every sequence of random
draws longer than the number N of LKBs in the table the retry loop of
create_lkb ends, and it ends within the first N + 1 draws; so create_lkb
returns the new LKB. -/
theorem create_lkb_terminates (ls : gd_ls) (ht : table_ok ls)
    (hsz : 1 ≤ ls.ls_lockidtbl_size) (hc : ∀ i, (ls.entry i).counter < 2 ^ 16)
    (hk : ∀ i, i < ls.ls_lockidtbl_size → (ls.entry i).list.length < 2 ^ 16)
    (draws : List Nat) (hd : lkb_count ls + 1 ≤ draws.length) :
    (∃ r, create_lkb_loop ls (draws.take (lkb_count ls + 1)) = some r ∧
      create_lkb_loop ls draws = some r) ∧
    (∀ lkb raw, ∃ ls2, create_lkb ls (some (lkb, raw)) draws = some (ls2, some lkb) ∧
      create_lkb ls (some (lkb, raw)) (draws.take (lkb_count ls + 1)) = some (ls2, some lkb)) := by
  have key : ∀ (l : gd_ls), table_ok l → 1 ≤ l.ls_lockidtbl_size →
      (∀ i, (l.entry i).counter < 2 ^ 16) →
      (∀ i, i < l.ls_lockidtbl_size → (l.entry i).list.length < 2 ^ 16) →
      lkb_count l = lkb_count ls →
      ∃ r, create_lkb_loop l (draws.take (lkb_count ls + 1)) = some r ∧
        create_lkb_loop l draws = some r := by
    intro l ht1 hsz1 hc1 hk1 hcount
    have hg := gap_sum_le_count l hc1 hk1
    obtain ⟨r, hr⟩ := create_lkb_loop_isSome (draws.take (lkb_count ls + 1)) l ht1 hsz1 hc1 hk1
      (by rw [List.length_take]; omega)
    refine ⟨r, hr, ?_⟩
    have := create_lkb_loop_append _ l (draws.drop (lkb_count ls + 1)) r hr
    rwa [List.take_append_drop] at this
  refine ⟨key ls ht hsz hc hk rfl, ?_⟩
  intro lkb raw
  obtain ⟨⟨ls1, b, lkid⟩, h1, h2⟩ := key (ls.store_lkb lkb raw) (store_lkb_table_ok _ _ _ ht)
    hsz hc hk rfl
  refine ⟨list_add (ls1.store_lkb lkb { raw with lkb_id := lkid }) lkb b, ?_, ?_⟩
  · unfold create_lkb
    simp only [h2]
  · unfold create_lkb
    simp only [h1]

theorem create_lkb_terminates_witness :
    ∃ r, create_lkb_loop ls_one ([5, 6, 7].take (lkb_count ls_one + 1)) = some r ∧
      create_lkb_loop ls_one [5, 6, 7] = some r :=
  (create_lkb_terminates ls_one ⟨_, rfl, rfl⟩ (by decide)
    (by intro i; unfold gd_ls.entry ls_one; simp only [Option.getD_some]
        rcases i with _ | _ | i <;> simp [raw_entry])
    (by intro i hi; have : i < 2 := hi
        interval_cases i <;> simp [ls_one, gd_ls.entry])
    [5, 6, 7] (by decide)).1

end Dlm

/-! ## Resource groups tile the data subdevices -/

namespace Mkfs

theorem rgrp_loop_rest (comline : commandline_t) (x : Nat) (sdev : mkfs_subdevice_t)
    (nrgrp : Nat) (first_sdev : Bool) :
    ∀ (todo rgrp : Nat) (last : rgrp_list_t) (rlist : List rgrp_list_t), rgrp ≠ 0 →
      (rgrp_loop comline x sdev nrgrp first_sdev todo rgrp (some last) rlist).1 =
        rlist ++ (List.range todo).map (fun k =>
          ({ subdevice := x,
             rg_offset := (last.rg_offset + last.rg_length + k * (sdev.length / nrgrp)) % 2 ^ 64,
             rg_length := sdev.length / nrgrp } : rgrp_list_t)) := by
  intro todo
  induction todo with
  | zero => intro rgrp last rlist _; simp [rgrp_loop]
  | succ todo ih =>
    intro rgrp last rlist h
    unfold rgrp_loop
    simp only [h, ne_eq, not_false_eq_true, if_true, Option.getD_some]
    rw [ih _ _ _ (Nat.succ_ne_zero _), List.range_succ_eq_map, List.map_cons, List.map_map,
      List.append_assoc]
    congr 1
    simp only [List.singleton_append, Nat.zero_mul, Nat.add_zero]
    congr 1
    apply List.map_congr_left
    intro k _
    simp only [Function.comp, Nat.succ_eq_add_one]
    congr 1
    rw [Nat.succ_mul]
    generalize k * (sdev.length / nrgrp) = t
    omega

/-- The first group of a subdevice, as the loop makes it in the turn rgrp = 0. -/
theorem rgrp_loop_first (comline : commandline_t) (x : Nat) (sdev : mkfs_subdevice_t)
    (nrgrp : Nat) (first_sdev : Bool) (n : Nat) (rlast : Option rgrp_list_t)
    (rlist : List rgrp_list_t) (off len : Nat)
    (hoff : off = if first_sdev then (sdev.start + (comline.sb_addr + 1)) % 2 ^ 64
      else sdev.start)
    (hlen : len = (sdev.length + 2 ^ 64 - ((nrgrp - 1) * (sdev.length / nrgrp)) % 2 ^ 64)
      % 2 ^ 64) :
    (rgrp_loop comline x sdev nrgrp first_sdev (n + 1) 0 rlast rlist).1 =
      rlist ++ (⟨x, off, len⟩ :: (List.range n).map (fun k =>
          ({ subdevice := x,
             rg_offset := (off + len + k * (sdev.length / nrgrp)) % 2 ^ 64,
             rg_length := sdev.length / nrgrp } : rgrp_list_t))) := by
  unfold rgrp_loop
  simp only [ne_eq, not_true_eq_false, if_false]
  rw [rgrp_loop_rest _ _ _ _ _ _ _ _ _ (Nat.succ_ne_zero _), List.append_assoc, ← hoff, ← hlen]
  rfl

theorem groups_chain (x q : Nat) :
    ∀ (n : Nat) (a : rgrp_list_t) (base : Nat), a.rg_offset + a.rg_length = base →
      base + n * q < 2 ^ 64 →
      List.Chain (fun a b : rgrp_list_t => b.rg_offset = a.rg_offset + a.rg_length) a
        ((List.range n).map (fun k =>
          ({ subdevice := x, rg_offset := (base + k * q) % 2 ^ 64, rg_length := q } :
            rgrp_list_t))) := by
  intro n
  induction n with
  | zero => intro a base _ _; simp
  | succ n ih =>
    intro a base ha hb
    rw [List.range_succ_eq_map, List.map_cons, List.map_map]
    rw [Nat.succ_mul] at hb
    refine List.Chain.cons ?_ ?_
    · simp only [Nat.zero_mul, Nat.add_zero]
      rw [ha, Nat.mod_eq_of_lt (by omega)]
    · have := ih ⟨x, (base + 0 * q) % 2 ^ 64, q⟩ (base + q)
        (by simp only [Nat.zero_mul, Nat.add_zero]; rw [Nat.mod_eq_of_lt (by omega)])
        (by omega)
      have hmap : (List.range n).map ((fun k =>
          ({ subdevice := x, rg_offset := (base + k * q) % 2 ^ 64, rg_length := q } :
            rgrp_list_t)) ∘ Nat.succ) = (List.range n).map (fun k =>
          ({ subdevice := x, rg_offset := (base + q + k * q) % 2 ^ 64, rg_length := q } :
            rgrp_list_t)) := by
        apply List.map_congr_left
        intro k _
        simp only [Function.comp, Nat.succ_eq_add_one]
        congr 2
        rw [Nat.succ_mul]
        omega
      rw [hmap]
      exact this

theorem groups_sum (x q : Nat) (f : Nat → Nat) (n : Nat) :
    (((List.range n).map (fun k =>
      ({ subdevice := x, rg_offset := f k, rg_length := q } : rgrp_list_t))).map
        (fun rl => rl.rg_length)).sum = n * q := by
  rw [List.map_map]
  induction n with
  | zero => simp
  | succ n ih =>
    rw [List.range_succ, List.map_append, List.sum_append, ih, Nat.succ_mul]
    simp

theorem how_many_rgrps_congr (div_ru : Nat → Nat → Option Nat) (c1 c2 : commandline_t)
    (s1 s2 : mkfs_subdevice_t) (h1 : c1.expert = c2.expert) (h2 : c1.bsize = c2.bsize)
    (h3 : c1.rgsize = c2.rgsize) (h4 : s1.length = s2.length) :
    how_many_rgrps div_ru c1 s1 = how_many_rgrps div_ru c2 s2 := by
  unfold how_many_rgrps
  rw [h1, h2, h3, h4]

theorem how_many_rgrps_min (div_ru : Nat → Nat → Option Nat) (comline : commandline_t)
    (sdev : mkfs_subdevice_t) (n : Nat) (h : how_many_rgrps div_ru comline sdev = some n) :
    1 ≤ n ∧ (comline.expert = false → 4 ≤ n) := by
  unfold how_many_rgrps at h
  split at h
  · cases h
  · simp only [] at h
    split at h
    · cases h
    · simp only [Option.some.injEq] at h
      subst h
      cases comline.expert <;> simp <;> split <;> omega

end Mkfs

namespace Mkfs

/-- The groups the inner loop makes for one subdevice whose usable blocks start at
block s. -/
theorem rgrp_loop_groups (comline : commandline_t) (x : Nat) (sdev : mkfs_subdevice_t)
    (nrgrp : Nat) (first_sdev : Bool) (rlast : Option rgrp_list_t) (rlist : List rgrp_list_t)
    (s : Nat) (hn : 1 ≤ nrgrp)
    (hs : s = if first_sdev then (sdev.start + (comline.sb_addr + 1)) % 2 ^ 64
      else sdev.start)
    (hfit : s + sdev.length < 2 ^ 64) :
    ∃ g, (rgrp_loop comline x sdev nrgrp first_sdev nrgrp 0 rlast rlist).1 = rlist ++ g ∧
      g.length = nrgrp ∧ (∀ rl ∈ g, rl.subdevice = x) ∧
      List.Chain' (fun a b : rgrp_list_t => b.rg_offset = a.rg_offset + a.rg_length) g ∧
      g.head?.map (fun rl => rl.rg_offset) = some s ∧
      (g.map (fun rl => rl.rg_length)).sum = sdev.length := by
  obtain ⟨n, rfl⟩ : ∃ n, nrgrp = n + 1 := ⟨nrgrp - 1, by omega⟩
  have hq : n * (sdev.length / (n + 1)) ≤ sdev.length := by
    have h1 := Nat.div_mul_le_self sdev.length (n + 1)
    have h2 : n * (sdev.length / (n + 1)) ≤ sdev.length / (n + 1) * (n + 1) := by
      rw [Nat.mul_comm]
      exact Nat.mul_le_mul_left _ (Nat.le_succ n)
    omega
  have hlen : (sdev.length + 2 ^ 64 - ((n + 1 - 1) * (sdev.length / (n + 1))) % 2 ^ 64)
      % 2 ^ 64 = sdev.length - n * (sdev.length / (n + 1)) := by
    rw [Nat.add_sub_cancel]
    generalize n * (sdev.length / (n + 1)) = t at hq ⊢
    omega
  refine ⟨_, rgrp_loop_first comline x sdev (n + 1) first_sdev n rlast rlist s
    (sdev.length - n * (sdev.length / (n + 1))) hs hlen.symm, ?_, ?_, ?_, ?_, ?_⟩
  · simp
  · intro rl hrl
    rw [List.mem_cons, List.mem_map] at hrl
    rcases hrl with h | ⟨k, _, h⟩
    · rw [h]
    · rw [← h]
  · refine groups_chain x (sdev.length / (n + 1)) n _ _ rfl ?_
    generalize n * (sdev.length / (n + 1)) = t at hq ⊢
    omega
  · rfl
  · rw [List.map_cons, List.sum_cons, groups_sum]
    simp only []
    generalize n * (sdev.length / (n + 1)) = t at hq ⊢
    omega

end Mkfs

namespace Mkfs

theorem filter_groups_self (x : Nat) (g rest : List rgrp_list_t)
    (hg : ∀ rl ∈ g, rl.subdevice = x) (hr : ∀ rl ∈ rest, x + 1 ≤ rl.subdevice) :
    (g ++ rest).filter (fun rl => decide (rl.subdevice = x)) = g := by
  rw [List.filter_append, List.filter_eq_self.mpr (by simpa using hg),
    List.filter_eq_nil_iff.mpr ?_, List.append_nil]
  intro rl h
  have := hr rl h
  simp only [decide_eq_true_eq]
  omega

theorem filter_groups_other (x y : Nat) (g rest : List rgrp_list_t)
    (hg : ∀ rl ∈ g, rl.subdevice = x) (hxy : x ≠ y) :
    (g ++ rest).filter (fun rl => decide (rl.subdevice = y)) =
      rest.filter (fun rl => decide (rl.subdevice = y)) := by
  rw [List.filter_append, List.filter_eq_nil_iff.mpr ?_, List.nil_append]
  intro rl h
  have := hg rl h
  simp only [decide_eq_true_eq]
  omega

theorem reserved_zero (first_sdev : Bool) (comline : commandline_t)
    (device : List mkfs_subdevice_t) :
    reserved first_sdev comline device 0 = if first_sdev then comline.sb_addr + 1 else 0 := by
  unfold reserved
  cases first_sdev <;> simp

theorem reserved_false (comline : commandline_t) (device : List mkfs_subdevice_t) (j : Nat) :
    reserved false comline device j = 0 := by
  unfold reserved
  simp

theorem reserved_data (first_sdev : Bool) (comline : commandline_t) (sdev : mkfs_subdevice_t)
    (rest : List mkfs_subdevice_t) (j : Nat) (h : sdev.is_journal = false) :
    reserved first_sdev comline (sdev :: rest) (j + 1) = 0 := by
  unfold reserved
  simp [h]

theorem reserved_journal (first_sdev : Bool) (comline : commandline_t)
    (sdev : mkfs_subdevice_t) (rest : List mkfs_subdevice_t) (j : Nat)
    (h : sdev.is_journal = true) :
    reserved first_sdev comline (sdev :: rest) (j + 1) = reserved first_sdev comline rest j := by
  unfold reserved
  simp [h]

theorem tiles_of_rgrps (div_ru : Nat → Nat → Option Nat) (comline : commandline_t) (v : Nat)
    (sdev : mkfs_subdevice_t) (res : Nat) (g : List rgrp_list_t)
    (h : tiles div_ru { comline with rgrps := v } sdev res g) :
    tiles div_ru comline sdev res g :=
  ⟨h.count, h.at_least_one, h.at_least_four, h.contiguous, h.first, h.total⟩

theorem rgrp_subdev_loop_tiles (div_ru : Nat → Nat → Option Nat) :
    ∀ (devs : List mkfs_subdevice_t) (x : Nat) (first_sdev : Bool) (comline : commandline_t)
      (rlast : Option rgrp_list_t) (rlist : List rgrp_list_t) (c : commandline_t)
      (d : List mkfs_subdevice_t) (r : List rgrp_list_t),
      rgrp_subdev_loop div_ru devs x first_sdev comline rlast rlist = some (c, d, r) →
      comline.rgrps < 2 ^ 64 →
      (∀ sdev ∈ devs, sdev.is_journal = false → sdev.start + sdev.length < 2 ^ 64) →
      (first_sdev = true → ∀ sdev, devs.find? (fun s => !s.is_journal) = some sdev →
        comline.sb_addr + 1 ≤ sdev.length) →
      ∃ added, r = rlist ++ added ∧
        c = { comline with rgrps := (comline.rgrps + added.length) % 2 ^ 64 } ∧
        (∀ rl ∈ added, x ≤ rl.subdevice) ∧
        ∀ j sdev, devs[j]? = some sdev →
          (sdev.is_journal = true →
            added.filter (fun rl => decide (rl.subdevice = x + j)) = []) ∧
          (sdev.is_journal = false →
            tiles div_ru comline sdev (reserved first_sdev comline devs j)
              (added.filter (fun rl => decide (rl.subdevice = x + j)))) := by
  intro devs
  induction devs with
  | nil =>
    intro x first_sdev comline rlast rlist c d r hret hr _ _
    unfold rgrp_subdev_loop at hret
    simp only [Option.some.injEq, Prod.mk.injEq] at hret
    obtain ⟨rfl, _, rfl⟩ := hret
    refine ⟨[], by simp, ?_, by simp, ?_⟩
    · simp only [List.length_nil, Nat.add_zero, Nat.mod_eq_of_lt hr]
    · intro j sdev h
      simp at h
  | cons sdev rest ih =>
    intro x first_sdev comline rlast rlist c d r hret hr hfit hfirst
    unfold rgrp_subdev_loop at hret
    cases hj : sdev.is_journal with
    | true =>
      simp only [hj, if_true] at hret
      split at hret
      · cases hret
      · rename_i c1 d1 r1 hrec
        simp only [Option.some.injEq, Prod.mk.injEq] at hret
        obtain ⟨rfl, _, rfl⟩ := hret
        obtain ⟨added, hadd, hc, hsub, hall⟩ := ih (x + 1) first_sdev comline rlast rlist _ _ _
          hrec hr (fun s hs => hfit s (List.mem_cons_of_mem _ hs))
          (fun hf s hs => hfirst hf s (by rw [List.find?_cons_of_neg _ (by simp [hj])]; exact hs))
        refine ⟨added, hadd, hc, fun rl h => Nat.le_of_succ_le (hsub rl h), ?_⟩
        intro j s hs
        cases j with
        | zero =>
          simp only [List.getElem?_cons_zero, Option.some.injEq] at hs
          subst hs
          refine ⟨fun _ => ?_, fun h => ?_⟩
          · rw [List.filter_eq_nil_iff]
            intro rl h
            have := hsub rl h
            simp only [decide_eq_true_eq]
            omega
          · rw [hj] at h
            cases h
        | succ j =>
          simp only [List.getElem?_cons_succ] at hs
          have e : x + (j + 1) = x + 1 + j := by omega
          rw [e, reserved_journal _ _ _ _ _ hj]
          exact hall j s hs
    | false =>
      generalize hs1 : (if first_sdev = true then
          ({ sdev with length := (sdev.length + 2 ^ 64 - (comline.sb_addr + 1) % 2 ^ 64) % 2 ^ 64 }
            : mkfs_subdevice_t)
        else sdev) = sdev1 at hret
      simp only [hj, Bool.false_eq_true, if_false] at hret
      have hres : reserved first_sdev comline (sdev :: rest) 0 ≤ sdev.length := by
        rw [reserved_zero]
        cases hf : first_sdev with
        | false => simp
        | true =>
          simp only [if_true]
          exact hfirst hf sdev (by rw [List.find?_cons_of_pos _ (by simp [hj])])
      have hfit0 := hfit sdev (List.mem_cons_self _ _) hj
      have hstart : sdev1.start = sdev.start := by
        rw [← hs1]; cases first_sdev <;> rfl
      have hlength : sdev1.length = sdev.length - reserved first_sdev comline (sdev :: rest) 0 := by
        rw [← hs1]
        rw [reserved_zero] at hres ⊢
        cases first_sdev with
        | false => rfl
        | true =>
          simp only [if_true] at hres ⊢
          omega
      split at hret
      · cases hret
      · rename_i nrgrp hn
        split at hret
        · cases hret
        · rename_i c1 d1 r1 hrec
          simp only [Option.some.injEq, Prod.mk.injEq] at hret
          obtain ⟨rfl, _, rfl⟩ := hret
          have hmin := how_many_rgrps_min div_ru comline sdev1 nrgrp hn
          obtain ⟨g, hg, hglen, hgsub, hgchain, hghead, hgsum⟩ :=
            rgrp_loop_groups comline x sdev1 nrgrp first_sdev rlast rlist
              (sdev.start + reserved first_sdev comline (sdev :: rest) 0) hmin.1
              (by
                rw [hstart, reserved_zero] at *
                cases first_sdev with
                | false => rfl
                | true =>
                  simp only [if_true] at hres ⊢
                  rw [Nat.mod_eq_of_lt (by omega)])
              (by rw [hlength]; omega)
          rw [hg] at hrec
          obtain ⟨added, hadd, hc, hsub, hall⟩ := ih (x + 1) false _ _ _ _ _ _ hrec
            (Nat.mod_lt _ (by norm_num)) (fun s hs => hfit s (List.mem_cons_of_mem _ hs))
            (fun hf => by cases hf)
          refine ⟨g ++ added, by rw [hadd, List.append_assoc], ?_, ?_, ?_⟩
          · rw [hc]
            simp only [List.length_append, hglen]
            congr 1
            omega
          · intro rl h
            rcases List.mem_append.mp h with h | h
            · exact Nat.le_of_eq (hgsub rl h).symm
            · exact Nat.le_of_succ_le (hsub rl h)
          · intro j s hs
            cases j with
            | zero =>
              simp only [List.getElem?_cons_zero, Option.some.injEq] at hs
              subst hs
              refine ⟨fun h => ?_, fun _ => ?_⟩
              · rw [hj] at h
                cases h
              · rw [Nat.add_zero, filter_groups_self x g added hgsub hsub]
                refine ⟨?_, ?_, ?_, hgchain, hghead, ?_⟩
                · rw [hglen, ← hn]
                  exact how_many_rgrps_congr div_ru _ _ _ _ rfl rfl rfl hlength.symm
                · rw [hglen]; exact hmin.1
                · rw [hglen]; exact hmin.2
                · rw [hgsum, hlength]
            | succ j =>
              simp only [List.getElem?_cons_succ] at hs
              have e : x + (j + 1) = x + 1 + j := by omega
              rw [e, reserved_data _ _ _ _ _ hj,
                filter_groups_other x (x + 1 + j) g added hgsub (by omega)]
              have := hall j s hs
              rw [reserved_false] at this
              exact ⟨this.1, fun h => tiles_of_rgrps div_ru comline _ s 0 _ (this.2 h)⟩

end Mkfs

namespace Mkfs

theorem how_many_rgrps_isSome (div_ru : Nat → Nat → Option Nat) (comline : commandline_t)
    (sdev : mkfs_subdevice_t) (hb : comline.bsize ≠ 0)
    (hdiv : ∀ len,
      (div_ru len (((comline.rgsize <<< 20) % 2 ^ 32) / comline.bsize)).isSome = true) :
    ∃ n, how_many_rgrps div_ru comline sdev = some n := by
  unfold how_many_rgrps
  rw [if_neg hb]
  have := hdiv sdev.length
  cases h : div_ru sdev.length (((comline.rgsize <<< 20) % 2 ^ 32) / comline.bsize) with
  | none => rw [h] at this; cases this
  | some v => exact ⟨_, rfl⟩

theorem rgrp_subdev_loop_returns (div_ru : Nat → Nat → Option Nat) :
    ∀ (devs : List mkfs_subdevice_t) (x : Nat) (first_sdev : Bool) (comline : commandline_t)
      (rlast : Option rgrp_list_t) (rlist : List rgrp_list_t), comline.bsize ≠ 0 →
      (∀ len,
        (div_ru len (((comline.rgsize <<< 20) % 2 ^ 32) / comline.bsize)).isSome = true) →
      ∃ res, rgrp_subdev_loop div_ru devs x first_sdev comline rlast rlist = some res := by
  intro devs
  induction devs with
  | nil =>
    intro x first_sdev comline rlast rlist _ _
    unfold rgrp_subdev_loop
    exact ⟨_, rfl⟩
  | cons sdev rest ih =>
    intro x first_sdev comline rlast rlist hb hdiv
    unfold rgrp_subdev_loop
    by_cases hj : sdev.is_journal = true
    · obtain ⟨⟨c, d, r⟩, h⟩ := ih (x + 1) first_sdev comline rlast rlist hb hdiv
      rw [if_pos hj, h]
      exact ⟨_, rfl⟩
    · rw [if_neg hj]
      simp only []
      generalize (if first_sdev = true then
          ({ sdev with length := (sdev.length + 2 ^ 64 - (comline.sb_addr + 1) % 2 ^ 64) % 2 ^ 64 }
            : mkfs_subdevice_t)
        else sdev) = sdev1
      obtain ⟨n, hn⟩ := how_many_rgrps_isSome div_ru comline sdev1 hb hdiv
      rw [hn]
      simp only []
      obtain ⟨⟨c, d, r⟩, h⟩ := ih (x + 1) false
        { comline with rgrps := (comline.rgrps + n) % 2 ^ 64 }
        (rgrp_loop comline x sdev1 n first_sdev n 0 rlast rlist).2
        (rgrp_loop comline x sdev1 n first_sdev n 0 rlast rlist).1 hb hdiv
      rw [h]
      exact ⟨_, rfl⟩

/-- C25: with a block size other than 0 and a DIV_RU that is defined on the
group size, on a device whose data subdevices end below block 2^64 and whose
first data subdevice has at least sb_addr + 1 blocks, compute_rgrp_layout
returns; it appends the new groups to the list, and comline->rgrps grows by
their number (as a 64-bit count).  No new group belongs to a journal
subdevice, and the groups of data subdevice x tile it: they are as many as
how_many_rgrps says, at least 1 and at least 4 outside expert mode, each
starts where the one before it ends, the first starts at the subdevice's
start (behind the sb_addr + 1 reserved blocks on the first data subdevice),
and their lengths add up to the usable length. -/
theorem compute_rgrp_layout_tiles (div_ru : Nat → Nat → Option Nat) (comline : commandline_t)
    (device : List mkfs_subdevice_t) (rlist : List rgrp_list_t)
    (hb : comline.bsize ≠ 0)
    (hdiv : ∀ len,
      (div_ru len (((comline.rgsize <<< 20) % 2 ^ 32) / comline.bsize)).isSome = true)
    (hr : comline.rgrps < 2 ^ 64)
    (hfit : ∀ sdev ∈ device, sdev.is_journal = false → sdev.start + sdev.length < 2 ^ 64)
    (hfirst : ∀ sdev, device.find? (fun s => !s.is_journal) = some sdev →
      comline.sb_addr + 1 ≤ sdev.length) :
    ∃ c d added, compute_rgrp_layout div_ru comline device rlist = some (c, d, rlist ++ added) ∧
      c = { comline with rgrps := (comline.rgrps + added.length) % 2 ^ 64 } ∧
      ∀ x sdev, device[x]? = some sdev →
        (sdev.is_journal = true →
          added.filter (fun rl => decide (rl.subdevice = x)) = []) ∧
        (sdev.is_journal = false →
          tiles div_ru comline sdev (reserved true comline device x)
            (added.filter (fun rl => decide (rl.subdevice = x)))) := by
  obtain ⟨⟨c, d, r⟩, hret⟩ := rgrp_subdev_loop_returns div_ru device 0 true comline none rlist
    hb hdiv
  obtain ⟨added, hadd, hc, _, hall⟩ := rgrp_subdev_loop_tiles div_ru device 0 true comline none
    rlist c d r hret hr hfit (fun _ => hfirst)
  subst hadd
  refine ⟨c, d, added, hret, hc, ?_⟩
  intro x sdev hx
  have := hall x sdev hx
  rw [Nat.zero_add] at this
  exact this

theorem compute_rgrp_layout_tiles_witness :
    ∃ c d added, compute_rgrp_layout div_ru_sample comline_sample device_sample [] =
        some (c, d, [] ++ added) ∧
      c = { comline_sample with rgrps := (comline_sample.rgrps + added.length) % 2 ^ 64 } ∧
      ∀ x sdev, device_sample[x]? = some sdev →
        (sdev.is_journal = true →
          added.filter (fun rl => decide (rl.subdevice = x)) = []) ∧
        (sdev.is_journal = false →
          tiles div_ru_sample comline_sample sdev (reserved true comline_sample device_sample x)
            (added.filter (fun rl => decide (rl.subdevice = x)))) :=
  compute_rgrp_layout_tiles div_ru_sample comline_sample device_sample []
    (by decide) (fun _ => rfl) (by decide)
    (by
      intro sdev h
      simp only [device_sample, List.mem_cons, List.mem_singleton, List.mem_nil_iff,
        or_false] at h
      rcases h with rfl | rfl | rfl <;> intro _ <;> norm_num)
    (by
      intro sdev h
      simp [device_sample, List.find?] at h
      subst h
      decide)

end Mkfs
